import Mathlib

/-!
# lakeFS catalog views and index operations

A shallow embedding of the SQL views built in `catalog/views.go` and of the
branch operations of `index/indexer.go`.

A query is embedded as the function from the contents of the `entries` table
(a list of rows) to the list of rows the query returns.  Column expressions
become functions on rows, `WHERE` becomes `List.filter`, `ORDER BY` a sort,
`DISTINCT ON (path)` keeps the first row of every path of the sorted input.
-/

set_option autoImplicit false

/-! # Definitions: the catalog views (`catalog/views.go`) -/

namespace Catalog

/-- The commit constants used by `views.go` (the Go type `CommitID` is an
`int64` that is only compared, never computed with: it is `Int` here).  They are declared outside the
files at hand, so the views take them as a parameter: the two special values
of a requested commit and the value of the SQL function `max_commit_id()`. -/
structure CommitConsts where
  UncommittedID : Int
  CommittedID : Int
  MaxCommitID : Int
  deriving Repr, DecidableEq

/-- The Go struct `lineageCommit`: an ancestor branch and the commit up to
which the displayed branch sees it. -/
structure lineageCommit where
  BranchID : Int
  CommitID : Int
  deriving Repr, DecidableEq

/-- A row of the `entries` table: the columns the views read.
(`creation_date` and `metadata` are carried through by the views without
being inspected and are left out.) -/
structure Entry where
  branch_id : Int
  path : String
  physical_address : String
  checksum : String
  size : Int
  min_commit : Int
  max_commit : Int
  is_expired : Bool
  ctid : Nat
  deriving Repr, DecidableEq

/-- A row of the sub-select of `sqEntriesV`: the table row with the computed
columns `is_committed`, `is_tombstone`, `entry_ctid`, `is_deleted`,
`commit_weight`. -/
structure EntryV extends Entry where
  is_committed : Bool
  is_tombstone : Bool
  entry_ctid : Nat
  is_deleted : Bool
  commit_weight : Int
  deriving Repr, DecidableEq

/-- The column list of `sqEntriesV` evaluated on one table row. -/
def entriesVColumns (k : CommitConsts) (e : Entry) : EntryV :=
  { e with
    is_committed := decide (e.min_commit > 0)
    is_tombstone := decide (e.max_commit = 0)
    entry_ctid := e.ctid
    is_deleted := decide (e.max_commit < k.MaxCommitID)
    commit_weight := if e.min_commit = 0 then k.MaxCommitID else e.min_commit }

/-- The `WHERE` clause that the `switch` of `sqEntriesV` adds for the
requested commit. -/
def entriesVWhere (k : CommitConsts) (requestedCommit : Int) (e : EntryV) : Bool :=
  if requestedCommit = k.UncommittedID then true
  else if requestedCommit = k.CommittedID then e.is_committed
  else decide (requestedCommit ≥ e.min_commit) && e.is_committed

/-- The view `sqEntriesV(requestedCommit)` over the `entries` table. -/
def sqEntriesV (k : CommitConsts) (requestedCommit : Int) (entries : List Entry) :
    List EntryV :=
  (entries.map (entriesVColumns k)).filter (entriesVWhere k requestedCommit)

/-- A SQL `CASE WHEN c1 THEN v1 ... ELSE d END` over rows of type `ρ`: the
value of the first branch whose condition holds. -/
def sqCase {ρ α : Type} (whens : List ((ρ → Bool) × (ρ → α))) (els : ρ → α) (r : ρ) : α :=
  match whens.find? (fun w => w.1 r) with
  | some w => w.2 r
  | none => els r

/-- The three accumulators of the loop of `sqLineageConditions`: the `WHEN`
branches of `maxCommitExpr` and of `isDeletedExpr`, and `lineageFilter`. -/
structure LineageAcc where
  maxCommitWhens : List ((EntryV → Bool) × (EntryV → Int))
  isDeletedWhens : List ((EntryV → Bool) × (EntryV → Bool))
  lineageFilter : EntryV → Bool

/-- One iteration of the loop `for _, lc := range lineage`. -/
def lineageStep (acc : LineageAcc) (lc : lineageCommit) : LineageAcc :=
  let branchCond : EntryV → Bool := fun e => decide (e.branch_id = lc.BranchID)
  let ancestorCond : EntryV → Bool := fun e => branchCond e && decide (e.max_commit < lc.CommitID)
  { maxCommitWhens := acc.maxCommitWhens ++ [(ancestorCond, fun e => e.max_commit)]
    isDeletedWhens := acc.isDeletedWhens ++ [(ancestorCond, fun e => e.is_deleted)]
    lineageFilter := fun e =>
      acc.lineageFilter e ||
        (branchCond e && decide (e.min_commit ≤ lc.CommitID) && e.is_committed) }

/-- `sqLineageConditions(branchID, lineage)`: the lineage filter, the
`max_commit` column and the `is_deleted` column of a lineage view. -/
def sqLineageConditions (k : CommitConsts) (branchID : Int) (lineage : List lineageCommit) :
    (EntryV → Bool) × (EntryV → Int) × (EntryV → Bool) :=
  let isDisplayedBranch : EntryV → Bool := fun e => decide (e.branch_id = branchID)
  let acc := lineage.foldl lineageStep
    { maxCommitWhens := [(isDisplayedBranch, fun e => e.max_commit)]
      isDeletedWhens := [(isDisplayedBranch, fun e => e.is_deleted)]
      lineageFilter := isDisplayedBranch }
  (acc.lineageFilter,
   sqCase acc.maxCommitWhens (fun _ => k.MaxCommitID),
   sqCase acc.isDeletedWhens (fun _ => false))

/-- A row of a lineage view (`sqEntriesLineage`, `sqEntriesLineageV`). -/
structure LineageRow where
  displayed_branch : Int
  path : String
  source_branch : Int
  min_commit : Int
  physical_address : String
  size : Int
  checksum : String
  is_committed : Bool
  is_tombstone : Bool
  entry_ctid : Nat
  is_expired : Bool
  max_commit : Int
  is_deleted : Bool
  deriving Repr, DecidableEq

/-- The order of two paths: strings compared character by character (the
order `<` of `String`, see `String.lt_iff_toList_lt`, in a form that
evaluates). -/
def pathLt (p q : String) : Prop := p.toList < q.toList

instance pathLtDecidable : DecidableRel pathLt := fun p q =>
  inferInstanceAs (Decidable (p.toList < q.toList))

/-- `ORDER BY e.path, source_branch desc, e.commit_weight desc`: `a` is
sorted no later than `b`. -/
def lineageOrder (a b : EntryV) : Prop :=
  pathLt a.path b.path ∨ (a.path = b.path ∧
    (b.branch_id < a.branch_id ∨ (a.branch_id = b.branch_id ∧ b.commit_weight ≤ a.commit_weight)))

instance lineageOrderDecidable : DecidableRel lineageOrder := fun a b =>
  inferInstanceAs (Decidable (pathLt a.path b.path ∨ (a.path = b.path ∧
    (b.branch_id < a.branch_id ∨ (a.branch_id = b.branch_id ∧ b.commit_weight ≤ a.commit_weight)))))

/-- `DISTINCT ON (e.path)` over a sorted input: the first row of every path. -/
def distinctOnPath : List EntryV → List EntryV
  | [] => []
  | a :: rest => a :: (distinctOnPath rest).filter (fun r => decide (r.path ≠ a.path))

/-- The column list of the lineage views evaluated on one row. -/
def lineageColumns (branchID : Int) (maxCommit : EntryV → Int) (isDeleted : EntryV → Bool)
    (e : EntryV) : LineageRow :=
  { displayed_branch := branchID
    path := e.path
    source_branch := e.branch_id
    min_commit := e.min_commit
    physical_address := e.physical_address
    size := e.size
    checksum := e.checksum
    is_committed := e.is_committed
    is_tombstone := e.is_tombstone
    entry_ctid := e.entry_ctid
    is_expired := e.is_expired
    max_commit := maxCommit e
    is_deleted := isDeleted e }

/-- The rows `sqEntriesLineage` keeps, before the column list is applied:
the rows of `sqEntriesV` that pass the lineage filter, sorted, one per path. -/
def sqEntriesLineageKept (k : CommitConsts) (branchID : Int) (requestedCommit : Int)
    (lineage : List lineageCommit) (entries : List Entry) : List EntryV :=
  let lineageFilter := (sqLineageConditions k branchID lineage).1
  distinctOnPath
    (((sqEntriesV k requestedCommit entries).filter lineageFilter).insertionSort lineageOrder)

/-- The view `sqEntriesLineage(branchID, requestedCommit, lineage)`.  The Go
function repeats the loop of `sqLineageConditions` word for word (lines 34-49
against 64-79), so the conditions are taken from there. -/
def sqEntriesLineage (k : CommitConsts) (branchID : Int) (requestedCommit : Int)
    (lineage : List lineageCommit) (entries : List Entry) : List LineageRow :=
  let conds := sqLineageConditions k branchID lineage
  (sqEntriesLineageKept k branchID requestedCommit lineage entries).map
    (lineageColumns branchID conds.2.1 conds.2.2)

/-- The view `sqEntriesLineageV`: the same query built from
`sqLineageConditions`. -/
def sqEntriesLineageV (k : CommitConsts) (branchID : Int) (requestedCommit : Int)
    (lineage : List lineageCommit) (entries : List Entry) : List LineageRow :=
  let conds := sqLineageConditions k branchID lineage
  (distinctOnPath
    (((sqEntriesV k requestedCommit entries).filter conds.1).insertionSort lineageOrder)).map
    (lineageColumns branchID conds.2.1 conds.2.2)

/-- A row of the inner select of `sqTopEntryV`. -/
structure TopEntryRow where
  path : String
  source_branch : Int
  is_committed : Bool
  is_tombstone : Bool
  is_deleted : Bool
  deriving Repr, DecidableEq

/-- The inner select (`baseSelect`) of `sqTopEntryV`. -/
def sqTopEntryBase (k : CommitConsts) (branchID : Int) (requestedCommit : Int)
    (lineage : List lineageCommit) (entries : List Entry) : List TopEntryRow :=
  let conds := sqLineageConditions k branchID lineage
  ((sqEntriesV k requestedCommit entries).filter conds.1).map fun e =>
    { path := e.path
      source_branch := e.branch_id
      is_committed := e.is_committed
      is_tombstone := e.is_tombstone
      is_deleted := conds.2.2 e }

/-- The view `sqTopEntryV`: the paths of the rows of the inner select that
are not reported deleted. -/
def sqTopEntryV (k : CommitConsts) (branchID : Int) (requestedCommit : Int)
    (lineage : List lineageCommit) (entries : List Entry) : List String :=
  ((sqTopEntryBase k branchID requestedCommit lineage entries).filter
    (fun e => !e.is_deleted)).map (fun e => e.path)

/-- A table row is visible in the lineage views of branch `branchID` when the
view built over that row admits it (`sqEntriesV` keeps it and the lineage
filter holds) and the `is_deleted` column reports it not deleted. -/
def rowVisible (k : CommitConsts) (branchID : Int) (requestedCommit : Int)
    (lineage : List lineageCommit) (e : Entry) : Bool :=
  let conds := sqLineageConditions k branchID lineage
  (sqEntriesV k requestedCommit [e]).any (fun v => conds.1 v && !conds.2.2 v)

/-- The rows admitted to a lineage view: the rows of `sqEntriesV` that pass
the lineage filter. -/
def admittedRows (k : CommitConsts) (branchID : Int) (requestedCommit : Int)
    (lineage : List lineageCommit) (entries : List Entry) : List EntryV :=
  (sqEntriesV k requestedCommit entries).filter (sqLineageConditions k branchID lineage).1

/-- The condition `branchCond AND e.max_commit < commitStr` of one ancestor. -/
def ancestorCond (lc : lineageCommit) (e : EntryV) : Bool :=
  decide (e.branch_id = lc.BranchID) && decide (e.max_commit < lc.CommitID)

/-- The disjunct that one ancestor adds to the lineage filter. -/
def ancestorAdmits (lc : lineageCommit) (e : EntryV) : Bool :=
  decide (e.branch_id = lc.BranchID) && decide (e.min_commit ≤ lc.CommitID) && e.is_committed

/-- The concrete constants used in the examples: `UncommittedID = 0`,
`CommittedID = -1` and a sentinel of `1000`. -/
def exampleConsts : CommitConsts :=
  { UncommittedID := 0, CommittedID := -1, MaxCommitID := 1000 }

/-- A table row for the examples: branch, path, address, checksum, commit
range and `ctid`. -/
def exampleEntry (b : Int) (p addr sum : String) (mn mx : Int) (ctid : Nat) : Entry :=
  { branch_id := b, path := p, physical_address := addr, checksum := sum, size := 1,
    min_commit := mn, max_commit := mx, is_expired := false, ctid := ctid }

/-- The lineage of branch 3 in the examples: parent 2 up to commit 5, then
grandparent 1 up to commit 3. -/
def exampleLineage : List lineageCommit := [⟨2, 5⟩, ⟨1, 3⟩]

/-- A table for the examples: the path `a` on branches 1, 2 and 3. -/
def exampleTable : List Entry :=
  [exampleEntry 1 "a" "x" "x" 1 1000 0, exampleEntry 2 "a" "y" "y" 2 1000 1,
   exampleEntry 3 "a" "z" "z" 7 1000 2, exampleEntry 3 "a" "w" "w" 0 1000 3]

/-- SQL `LEFT JOIN right ON right.path = left.path`: every left row with
each matching right row, or once with `NULL`s (`none`) when none matches. -/
def leftJoinOnPath {α β : Type} (pathOfLeft : α → String) (pathOfRight : β → String)
    (left : List α) (right : List β) : List (α × Option β) :=
  left.flatMap fun a =>
    match right.filter (fun b => decide (pathOfRight b = pathOfLeft a)) with
    | [] => [(a, none)]
    | ms => ms.map (fun b => (a, some b))

/-- A row of the inner select `fromSonInternalQ` of `sqDiffFromSonV`.
Every boolean column is guarded by `f.path IS NOT NULL AND` (or `COALESCE`),
so none of them is `NULL`. -/
structure FromSonRow where
  path : String
  DifferenceTypeRemoved : Bool
  DifferenceTypeChanged : Bool
  both_deleted : Bool
  same_object : Bool
  entry_ctid : Nat
  source_branch : Option Int
  DifferenceTypeConflict : Bool
  deriving Repr, DecidableEq

/-- A row returned by `sqDiffFromSonV`. -/
structure DiffFromSonRow where
  diff_type : Int
  path : String
  entry_ctid : Option Nat
  source_branch : Option Int
  deriving Repr, DecidableEq

/-- The `NOT EXISTS (SELECT * FROM sonLineageValues WHERE ...)` of the
conflict column: no row `l` of the son's lineage proves that the son could
observe the father's row. -/
def sonCannotSee (sonLineageValues : List lineageCommit) (f : LineageRow) : Bool :=
  !(sonLineageValues.any fun l =>
      decide (l.BranchID = f.source_branch) &&
        (decide (l.CommitID ≥ f.min_commit) &&
          (decide (l.CommitID > f.max_commit) || !f.is_deleted)))

/-- The column list of `fromSonInternalQ` on a son row `s` joined with the
father's row `f` of the same path (`none`: no such row). -/
def fromSonColumns (fatherID fatherEffectiveCommit : Int) (sonLineageValues : List lineageCommit)
    (s : EntryV) (f : Option LineageRow) : FromSonRow :=
  { path := s.path
    DifferenceTypeRemoved := s.is_deleted
    DifferenceTypeChanged :=
      match f with
      | none => false
      | some f => !f.is_deleted
    both_deleted :=
      (match f with
       | none => true
       | some f => f.is_deleted) && s.is_deleted
    same_object :=
      match f with
      | none => false
      | some f =>
        decide (f.physical_address = s.physical_address) && decide (f.is_deleted = s.is_deleted)
    entry_ctid := s.entry_ctid
    source_branch := f.map (fun f => f.source_branch)
    DifferenceTypeConflict :=
      match f with
      | none => false
      | some f =>
        !f.is_committed ||
          (decide (f.source_branch = fatherID) &&
            (decide (f.min_commit > fatherEffectiveCommit) ||
              (decide (f.max_commit ≥ fatherEffectiveCommit) && f.is_deleted))) ||
          (decide (f.source_branch ≠ fatherID) && sonCannotSee sonLineageValues f) }

/-- The `CASE` of the `diff_type` column, shared by both diff queries. -/
def diffTypeCase (conflict removed changed : Bool) : Int :=
  if conflict then 3 else if removed then 1 else if changed then 2 else 0

/-- The outer select of `sqDiffFromSonV` on one row of `RemoveNonRelevantQ`. -/
def fromSonOutput (t : FromSonRow) : DiffFromSonRow :=
  { diff_type :=
      diffTypeCase t.DifferenceTypeConflict t.DifferenceTypeRemoved t.DifferenceTypeChanged
    path := t.path
    entry_ctid :=
      if !(t.DifferenceTypeConflict || t.DifferenceTypeRemoved) then some t.entry_ctid else none
    source_branch := t.source_branch }

/-- The rows `s` scanned by `sqDiffFromSonV`: the committed rows of the son
changed since `sonEffectiveCommit`. -/
def fromSonScan (k : CommitConsts) (sonID sonEffectiveCommit : Int) (entries : List Entry) :
    List EntryV :=
  (sqEntriesV k k.CommittedID entries).filter fun e =>
    decide (e.branch_id = sonID) &&
      (decide (e.min_commit ≥ sonEffectiveCommit) ||
        (decide (e.max_commit ≥ sonEffectiveCommit) && e.is_deleted))

/-- The father's side of `sqDiffFromSonV`: its uncommitted lineage view. -/
def fromSonFather (k : CommitConsts) (fatherID : Int)
    (fatherUncommittedLineage : List lineageCommit) (entries : List Entry) : List LineageRow :=
  (sqEntriesLineage k fatherID k.UncommittedID fatherUncommittedLineage entries).filter
    fun z => decide (z.displayed_branch = fatherID)

/-- The view `sqDiffFromSonV`.  `sonLineageValues` is the table `l` the Go
code receives as SQL text; it is passed as its rows. -/
def sqDiffFromSonV (k : CommitConsts) (fatherID sonID : Int)
    (fatherEffectiveCommit sonEffectiveCommit : Int)
    (fatherUncommittedLineage : List lineageCommit) (sonLineageValues : List lineageCommit)
    (entries : List Entry) : List DiffFromSonRow :=
  let fromSonInternalQ :=
    (leftJoinOnPath (fun s : EntryV => s.path) (fun f : LineageRow => f.path)
      (fromSonScan k sonID sonEffectiveCommit entries)
      (fromSonFather k fatherID fatherUncommittedLineage entries)).map
      fun sf => fromSonColumns fatherID fatherEffectiveCommit sonLineageValues sf.1 sf.2
  let RemoveNonRelevantQ := fromSonInternalQ.filter fun t => !(t.same_object || t.both_deleted)
  RemoveNonRelevantQ.map fromSonOutput

/-- A row of the inner select `internalV` of `sqDiffFromFatherV`. -/
structure FromFatherRow where
  path : String
  entry_ctid : Nat
  DifferenceTypeRemoved : Bool
  DifferenceTypeChanged : Bool
  both_deleted : Bool
  same_object : Bool
  father_changed : Bool
  entry_in_son : Bool
  DifferenceTypeConflict : Bool
  deriving Repr, DecidableEq

/-- A row returned by `sqDiffFromFatherV`. -/
structure DiffFromFatherRow where
  diff_type : Int
  path : String
  entry_ctid : Option Nat
  deriving Repr, DecidableEq

/-- The column list of `internalV` on a father row `f`, the son's row `s` of
the same path (`none`: no such row) and the joined lineage row `l`. -/
def fromFatherColumns (sonID lastSonMergeWithFather : Int) (f : LineageRow)
    (s : Option LineageRow) (l : lineageCommit) : FromFatherRow :=
  { path := f.path
    entry_ctid := f.entry_ctid
    DifferenceTypeRemoved := f.is_deleted
    DifferenceTypeChanged :=
      match s with
      | none => false
      | some s => !s.is_deleted
    both_deleted :=
      (match s with
       | none => true
       | some s => s.is_deleted) && f.is_deleted
    same_object :=
      match s with
      | none => false
      | some s =>
        decide (f.physical_address = s.physical_address) && decide (f.is_deleted = s.is_deleted)
    father_changed :=
      decide (f.min_commit > l.CommitID) || (decide (f.max_commit ≥ l.CommitID) && f.is_deleted)
    entry_in_son :=
      match s with
      | none => false
      | some s => decide (s.source_branch = sonID)
    DifferenceTypeConflict :=
      match s with
      | none => false
      | some s =>
        decide (s.source_branch = sonID) &&
          (!s.is_committed || decide (s.min_commit > lastSonMergeWithFather) ||
            (decide (s.max_commit ≥ lastSonMergeWithFather) && s.is_deleted)) }

/-- The outer select of `sqDiffFromFatherV` on one row of
`RemoveNonRelevantQ`. -/
def fromFatherOutput (t : FromFatherRow) : DiffFromFatherRow :=
  { diff_type :=
      diffTypeCase t.DifferenceTypeConflict t.DifferenceTypeRemoved t.DifferenceTypeChanged
    path := t.path
    entry_ctid := if t.DifferenceTypeChanged && t.entry_in_son then some t.entry_ctid else none }

/-- The father's side of `sqDiffFromFatherV`: its committed lineage view. -/
def fromFatherFather (k : CommitConsts) (fatherID : Int)
    (fatherUncommittedLineage : List lineageCommit) (entries : List Entry) : List LineageRow :=
  (sqEntriesLineage k fatherID k.CommittedID fatherUncommittedLineage entries).filter
    fun f => decide (f.displayed_branch = fatherID)

/-- The son's side of `sqDiffFromFatherV`: its uncommitted lineage view. -/
def fromFatherSon (k : CommitConsts) (sonID : Int)
    (sonUncommittedLineage : List lineageCommit) (entries : List Entry) : List LineageRow :=
  (sqEntriesLineage k sonID k.UncommittedID sonUncommittedLineage entries).filter
    fun s => decide (s.displayed_branch = sonID)

/-- The view `sqDiffFromFatherV`.  `getLineageAsValues` is declared outside
the files at hand: it is a parameter, giving the rows `(branch_id,
commit_id)` of the table `l`. -/
def sqDiffFromFatherV (k : CommitConsts)
    (getLineageAsValues : List lineageCommit → Int → List lineageCommit)
    (fatherID sonID : Int) (lastSonMergeWithFather : Int)
    (fatherUncommittedLineage sonUncommittedLineage : List lineageCommit)
    (entries : List Entry) : List DiffFromFatherRow :=
  let sonLineageValues := getLineageAsValues sonUncommittedLineage sonID
  let joined :=
    (leftJoinOnPath (fun f : LineageRow => f.path) (fun s : LineageRow => s.path)
      (fromFatherFather k fatherID fatherUncommittedLineage entries)
      (fromFatherSon k sonID sonUncommittedLineage entries)).flatMap fun fs =>
      (sonLineageValues.filter fun l => decide (fs.1.source_branch = l.BranchID)).map
        fun l => (fs.1, fs.2, l)
  let internalV := joined.map fun fsl =>
    fromFatherColumns sonID lastSonMergeWithFather fsl.1 fsl.2.1 fsl.2.2
  let RemoveNonRelevantQ := internalV.filter fun t =>
    t.father_changed && !(t.same_object || t.both_deleted)
  RemoveNonRelevantQ.map fromFatherOutput

/-- The table `l` of a son with the given lineage, for the examples: the son
itself up to the sentinel, then its lineage. -/
def exampleLineageValues (lineage : List lineageCommit) (branchID : Int) : List lineageCommit :=
  ⟨branchID, exampleConsts.MaxCommitID⟩ :: lineage

/-- `DirectoryTerminationValue = 1_000_000`. -/
def DirectoryTerminationValue : Nat := 1000000

/-- The character `rune(DirectoryTerminationValue)`, in SQL `chr(1000000)`. -/
def DirectoryTerminationChar : Char := Char.ofNat DirectoryTerminationValue

/-- `DirectoryTermination = string(rune(DirectoryTerminationValue))`. -/
def DirectoryTermination : String := String.singleton DirectoryTerminationChar

/-- SQL `substr(s, start)` for `start >= 1`: the text from the character at
position `start` (counted from 1) on. -/
def sqlSubstr (s : String) (start : Nat) : String :=
  String.mk (s.toList.drop (start - 1))

/-- The scan of `strpos`: the position (counting from `i`) of the first
occurrence of `sub` in the characters, or 0 when there is none. -/
def strposFrom (sub : List Char) : List Char → Nat → Nat
  | [], i => if sub = [] then i else 0
  | c :: cs, i => if sub.isPrefixOf (c :: cs) then i else strposFrom sub cs (i + 1)

/-- SQL `strpos(s, sub)`: the position, counted from 1, of the first
occurrence of `sub` in `s`, or 0 when there is none. -/
def sqlStrpos (s sub : String) : Nat :=
  strposFrom sub.toList s.toList 1

/-- SQL `left(s, n)` for `n >= 0`: the first `n` characters. -/
def sqlLeft (s : String) (n : Nat) : String :=
  String.mk (s.toList.take n)

/-- The expression `getNextMarkerV` of `sqListByPrefix` on a path:
`CASE WHEN strPos(substr(path, prefixLen), delimiter) > 0
 THEN left(substr(path, prefixLen), strPos(...)) || chr(1000000)
 ELSE substr(path, prefixLen) END`. -/
def getNextMarkerV (prefixLen : Nat) (delimiter : String) (path : String) : String :=
  let strPosV := sqlStrpos (sqlSubstr path prefixLen) delimiter
  let pathWithOutPrefixV := sqlSubstr path prefixLen
  let directoryPartV := sqlLeft pathWithOutPrefixV strPosV
  if strPosV > 0 then directoryPartV ++ DirectoryTermination else pathWithOutPrefixV

/-- The marker of `getNextMarkerV` in closed form, for a delimiter of one
character `d` and the termination character `dt`, on the characters `w` of
the path below the prefix: `w` cut right after the first `d` and followed
by `dt` when `w` contains `d`, otherwise `w` itself (see
`getNextMarkerV_toList`). -/
def markerOf {α : Type} [DecidableEq α] (d dt : α) (w : List α) : List α :=
  if d ∈ w then w.takeWhile (fun c => c ≠ d) ++ [d, dt] else w

/-- SQL `min(path)`: the least path, `NULL` (`none`) over no rows. -/
def sqlMinPath : List String → Option String
  | [] => none
  | p :: rest =>
    match sqlMinPath rest with
    | none => some p
    | some m => if pathLt m p then some m else some p

/-- The sub-select `SELECT min(path) FROM (sqTopEntryV) e WHERE e.path > lower
and e.path < upper`, followed by the marker column; a `NULL` path gives a
`NULL` marker. -/
def nextMarkerAfter (top : List String) (prefixLen : Nat) (delimiter lower upper : String) :
    Option String :=
  (sqlMinPath (top.filter fun p => decide (pathLt lower p) && decide (pathLt p upper))).map
    (getNextMarkerV prefixLen delimiter)

/-- The rows `(num, marker)` of the recursive table `dir_list`, starting from
one row: a row yields the next one when `num <= maxLines`, its marker is not
`NULL` and `length(marker) > 0`.  `fuel` bounds the number of recursive
steps; `maxLines` steps are enough (see `dirListRows_fuel`). -/
def dirListRows (next : String → Option String) (maxLines : Int) :
    Nat → Int → Option String → List (Int × Option String)
  | 0, num, marker => [(num, marker)]
  | fuel + 1, num, marker =>
    (num, marker) ::
      (match marker with
       | some m =>
         if num ≤ maxLines ∧ m.length > 0 then dirListRows next maxLines fuel (num + 1) (next m)
         else []
       | none => [])

/-- The query built by `sqListByPrefix(prefix, after, delimiter, branchID,
maxLines, requestedCommit, lineage)`: the markers of the rows of `dir_list`
that are not `NULL`.  (`pfx` is the Go parameter `prefix`; `len(prefix)` is
the length in bytes.) -/
def sqListByPrefix (k : CommitConsts) (pfx after delimiter : String) (branchID : Int)
    (maxLines : Int) (requestedCommit : Int) (lineage : List lineageCommit)
    (entries : List Entry) : List String :=
  let after :=
    if delimiter.toList.isSuffixOf after.toList then after ++ DirectoryTermination else after
  let prefixLen := pfx.utf8ByteSize + 1
  let endOfPrefixRange := pfx ++ DirectoryTermination
  let top := sqTopEntryV k branchID requestedCommit lineage entries
  let cteStart := nextMarkerAfter top prefixLen delimiter (pfx ++ after) endOfPrefixRange
  let nextMarkerSelect := fun (marker : String) =>
    nextMarkerAfter top prefixLen delimiter (pfx ++ marker) endOfPrefixRange
  let dir_list := dirListRows nextMarkerSelect maxLines maxLines.toNat 1 cteStart
  dir_list.filterMap fun d => d.2

/-- The Go struct `LevelEntryResult`: the path below the prefix, whether the
result is a common level (a directory), and the entry (`nil` for a common
level). -/
structure LevelEntryResult where
  Path : String
  CommonLevel : Bool
  Entry : Option Entry
  deriving Repr, DecidableEq

/-- Modelled from the spec: the result that `ListEntriesByLevel` (declared
outside the files at hand) makes of one marker of `sqListByPrefix`.  A marker
that ends with the directory termination character is a common-prefix
result (`entry = null`, `is_common_prefix = true`) whose path is the marker
without that character; any other marker is the path, below the prefix, of
a visible entry, which is returned with it. -/
def levelEntryResult (k : CommitConsts) (pfx : String) (branchID : Int) (requestedCommit : Int)
    (lineage : List lineageCommit) (entries : List Entry) (marker : String) :
    LevelEntryResult :=
  if marker.toList.getLast? = some DirectoryTerminationChar then
    { Path := String.mk marker.toList.dropLast, CommonLevel := true, Entry := none }
  else
    { Path := marker, CommonLevel := false
      Entry := entries.find? fun e =>
        decide (e.path = pfx ++ marker) && rowVisible k branchID requestedCommit lineage e }

/-- Modelled from the spec: `ListEntriesByLevel(repository, reference,
prefix, after, delimiter, limit)` (declared outside the files at hand) runs
the query of `sqListByPrefix` with `maxLines = limit`, returns at most
`limit` results, one for each of the first `limit` markers, and reports
`has_more` when the query returned a further marker. -/
def ListEntriesByLevel (k : CommitConsts) (pfx after delimiter : String) (branchID : Int)
    (limit : Int) (requestedCommit : Int) (lineage : List lineageCommit)
    (entries : List Entry) : List LevelEntryResult × Bool :=
  let markers :=
    sqListByPrefix k pfx after delimiter branchID limit requestedCommit lineage entries
  ((markers.take limit.toNat).map
      (levelEntryResult k pfx branchID requestedCommit lineage entries),
    decide (markers.length > limit.toNat))

/-- An uncommitted row of branch 1 for the examples. -/
def exampleFile (path : String) : Entry :=
  exampleEntry 1 path path path 0 exampleConsts.MaxCommitID 0

/-- The entries of `TestCataloger_ListEntriesByLevel`. -/
def exampleListing : List Entry :=
  ["file1", "file2", "file2/xxx", "file3/", "file4", "file5", "file6/yyy", "file6/zzz/zzz",
   "file6/ccc", "file7", "file8", "file9", "filea", "/fileb", "//filec", "///filed"].map
    exampleFile

end Catalog

/-! # Definitions: the index (`index/indexer.go`) -/

namespace Index

/-- The errors of the index: `db.ErrNotFound`, the errors of the `errors`
package, a validation error and any other store error. -/
inductive Err where
  | ErrNotFound
  | ErrBranchAlreadyExists
  | ErrRepoExists
  | ErrNoMergeBase
  | Validation (what : String)
  | Other (what : String)
  deriving Repr, DecidableEq

/-- The Go struct `model.Repo`. -/
structure Repo where
  Id : String
  StorageNamespace : String
  CreationDate : Int
  DefaultBranch : String
  deriving Repr, DecidableEq

/-- The Go struct `model.Branch`. -/
structure Branch where
  RepositoryId : String
  Id : String
  CommitId : String
  CommitRoot : String
  WorkspaceRoot : String
  deriving Repr, DecidableEq

/-- The Go struct `model.Commit`; `Metadata` is the map as a list of
key/value pairs. -/
structure Commit where
  RepositoryId : String
  Address : String
  Tree : String
  Committer : String
  Message : String
  CreationDate : Int
  Parents : List String
  Metadata : List (String × String)
  deriving Repr, DecidableEq

/-- The Go struct `model.Entry`. -/
structure Entry where
  RepositoryId : String
  Name : String
  Address : String
  EntryType : String
  CreationDate : Int
  Size : Int
  Checksum : String
  deriving Repr, DecidableEq

/-- The Go struct `model.WorkspaceEntry`; a nil pointer field is `none`. -/
structure WorkspaceEntry where
  RepositoryId : String
  BranchId : String
  ParentPath : String
  Path : String
  EntryName : Option String
  EntryAddress : Option String
  EntryType : Option String
  EntryCreationDate : Option Int
  EntrySize : Option Int
  EntryChecksum : Option String
  Tombstone : Bool
  deriving Repr, DecidableEq

/-- A row of the workspace table: the arguments of one
`WriteToWorkspacePath(branch, parentPath, path, entry)`. -/
structure WorkspaceRow where
  branch : String
  parentPath : String
  path : String
  entry : WorkspaceEntry
  deriving Repr, DecidableEq

/-- The writes a transaction can issue, as recorded in the store's log. -/
inductive Op where
  | WriteToWorkspacePath (branch parentPath path : String) (entry : WorkspaceEntry)
  | DeleteWorkspacePath (branch path : String)
  | ClearWorkspace (branch : String)
  | WriteBranch (branch : String) (data : Branch)
  | DeleteBranch (branch : String)
  | WriteCommit (addr : String) (commit : Commit)
  | WriteTrees
  | WriteObject (addr : String)
  deriving Repr, DecidableEq

/-- Modelled from the spec: the transactional store (`store.RepoOperations`
of one repository) is declared outside the files at hand.  It is the
in-memory state of the repository's tables: the repository row, the branches
by name, the workspace rows by branch and path, the commits by address and
the tree storage `trees`, kept abstract.  `log` records the writes issued so
far, in order. -/
structure Store (τ : Type) where
  repo : Option Repo
  branches : List (String × Branch)
  workspace : List WorkspaceRow
  commits : List (String × Commit)
  trees : τ
  log : List Op

/-- What the index takes from packages outside the files at hand: the
validators, the Merkle tree reads and updates it calls (`merkle.GetEntry`,
`merkle.Update` as called by this revision of the index), `ident.Hash` on
commits, the path helpers of `index/path` and the entry type constants. -/
structure Env (τ : Type) where
  ValidateRepoId : String → Option Err
  ValidateRef : String → Option Err
  ValidatePath : String → Option Err
  ValidateCommitMessage : String → Option Err
  ValidateCommitID : String → Option Err
  GetEntry : τ → String → String → String → Except Err Entry
  Update : τ → String → List WorkspaceEntry → Except Err (τ × String)
  Hash : Commit → String
  HasParent : String → Bool
  DirName : String → String
  Basename : String → String
  EntryTypeObject : String
  EntryTypeTree : String

variable {τ : Type}

/-- Modelled from the spec: `ValidateAll` (declared outside the files at
hand) runs the validators in order and returns the first error. -/
def ValidateAll (checks : List (Option Err)) : Option Err :=
  checks.findSome? id

/-- Modelled from the spec: `tx.ReadRepo()`. -/
def ReadRepo (tx : Store τ) : Except Err Repo :=
  match tx.repo with
  | some r => .ok r
  | none => .error .ErrNotFound

/-- Modelled from the spec: `tx.ReadBranch(branch)`. -/
def ReadBranch (tx : Store τ) (branch : String) : Except Err Branch :=
  match tx.branches.lookup branch with
  | some b => .ok b
  | none => .error .ErrNotFound

/-- Modelled from the spec: `tx.WriteBranch(branch, data)`. -/
def WriteBranch (tx : Store τ) (branch : String) (data : Branch) : Store τ :=
  { tx with
    branches := (branch, data) :: tx.branches.filter (fun kv => kv.1 ≠ branch)
    log := tx.log ++ [.WriteBranch branch data] }

/-- Modelled from the spec: `tx.ReadCommit(addr)`. -/
def ReadCommit (tx : Store τ) (addr : String) : Except Err Commit :=
  match tx.commits.lookup addr with
  | some c => .ok c
  | none => .error .ErrNotFound

/-- Modelled from the spec: `tx.WriteCommit(addr, commit)`. -/
def WriteCommit (tx : Store τ) (addr : String) (commit : Commit) : Store τ :=
  { tx with
    commits := (addr, commit) :: tx.commits.filter (fun kv => kv.1 ≠ addr)
    log := tx.log ++ [.WriteCommit addr commit] }

/-- Modelled from the spec: `tx.ListWorkspace(branch)`. -/
def ListWorkspace (tx : Store τ) (branch : String) : List WorkspaceEntry :=
  (tx.workspace.filter (fun r => r.branch = branch)).map (fun r => r.entry)

/-- Modelled from the spec: `tx.ReadFromWorkspace(branch, path)`. -/
def ReadFromWorkspace (tx : Store τ) (branch path : String) : Except Err WorkspaceEntry :=
  match tx.workspace.find? (fun r => r.branch = branch ∧ r.path = path) with
  | some r => .ok r.entry
  | none => .error .ErrNotFound

/-- Modelled from the spec: `tx.WriteToWorkspacePath(branch, parentPath,
path, entry)`; one row per branch and path. -/
def WriteToWorkspacePath (tx : Store τ) (branch parentPath path : String)
    (entry : WorkspaceEntry) : Store τ :=
  { tx with
    workspace := tx.workspace.filter (fun r => ¬ (r.branch = branch ∧ r.path = path))
      ++ [{ branch := branch, parentPath := parentPath, path := path, entry := entry }]
    log := tx.log ++ [.WriteToWorkspacePath branch parentPath path entry] }

/-- Modelled from the spec: `tx.DeleteWorkspacePath(branch, path)`. -/
def DeleteWorkspacePath (tx : Store τ) (branch path : String) : Store τ :=
  { tx with
    workspace := tx.workspace.filter (fun r => ¬ (r.branch = branch ∧ r.path = path))
    log := tx.log ++ [.DeleteWorkspacePath branch path] }

/-- Modelled from the spec: `tx.ClearWorkspace(branch)`. -/
def ClearWorkspace (tx : Store τ) (branch : String) : Store τ :=
  { tx with
    workspace := tx.workspace.filter (fun r => r.branch ≠ branch)
    log := tx.log ++ [.ClearWorkspace branch] }

/-- Modelled from the spec: `store.RepoTransact(repoId, fn)` runs `fn` in one
transaction of the repository: its writes are kept when `fn` returns without
error and dropped otherwise. -/
def RepoTransact {α : Type} (st : Store τ) (fn : Store τ → Except Err (α × Store τ)) :
    Except Err α × Store τ :=
  match fn st with
  | .ok (a, tx) => (.ok a, tx)
  | .error e => (.error e, st)

/-- `DefaultPartialCommitRatio = 1`. -/
def DefaultPartialCommitRatio : ℚ := 1

/-- `shouldPartiallyCommit`; `chosen` is the value drawn by `rand.Float32()`. -/
def shouldPartiallyCommit (chosen : ℚ) : Bool :=
  decide (chosen < DefaultPartialCommitRatio)

/-- `partialCommit(tx, branch)`. -/
def partialCommit (env : Env τ) (tx : Store τ) (branch : String) : Except Err (Store τ) :=
  let wsEntries := ListWorkspace tx branch
  if wsEntries.length = 0 then .ok tx
  else
    match ReadBranch tx branch with
    | .error .ErrNotFound => .ok tx
    | .error e => .error e
    | .ok branchData =>
      match env.Update tx.trees branchData.WorkspaceRoot wsEntries with
      | .error e => .error e
      | .ok (trees, root) =>
        let tx := { tx with trees := trees, log := tx.log ++ [.WriteTrees] }
        let tx := ClearWorkspace tx branch
        .ok (WriteBranch tx branch
          { RepositoryId := branchData.RepositoryId
            Id := branchData.Id
            CommitId := branchData.CommitId
            CommitRoot := branchData.CommitRoot
            WorkspaceRoot := root })

/-- `writeEntryToWorkspace(tx, repo, branch, path, entry)`. -/
def writeEntryToWorkspace (env : Env τ) (chosen : ℚ) (tx : Store τ) (_repo : Repo)
    (branch path : String) (entry : WorkspaceEntry) : Except Err (Store τ) :=
  let tx := WriteToWorkspacePath tx branch entry.ParentPath path entry
  if shouldPartiallyCommit chosen then partialCommit env tx branch
  else .ok tx

/-- `parentPath(path)`. -/
def parentPath (env : Env τ) (path : String) : String :=
  if env.HasParent path then env.DirName path else ""

/-- The result of a read that treats `db.ErrNotFound` as "absent" and counts
it: the value (nil when absent) and the increment of `notFoundCount`. -/
def orNotFound {α : Type} (r : Except Err α) : Except Err (Option α × Nat) :=
  match r with
  | .ok a => .ok (some a, 0)
  | .error .ErrNotFound => .ok (none, 1)
  | .error e => .error e

/-- The workspace entry that `DeleteObject` writes as a tombstone. -/
def deleteTombstone (env : Env τ) (ts : Int) (path : String) : WorkspaceEntry :=
  { RepositoryId := "", BranchId := "", ParentPath := "", Path := path
    EntryName := some (env.Basename path), EntryAddress := none
    EntryType := some env.EntryTypeObject
    EntryCreationDate := some ts, EntrySize := none, EntryChecksum := none
    Tombstone := true }

/-- The body of the transaction of `DBIndex.DeleteObject`. -/
def DeleteObjectTx (env : Env τ) (ts : Int) (chosen : ℚ) (branch path : String)
    (tx : Store τ) : Except Err (Unit × Store τ) := do
  let repo ← ReadRepo tx
  let (wsEntry, n1) ← orNotFound (ReadFromWorkspace tx branch path)
  let br ← ReadBranch tx branch
  let root := br.WorkspaceRoot
  let (merkleEntry, n2) ← orNotFound (env.GetEntry tx.trees root path env.EntryTypeObject)
  if n1 + n2 = 2 then throw Err.ErrNotFound
  let tx ← match wsEntry with
    | some ws => if ws.Tombstone then throw Err.ErrNotFound
                 else pure (DeleteWorkspacePath tx branch path)
    | none => pure tx
  match merkleEntry with
  | some _ =>
    let tx ← writeEntryToWorkspace env chosen tx repo branch path (deleteTombstone env ts path)
    pure ((), tx)
  | none => pure ((), tx)

/-- `DBIndex.DeleteObject(repoId, branch, path)`; `ts` is the value of the
time generator. -/
def DBIndex.DeleteObject (env : Env τ) (ts : Int) (chosen : ℚ) (st : Store τ)
    (repoId branch path : String) : Except Err Unit × Store τ :=
  match ValidateAll [env.ValidateRepoId repoId, env.ValidateRef branch, env.ValidatePath path] with
  | some err => (.error err, st)
  | none => RepoTransact st (DeleteObjectTx env ts chosen branch path)

/-- The body of the transaction of `DBIndex.Commit`. -/
def CommitTx (env : Env τ) (ts : Int) (branch message committer : String)
    (metadata : List (String × String)) (tx : Store τ) : Except Err (Commit × Store τ) := do
  let tx ← partialCommit env tx branch
  let branchData ← ReadBranch tx branch
  let commit : Commit :=
    { RepositoryId := "", Address := "", Tree := branchData.WorkspaceRoot
      Committer := committer, Message := message, CreationDate := ts
      Parents := [branchData.CommitId], Metadata := metadata }
  let commitAddr := env.Hash commit
  let commit := { commit with Address := commitAddr }
  let tx := WriteCommit tx commitAddr commit
  let branchData :=
    { branchData with CommitId := commitAddr, CommitRoot := commit.Tree, WorkspaceRoot := commit.Tree }
  pure (commit, WriteBranch tx branch branchData)

/-- `DBIndex.Commit(repoId, branch, message, committer, metadata)`. -/
def DBIndex.Commit (env : Env τ) (ts : Int) (st : Store τ) (repoId branch message committer : String)
    (metadata : List (String × String)) : Except Err Commit × Store τ :=
  match ValidateAll [env.ValidateRepoId repoId, env.ValidateRef branch,
      env.ValidateCommitMessage message] with
  | some err => (.error err, st)
  | none => RepoTransact st (CommitTx env ts branch message committer metadata)

/-- `DBIndex.Merge(repoId, source, destination)`: the transaction body is
`return nil, nil`. -/
def DBIndex.Merge (st : Store τ) (_repoId _source _destination : String) : Except Err Unit × Store τ :=
  RepoTransact st (fun tx => .ok ((), tx))

/-- An environment for the examples: every validator accepts, the tree
storage is the list of written roots, `GetEntry` finds the path `"in-tree"`
only, `Update` names the new root after the old one and the number of
entries folded in. -/
def exampleEnv : Env (List String) :=
  { ValidateRepoId := fun _ => none
    ValidateRef := fun _ => none
    ValidatePath := fun _ => none
    ValidateCommitMessage := fun _ => none
    ValidateCommitID := fun _ => none
    GetEntry := fun _ _ path typ =>
      if path = "in-tree" then
        .ok { RepositoryId := "repo", Name := path, Address := "addr", EntryType := typ,
              CreationDate := 0, Size := 1, Checksum := "sum" }
      else .error .ErrNotFound
    Update := fun trees root es =>
      .ok ((root ++ "+" ++ toString es.length) :: trees, root ++ "+" ++ toString es.length)
    Hash := fun c => "commit(" ++ c.Tree ++ "," ++ String.intercalate "," c.Parents ++ ")"
    HasParent := fun p => p.contains '/'
    DirName := fun p => p
    Basename := fun p => p
    EntryTypeObject := "object"
    EntryTypeTree := "tree" }

/-- A repository with the branches `master` (head `c1`, root `r1`) and `b1`
(head `c2`, root `r2`) and the given workspace rows. -/
def exampleStore (workspace : List WorkspaceRow) : Store (List String) :=
  { repo := some { Id := "repo", StorageNamespace := "ns", CreationDate := 0,
                   DefaultBranch := "master" }
    branches :=
      [("master", { RepositoryId := "repo", Id := "master", CommitId := "c1",
                    CommitRoot := "r1", WorkspaceRoot := "r1" }),
       ("b1", { RepositoryId := "repo", Id := "b1", CommitId := "c2",
                CommitRoot := "r2", WorkspaceRoot := "r2" })]
    workspace := workspace
    commits :=
      [("c1", { RepositoryId := "repo", Address := "c1", Tree := "r1", Committer := "",
                Message := "", CreationDate := 0, Parents := [], Metadata := [] }),
       ("c2", { RepositoryId := "repo", Address := "c2", Tree := "r2", Committer := "",
                Message := "", CreationDate := 0, Parents := ["c1"], Metadata := [] })]
    trees := []
    log := [] }

/-- The repository row of the examples. -/
def exampleRepo : Repo :=
  { Id := "repo", StorageNamespace := "ns", CreationDate := 0, DefaultBranch := "master" }

/-- The branch `master` of the examples. -/
def exampleMaster : Branch :=
  { RepositoryId := "repo", Id := "master", CommitId := "c1", CommitRoot := "r1",
    WorkspaceRoot := "r1" }

/-- A live workspace row of `master` for the examples. -/
def exampleLiveRow (path : String) : WorkspaceRow :=
  { branch := "master", parentPath := "", path := path
    entry := { RepositoryId := "repo", BranchId := "master", ParentPath := "", Path := path
               EntryName := some path, EntryAddress := some "a", EntryType := some "object"
               EntryCreationDate := some 1, EntrySize := some 1, EntryChecksum := some "s"
               Tombstone := false } }

/-- The body of the transaction of `DBIndex.RevertCommit`; `gc` does
nothing. -/
def RevertCommitTx (branch commit : String) (tx : Store τ) : Except Err (Unit × Store τ) := do
  let tx := ClearWorkspace tx branch
  let commitData ← ReadCommit tx commit
  let branchData ← ReadBranch tx branch
  let branchData :=
    { branchData with
      CommitId := commit, CommitRoot := commitData.Tree, WorkspaceRoot := commitData.Tree }
  pure ((), WriteBranch tx branch branchData)

/-- `DBIndex.RevertCommit(repoId, branch, commit)`. -/
def DBIndex.RevertCommit (env : Env τ) (st : Store τ) (repoId branch commit : String) :
    Except Err Unit × Store τ :=
  match ValidateAll [env.ValidateRepoId repoId, env.ValidateRef branch,
      env.ValidateCommitID commit] with
  | some err => (.error err, st)
  | none => RepoTransact st (RevertCommitTx branch commit)

/-- The Go struct `model.Object`: the fields the index reads. -/
structure Object where
  Blob : List String
  Size : Int
  Checksum : String
  deriving Repr, DecidableEq

/-- What the reads and the object writes of the index take, in addition,
from packages outside the files at hand: `ident.IsHash`, `ident.Hash` on
objects, the Merkle tree read `merkle.GetObject`, the object table
(`tx.ReadObject`, `tx.WriteObject`, kept in the abstract storage) and
`pth.New(path).String()`. -/
structure ReadEnv (τ : Type) extends Env τ where
  IsHash : String → Bool
  HashObject : Object → String
  GetObject : τ → String → String → Except Err Object
  ReadObject : τ → String → Except Err Object
  WriteObject : τ → String → Object → Except Err τ
  PathString : String → String

/-- The Go struct `reference`. -/
structure reference where
  commit : Commit
  branch : Option Branch
  isBranch : Bool
  deriving Repr, DecidableEq

/-- `resolveRef(tx, ref)`. -/
def resolveRef (env : ReadEnv τ) (tx : Store τ) (ref : String) : Except Err reference :=
  let asCommit : Except Err (Option Commit) :=
    if env.IsHash ref then
      match ReadCommit tx ref with
      | .ok commit => .ok (some commit)
      | .error .ErrNotFound => .ok none
      | .error e => .error e
    else .ok none
  match asCommit with
  | .error e => .error e
  | .ok (some commit) => .ok { commit := commit, branch := none, isBranch := false }
  | .ok none =>
    match ReadBranch tx ref with
    | .error e => .error e
    | .ok branch =>
      match ReadCommit tx branch.CommitId with
      | .error e => .error e
      | .ok commit => .ok { commit := commit, branch := some branch, isBranch := true }

/-- The entry that `readEntry` builds from a live workspace entry; `none`
stands for the run-time panic of dereferencing a nil field. -/
def entryOfWorkspace (we : WorkspaceEntry) : Option Entry :=
  match we.EntryName, we.EntryAddress, we.EntryType, we.EntryCreationDate, we.EntrySize,
      we.EntryChecksum with
  | some name, some address, some typ, some creationDate, some size, some checksum =>
    some { RepositoryId := we.RepositoryId, Name := name, Address := address, EntryType := typ,
           CreationDate := creationDate, Size := size, Checksum := checksum }
  | _, _, _, _, _, _ => none

/-- `readEntry(tx, ref, path, typ)`; `none` stands for a run-time panic
(a nil pointer dereference). -/
def readEntry (env : ReadEnv τ) (tx : Store τ) (ref path typ : String) :
    Option (Except Err Entry) :=
  match ReadRepo tx with
  | .error e => some (.error e)
  | .ok _ =>
    match resolveRef env tx ref with
    | .error e => some (.error e)
    | .ok reference =>
      if reference.isBranch then
        match reference.branch with
        | none => none
        | some branch =>
          -- try reading from workspace
          match ReadFromWorkspace tx branch.Id path with
          | .error .ErrNotFound => some (env.GetEntry tx.trees branch.WorkspaceRoot path typ)
          | .error e => some (.error e)
          | .ok we =>
            if we.Tombstone then some (.error .ErrNotFound)
            else (entryOfWorkspace we).map .ok
      else some (env.GetEntry tx.trees reference.commit.Tree path typ)

/-- `DBIndex.ReadEntry(repoId, branch, path, typ)`: a read-only transaction. -/
def DBIndex.ReadEntry (env : ReadEnv τ) (st : Store τ) (repoId branch path typ : String) :
    Option (Except Err Entry) :=
  match ValidateAll [env.ValidateRepoId repoId, env.ValidateRef branch, env.ValidatePath path] with
  | some err => some (.error err)
  | none => readEntry env st branch path typ

/-- The body of the transaction of `DBIndex.ReadObject`; `none` stands for a
run-time panic. -/
def ReadObjectTx (env : ReadEnv τ) (tx : Store τ) (ref path : String) :
    Option (Except Err Object) :=
  match ReadRepo tx with
  | .error e => some (.error e)
  | .ok _ =>
    match resolveRef env tx ref with
    | .error e => some (.error e)
    | .ok reference =>
      if reference.isBranch then
        match reference.branch with
        | none => none
        | some branch =>
          match ReadFromWorkspace tx branch.Id path with
          | .error .ErrNotFound => some (env.GetObject tx.trees branch.WorkspaceRoot path)
          | .error e => some (.error e)
          | .ok we =>
            if we.Tombstone then some (.error .ErrNotFound)
            else
              match we.EntryAddress with
              | none => none
              | some address => some (env.ReadObject tx.trees address)
      else some (env.GetObject tx.trees reference.commit.Tree path)

/-- `DBIndex.ReadObject(repoId, ref, path)`: a read-only transaction. -/
def DBIndex.ReadObject (env : ReadEnv τ) (st : Store τ) (repoId ref path : String) :
    Option (Except Err Object) :=
  match ValidateAll [env.ValidateRepoId repoId, env.ValidateRef ref, env.ValidatePath path] with
  | some err => some (.error err)
  | none => ReadObjectTx env st ref path

/-- Modelled from the spec: `tx.WriteObject(addr, object)` on the store. -/
def WriteObject (env : ReadEnv τ) (tx : Store τ) (addr : String) (object : Object) :
    Except Err (Store τ) :=
  match env.WriteObject tx.trees addr object with
  | .error e => .error e
  | .ok trees => .ok { tx with trees := trees, log := tx.log ++ [.WriteObject addr] }

/-- The workspace entry that `WriteFile` and `WriteEntry` write. -/
def liveEntry (env : ReadEnv τ) (repoId branch path : String) (entry : Entry) : WorkspaceEntry :=
  { RepositoryId := repoId, BranchId := branch, ParentPath := parentPath env.toEnv path
    Path := path, EntryName := some entry.Name, EntryAddress := some entry.Address
    EntryType := some entry.EntryType, EntryCreationDate := some entry.CreationDate
    EntrySize := some entry.Size, EntryChecksum := some entry.Checksum, Tombstone := false }

/-- The body of the transaction of `DBIndex.WriteFile`. -/
def WriteFileTx (env : ReadEnv τ) (chosen : ℚ) (repoId branch path : String) (entry : Entry)
    (obj : Object) (tx : Store τ) : Except Err (Unit × Store τ) := do
  let repo ← ReadRepo tx
  let tx ← WriteObject env tx (env.HashObject obj) obj
  let tx ← writeEntryToWorkspace env.toEnv chosen tx repo branch path
    (liveEntry env repoId branch path entry)
  pure ((), tx)

/-- `DBIndex.WriteFile(repoId, branch, path, entry, obj)`. -/
def DBIndex.WriteFile (env : ReadEnv τ) (chosen : ℚ) (st : Store τ)
    (repoId branch path : String) (entry : Entry) (obj : Object) : Except Err Unit × Store τ :=
  match ValidateAll [env.ValidateRepoId repoId, env.ValidateRef branch, env.ValidatePath path] with
  | some err => (.error err, st)
  | none => RepoTransact st (WriteFileTx env chosen repoId branch path entry obj)

/-- The body of the transaction of `DBIndex.WriteEntry`. -/
def WriteEntryTx (env : ReadEnv τ) (chosen : ℚ) (repoId branch path : String) (entry : Entry)
    (tx : Store τ) : Except Err (Unit × Store τ) := do
  let repo ← ReadRepo tx
  let tx ← writeEntryToWorkspace env.toEnv chosen tx repo branch path
    (liveEntry env repoId branch path entry)
  pure ((), tx)

/-- `DBIndex.WriteEntry(repoId, branch, path, entry)`. -/
def DBIndex.WriteEntry (env : ReadEnv τ) (chosen : ℚ) (st : Store τ)
    (repoId branch path : String) (entry : Entry) : Except Err Unit × Store τ :=
  match ValidateAll [env.ValidateRepoId repoId, env.ValidateRef branch, env.ValidatePath path] with
  | some err => (.error err, st)
  | none => RepoTransact st (WriteEntryTx env chosen repoId branch path entry)

/-- The workspace entry that `WriteObject` writes; `timestamp` is the value
of the time generator. -/
def objectEntry (env : ReadEnv τ) (timestamp : Int) (repoId branch path : String)
    (object : Object) : WorkspaceEntry :=
  { RepositoryId := repoId, Path := env.PathString path
    ParentPath := parentPath env.toEnv (env.PathString path), BranchId := branch
    EntryName := some (env.Basename path), EntryAddress := some (env.HashObject object)
    EntryType := some env.EntryTypeObject, EntryCreationDate := some timestamp
    EntrySize := some object.Size, EntryChecksum := some object.Checksum, Tombstone := false }

/-- The body of the transaction of `DBIndex.WriteObject`. -/
def WriteObjectTx (env : ReadEnv τ) (timestamp : Int) (chosen : ℚ)
    (repoId branch path : String) (object : Object) (tx : Store τ) :
    Except Err (Unit × Store τ) := do
  let addr := env.HashObject object
  let tx ← WriteObject env tx addr object
  let repo ← ReadRepo tx
  let tx ← writeEntryToWorkspace env.toEnv chosen tx repo branch path
    (objectEntry env timestamp repoId branch path object)
  pure ((), tx)

/-- `DBIndex.WriteObject(repoId, branch, path, object)`. -/
def DBIndex.WriteObject (env : ReadEnv τ) (timestamp : Int) (chosen : ℚ) (st : Store τ)
    (repoId branch path : String) (object : Object) : Except Err Unit × Store τ :=
  match ValidateAll [env.ValidateRepoId repoId, env.ValidateRef branch, env.ValidatePath path] with
  | some err => (.error err, st)
  | none => RepoTransact st (WriteObjectTx env timestamp chosen repoId branch path object)

/-- The directory part of a path for the examples: the text before the last
`/`. -/
def exampleDirName (p : String) : String :=
  String.mk ((p.toList.reverse.dropWhile (fun c => c ≠ '/')).drop 1).reverse

/-- An environment for the examples of reads and writes: as `exampleEnv`,
with the directory part of a path before its last `/`; the tree holds the
paths `in-tree` and `a/b/c`; a reference is a hash when it starts with `c`;
objects are stored nowhere and read back as an empty object. -/
def exampleReadEnv : ReadEnv (List String) :=
  { exampleEnv with
    GetEntry := fun _ _ path typ =>
      if path = "in-tree" ∨ path = "a/b/c" then
        .ok { RepositoryId := "repo", Name := path, Address := "addr", EntryType := typ,
              CreationDate := 0, Size := 1, Checksum := "sum" }
      else .error .ErrNotFound
    HasParent := fun p => p.toList.contains '/'
    DirName := exampleDirName
    IsHash := fun ref => ref.toList.head? = some 'c'
    HashObject := fun o => o.Checksum
    GetObject := fun _ _ path =>
      if path = "in-tree" ∨ path = "a/b/c" then .ok { Blob := [], Size := 1, Checksum := "sum" }
      else .error .ErrNotFound
    ReadObject := fun _ addr => .ok { Blob := [], Size := 1, Checksum := addr }
    WriteObject := fun trees _ _ => .ok trees
    PathString := fun p => p }

/-- A tombstone row of `master` for the examples, as `DeleteObject` writes
it. -/
def exampleTombstoneRow (path : String) : WorkspaceRow :=
  { branch := "master", parentPath := "", path := path
    entry := deleteTombstone exampleEnv 5 path }

end Index

/-! # Definitions: Go integers, slices and indices -/

namespace Go

/-- A Go `int` (64 bits): the value of an integer expression after wrapping. -/
def int64Wrap (x : Int) : Int := (x + 2 ^ 63) % 2 ^ 64 - 2 ^ 63

/-- The Go slice expression `s[0:hi]`: `none` stands for the run-time panic
when `hi` is negative or beyond the slice. -/
def goSliceTo {α : Type} (s : List α) (hi : Int) : Option (List α) :=
  if 0 ≤ hi ∧ hi ≤ s.length then some (s.take hi.toNat) else none

/-- The Go index expression `s[i]`: `none` stands for the run-time panic when
`i` is out of range. -/
def goIndex {α : Type} (s : List α) (i : Int) : Option α :=
  if 0 ≤ i then s.get? i.toNat else none

end Go

/-! # Definitions: the auth service (`auth/service.go`) -/

namespace Auth

/-- The errors of the auth service that the listed operations can return. -/
inductive Err where
  | ErrNotFound
  | ErrInsufficientPermissions
  | Db (what : String)
  deriving Repr, DecidableEq

/-- How a Go call ends: it returns its results, returns an error, or panics
(a slice or index expression out of range). -/
inductive Outcome (α : Type) where
  | returned (a : α)
  | failed (e : Err)
  | panicked (what : String)
  deriving Repr, DecidableEq

/-- The Go struct `model.User` (the columns of the table `users`). -/
structure User where
  Id : Int
  CreatedAt : Int
  DisplayName : String
  deriving Repr, DecidableEq

/-- The Go struct `model.Statement`. -/
structure Statement where
  Effect : String
  Action : List String
  Resource : String
  deriving Repr, DecidableEq

/-- The Go struct `model.Policy` (the columns of the table `policies`). -/
structure Policy where
  Id : Int
  CreatedAt : Int
  DisplayName : String
  Statement : List Statement
  deriving Repr, DecidableEq

/-- The Go struct `model.PaginationParams`. -/
structure PaginationParams where
  After : String
  Amount : Int
  deriving Repr, DecidableEq

/-- The Go struct `model.Paginator`. -/
structure Paginator where
  Amount : Int
  NextPageToken : String
  deriving Repr, DecidableEq

/-- The Go struct `permissions.Permission`. -/
structure Permission where
  Action : String
  Resource : String
  deriving Repr, DecidableEq

/-- The Go struct `AuthorizationRequest`. -/
structure AuthorizationRequest where
  UserDisplayName : String
  RequiredPermissions : List Permission
  deriving Repr, DecidableEq

/-- The Go struct `AuthorizationResponse`. -/
structure AuthorizationResponse where
  Allowed : Bool
  Error : Option Err
  deriving Repr, DecidableEq

/-- A row of an attachment table: `user_policies (user_id, policy_id)`,
`group_policies (group_id, policy_id)`, `user_groups (user_id, group_id)`. -/
structure Link where
  left_id : Int
  right_id : Int
  deriving Repr, DecidableEq

/-- The tables read by the listed operations.  `groups` holds the ids of the
groups. -/
structure Database where
  users : List User
  policies : List Policy
  groups : List Int
  user_policies : List Link
  group_policies : List Link
  user_groups : List Link
  deriving Repr

/-- What the auth service takes from packages outside the files at hand:
`ArnMatch`, `wildcard.Match` and the constant `model.StatementEffectDeny`. -/
structure Env where
  ArnMatch : String → String → Bool
  wildcardMatch : String → String → Bool
  StatementEffectDeny : String

/-- SQL `a > b` on text, characters compared by code point. -/
def textGt (a b : String) : Bool := decide (b.toList < a.toList)

/-- `ORDER BY display_name` on users. -/
def userOrder (a b : User) : Prop := a.DisplayName.toList ≤ b.DisplayName.toList

instance userOrderDecidable : DecidableRel userOrder := fun a b =>
  inferInstanceAs (Decidable (a.DisplayName.toList ≤ b.DisplayName.toList))

/-- `ORDER BY display_name` on policies. -/
def policyOrder (a b : Policy) : Prop := a.DisplayName.toList ≤ b.DisplayName.toList

instance policyOrderDecidable : DecidableRel policyOrder := fun a b =>
  inferInstanceAs (Decidable (a.DisplayName.toList ≤ b.DisplayName.toList))

/-- SQL `LIMIT n` on an ordered result: an error when `n` is negative. -/
def sqlLimit {α : Type} (rows : List α) (n : Int) : Except Err (List α) :=
  if n < 0 then .error (.Db "LIMIT must not be negative") else .ok (rows.take n.toNat)

/-- `SELECT * FROM users WHERE display_name > $1 ORDER BY display_name
LIMIT $2`. -/
def selectUsersPage (db : Database) (after : String) (limit : Int) : Except Err (List User) :=
  sqlLimit ((db.users.filter (fun u => textGt u.DisplayName after)).insertionSort userOrder) limit

/-- `DBAuthService.ListUsers(params)`. -/
def DBAuthService.ListUsers (db : Database) (params : PaginationParams) :
    Outcome (List User × Paginator) :=
  match selectUsersPage db params.After (Go.int64Wrap (params.Amount + 1)) with
  | .error e => .failed e
  | .ok users =>
    if (users.length : Int) = Go.int64Wrap (params.Amount + 1) then
      -- we have more pages
      match Go.goSliceTo users params.Amount with
      | none => .panicked "slice bounds out of range"
      | some users =>
        match Go.goIndex users (Go.int64Wrap ((users.length : Int) - 1)) with
        | none => .panicked "index out of range"
        | some last =>
          .returned (users, { Amount := params.Amount, NextPageToken := last.DisplayName })
    else .returned (users, { Amount := users.length, NextPageToken := "" })

/-- `SELECT * FROM policies WHERE display_name > $1 ORDER BY display_name
LIMIT $2`. -/
def selectPoliciesPage (db : Database) (after : String) (limit : Int) :
    Except Err (List Policy) :=
  sqlLimit ((db.policies.filter (fun p => textGt p.DisplayName after)).insertionSort policyOrder)
    limit

/-- `DBAuthService.ListPolicies(params)`. -/
def DBAuthService.ListPolicies (db : Database) (params : PaginationParams) :
    Outcome (List Policy × Paginator) :=
  match selectPoliciesPage db params.After (Go.int64Wrap (params.Amount + 1)) with
  | .error e => .failed e
  | .ok policies =>
    if (policies.length : Int) = Go.int64Wrap (params.Amount + 1) then
      -- we have more pages
      match Go.goSliceTo policies params.Amount with
      | none => .panicked "slice bounds out of range"
      | some policies =>
        match Go.goIndex policies (Go.int64Wrap ((policies.length : Int) - 1)) with
        | none => .panicked "index out of range"
        | some last =>
          .returned (policies, { Amount := params.Amount, NextPageToken := last.DisplayName })
    else .returned (policies, { Amount := policies.length, NextPageToken := "" })

/-- The sub-select `p` of `resolvePoliciesStmt`: the policies attached to the
user, `UNION` (duplicates removed) the policies attached to the groups of the
user. -/
def resolvePolicies (db : Database) (userDisplayName : String) : List Policy :=
  let direct := db.policies.flatMap fun p =>
    db.user_policies.flatMap fun up =>
      db.users.flatMap fun u =>
        if p.Id = up.right_id ∧ u.Id = up.left_id ∧ u.DisplayName = userDisplayName
        then [p] else []
  let viaGroups := db.policies.flatMap fun p =>
    db.group_policies.flatMap fun gp =>
      db.groups.flatMap fun g =>
        db.user_groups.flatMap fun ug =>
          db.users.flatMap fun u =>
            if p.Id = gp.right_id ∧ g = gp.left_id ∧ ug.right_id = g ∧ u.Id = ug.left_id
                ∧ u.DisplayName = userDisplayName
            then [p] else []
  (direct ++ viaGroups).dedup

/-- The query `resolvePoliciesPaginated`. -/
def resolvePoliciesPaginated (db : Database) (userDisplayName after : String) (limit : Int) :
    Except Err (List Policy) :=
  sqlLimit (((resolvePolicies db userDisplayName).filter
    (fun p => textGt p.DisplayName after)).insertionSort policyOrder) limit

/-- The query `resolvePoliciesAll`. -/
def resolvePoliciesAll (db : Database) (userDisplayName : String) : Except Err (List Policy) :=
  .ok ((resolvePolicies db userDisplayName).insertionSort policyOrder)

/-- `DBAuthService.ListEffectivePolicies(userDisplayName, params)`. -/
def DBAuthService.ListEffectivePolicies (db : Database) (userDisplayName : String)
    (params : PaginationParams) : Outcome (List Policy × Paginator) :=
  match (if params.Amount ≠ -1 then
      resolvePoliciesPaginated db userDisplayName params.After (Go.int64Wrap (params.Amount + 1))
    else resolvePoliciesAll db userDisplayName) with
  | .error e => .failed e
  | .ok policies =>
    if params.Amount ≠ -1 ∧ (policies.length : Int) = Go.int64Wrap (params.Amount + 1) then
      -- we have more pages
      match Go.goSliceTo policies params.Amount with
      | none => .panicked "slice bounds out of range"
      | some policies =>
        match Go.goIndex policies (Go.int64Wrap ((policies.length : Int) - 1)) with
        | none => .panicked "index out of range"
        | some last =>
          .returned (policies, { Amount := params.Amount, NextPageToken := last.DisplayName })
    else .returned (policies, { Amount := policies.length, NextPageToken := "" })

/-- The scan of `strings.ReplaceAll` for a non-empty `old`: `skip` counts
the characters of a match still to be dropped. -/
def replaceAllChars (old new : List Char) : List Char → Nat → List Char
  | [], _ => []
  | _ :: cs, skip + 1 => replaceAllChars old new cs skip
  | c :: cs, 0 =>
    if old.isPrefixOf (c :: cs) then new ++ replaceAllChars old new cs (old.length - 1)
    else c :: replaceAllChars old new cs 0

/-- `interpolateUser(resource, userDisplayName)`:
`strings.ReplaceAll(resource, "$\x7buser\x7d", userDisplayName)`. -/
def interpolateUser (resource userDisplayName : String) : String :=
  String.mk (replaceAllChars "$\x7buser\x7d".toList userDisplayName.toList resource.toList 0)

/-- The loop `for _, action := range stmt.Action` of `Authorize`: `none`
when the loop returns the "Deny" response, otherwise the value of `allowed`
after the loop. -/
def authorizeActions (env : Env) (stmt : Statement) (perm : Permission) :
    List String → Bool → Option Bool
  | [], allowed => some allowed
  | action :: rest, allowed =>
    if !env.wildcardMatch action perm.Action then authorizeActions env stmt perm rest allowed
    else if stmt.Effect = env.StatementEffectDeny then none
    else authorizeActions env stmt perm rest true

/-- The loop `for _, stmt := range policy.Statement` of `Authorize`. -/
def authorizeStatements (env : Env) (userDisplayName : String) (perm : Permission) :
    List Statement → Bool → Option Bool
  | [], allowed => some allowed
  | stmt :: rest, allowed =>
    let resource := interpolateUser stmt.Resource userDisplayName
    if !env.ArnMatch resource perm.Resource then
      authorizeStatements env userDisplayName perm rest allowed
    else
      match authorizeActions env stmt perm stmt.Action allowed with
      | none => none
      | some allowed => authorizeStatements env userDisplayName perm rest allowed

/-- The loop `for _, policy := range policies` of `Authorize`. -/
def authorizePolicies (env : Env) (userDisplayName : String) (perm : Permission) :
    List Policy → Bool → Option Bool
  | [], allowed => some allowed
  | policy :: rest, allowed =>
    match authorizeStatements env userDisplayName perm policy.Statement allowed with
    | none => none
    | some allowed => authorizePolicies env userDisplayName perm rest allowed

/-- The loop `for _, perm := range req.RequiredPermissions` of `Authorize`. -/
def authorizePermissions (env : Env) (userDisplayName : String) (policies : List Policy) :
    List Permission → Bool → Option Bool
  | [], allowed => some allowed
  | perm :: rest, allowed =>
    match authorizePolicies env userDisplayName perm policies allowed with
    | none => none
    | some allowed => authorizePermissions env userDisplayName policies rest allowed

/-- `DBAuthService.Authorize(req)`. -/
def DBAuthService.Authorize (env : Env) (db : Database) (req : AuthorizationRequest) :
    Outcome AuthorizationResponse :=
  match DBAuthService.ListEffectivePolicies db req.UserDisplayName
      { After := "", Amount := -1 } with
  | .failed e => .failed e
  | .panicked what => .panicked what
  | .returned (policies, _) =>
    match authorizePermissions env req.UserDisplayName policies req.RequiredPermissions false with
    | none => .returned { Allowed := false, Error := some .ErrInsufficientPermissions }
    | some allowed =>
      if !allowed then
        .returned { Allowed := false, Error := some .ErrInsufficientPermissions }
      else .returned { Allowed := true, Error := none }

/-- The users whose display name is greater than `after`, in ascending
display-name order: the rows of the query of `ListUsers` before `LIMIT`. -/
def usersAfter (db : Database) (after : String) : List User :=
  (db.users.filter (fun u => textGt u.DisplayName after)).insertionSort userOrder

/-- An environment for the examples: resources and actions match when they
are equal or the pattern is `*`; the Deny effect is `"Deny"`. -/
def exampleEnv : Env :=
  { ArnMatch := fun pattern resource => pattern = "*" || pattern = resource
    wildcardMatch := fun pattern action => pattern = "*" || pattern = action
    StatementEffectDeny := "Deny" }

/-- A database for the examples: the users `alice` and `bob`; `bob` has the
policy `allow-all` attached directly and the policy `deny-write` through the
group 7. -/
def exampleDb : Database :=
  { users := [{ Id := 2, CreatedAt := 0, DisplayName := "bob" },
              { Id := 1, CreatedAt := 0, DisplayName := "alice" }]
    policies :=
      [{ Id := 10, CreatedAt := 0, DisplayName := "deny-write",
         Statement := [{ Effect := "Deny", Action := ["fs:Write"], Resource := "*" }] },
       { Id := 11, CreatedAt := 0, DisplayName := "allow-all",
         Statement := [{ Effect := "Allow", Action := ["*"], Resource := "*" }] }]
    groups := [7]
    user_policies := [{ left_id := 2, right_id := 11 }]
    group_policies := [{ left_id := 7, right_id := 10 }]
    user_groups := [{ left_id := 2, right_id := 7 }] }

/-- A database for the examples: the user `carol` with the single policy
`allow-read`, which allows `fs:Read` on every resource. -/
def exampleReadOnlyDb : Database :=
  { users := [{ Id := 3, CreatedAt := 0, DisplayName := "carol" }]
    policies :=
      [{ Id := 12, CreatedAt := 0, DisplayName := "allow-read",
         Statement := [{ Effect := "Allow", Action := ["fs:Read"], Resource := "*" }] }]
    groups := []
    user_policies := [{ left_id := 3, right_id := 12 }]
    group_policies := []
    user_groups := [] }

end Auth

/-! # Definitions: the gateway (`gateway/operations/getobject.go`) -/

namespace Gateway

/-- The Go struct `ghttp.HttpRange`. -/
structure HttpRange where
  StartOffset : Int
  EndOffset : Int
  deriving Repr, DecidableEq

/-- The fields of a catalog entry that the handler reads. -/
structure Entry where
  CreationDate : Int
  Checksum : String
  Size : Int
  PhysicalAddress : String
  deriving Repr, DecidableEq

/-- The errors `Cataloger.GetEntry` can return: `db.ErrNotFound` or another. -/
inductive CatalogErr where
  | ErrNotFound
  | Other (what : String)
  deriving Repr, DecidableEq

/-- A call to the block store: `Get(pointer)` or
`GetRange(pointer, start, end)`; the pointer is the storage namespace and
the identifier. -/
inductive BlockCall where
  | Get (storageNamespace identifier : String)
  | GetRange (storageNamespace identifier : String) (startPosition endPosition : Int)
  deriving Repr, DecidableEq

/-- What was written as the response body. -/
inductive Body where
  | nothing
  | encoded (what : String)
  | apiError (code : String)
  | data (bytes : List Nat)
  deriving Repr, DecidableEq

/-- The observable effects of one `Handle` call: the status passed to
`EncodeResponse` / `EncodeError` (`none`: the handler never set one, so the
HTTP server sends 200 with the first write), the response headers, the body
and the calls made to the block store. -/
structure Response where
  status : Option Nat
  headers : List (String × String)
  body : Body
  blockCalls : List BlockCall
  deriving Repr, DecidableEq

/-- The parts of the request and of the `PathOperation` that the handler
reads. -/
structure Request where
  queryKeys : List String
  rangeHeader : String
  repositoryName : String
  storageNamespace : String
  reference : String
  path : String
  deriving Repr, DecidableEq

/-- What the handler takes from packages outside the files at hand: the
cataloger, the block store, `ghttp.ParseHTTPRange` (it returns a range and an
error), the header formatters and the HTTP status of an API error code. -/
structure Env where
  GetEntry : String → String → String → Except CatalogErr Entry
  Get : String → String → Except String (List Nat)
  GetRange : String → String → Int → Int → Except String (List Nat)
  ParseHTTPRange : String → Int → HttpRange × Option String
  HeaderTimestamp : Int → String
  ETag : String → String
  errorStatus : String → Nat

/-- `o.SetHeader(key, value)`: the value replaces an earlier one. -/
def SetHeader (o : Response) (key value : String) : Response :=
  { o with headers := o.headers.filter (fun kv => kv.1 ≠ key) ++ [(key, value)] }

/-- The value of a response header, if set. -/
def Response.header (o : Response) (key : String) : Option String :=
  o.headers.lookup key

/-- `o.EncodeError(gatewayerrors.Codes.ToAPIErr(code))`. -/
def EncodeError (env : Env) (o : Response) (code : String) : Response :=
  { o with status := some (env.errorStatus code), body := .apiError code }

/-- `o.EncodeResponse(value, status)`. -/
def EncodeResponse (o : Response) (what : String) (status : Nat) : Response :=
  { o with status := some status, body := .encoded what }

/-- `fmt.Sprintf("%d", n)`. -/
def sprintfD (n : Int) : String := toString n

/-- `GetObject.Handle(o)`.  Metrics and logging leave the response unchanged
and are left out. -/
def GetObject.Handle (env : Env) (req : Request) : Response :=
  let o : Response := { status := none, headers := [], body := .nothing, blockCalls := [] }
  if req.queryKeys.contains "versioning" then
    EncodeResponse o "VersioningConfiguration" 200
  else if req.queryKeys.contains "tagging" then
    EncodeResponse o "Tagging" 200
  else
    match env.GetEntry req.repositoryName req.reference req.path with
    | .error .ErrNotFound => EncodeError env o "ErrNoSuchKey"
    | .error _ => EncodeError env o "ErrInternalError"
    | .ok entry =>
      let o := SetHeader o "Last-Modified" (env.HeaderTimestamp entry.CreationDate)
      let o := SetHeader o "ETag" (env.ETag entry.Checksum)
      let o := SetHeader o "Accept-Ranges" "bytes"
      match env.GetEntry req.repositoryName req.reference req.path with
      | .error _ => EncodeError env o "ErrInternalError"
      | .ok ent =>
        let rangeSpec := req.rangeHeader
        -- `rng.StartOffset = -1`; the range and `err` are overwritten when a header is present
        let parsed : HttpRange × Option String :=
          if rangeSpec.length > 0 then env.ParseHTTPRange rangeSpec ent.Size
          else ({ StartOffset := -1, EndOffset := 0 }, none)
        let rng := parsed.1
        let err := parsed.2
        let fetch : Int × BlockCall × Except String (List Nat) :=
          if rangeSpec = "" ∨ err ≠ none then
            (ent.Size, .Get req.storageNamespace ent.PhysicalAddress,
              env.Get req.storageNamespace ent.PhysicalAddress)
          else
            (Go.int64Wrap (rng.EndOffset - rng.StartOffset + 1),
              .GetRange req.storageNamespace ent.PhysicalAddress rng.StartOffset rng.EndOffset,
              env.GetRange req.storageNamespace ent.PhysicalAddress rng.StartOffset
                rng.EndOffset)
        let expected := fetch.1
        let o := { o with blockCalls := o.blockCalls ++ [fetch.2.1] }
        match fetch.2.2 with
        | .error _ => EncodeError env o "ErrInternalError"
        | .ok data =>
          let o := SetHeader o "Content-Length" (sprintfD expected)
          let o :=
            if rng.StartOffset ≠ -1 then
              SetHeader o "Content-Range"
                ("bytes " ++ sprintfD rng.StartOffset ++ "-" ++ sprintfD rng.EndOffset ++ "/"
                  ++ sprintfD ent.Size)
            else o
          { o with body := .data data }

/-- The status line the client receives: the status given to
`EncodeResponse` / `EncodeError`, or, when the handler never set one, the
`200 OK` that Go's `http.ResponseWriter` sends with the first `Write`. -/
def Response.sentStatus (o : Response) : Nat :=
  o.status.getD 200

/-- An environment for the examples: one object of 1000 bytes at
`repo/master/obj`, whose byte `i` is `i % 256`; `ParseHTTPRange` knows the
header `bytes=0-9` and rejects every other one, returning the range `5..2`
along with the error. -/
def exampleEnv : Env :=
  { GetEntry := fun repo ref path =>
      if repo = "repo" ∧ ref = "master" ∧ path = "obj" then
        .ok { CreationDate := 0, Checksum := "sum", Size := 1000, PhysicalAddress := "addr" }
      else .error .ErrNotFound
    Get := fun _ _ => .ok ((List.range 1000).map (fun i => i % 256))
    GetRange := fun _ _ s e =>
      .ok (((List.range 1000).map (fun i => i % 256)).drop s.toNat |>.take (e - s + 1).toNat)
    ParseHTTPRange := fun spec _ =>
      if spec = "bytes=0-9" then ({ StartOffset := 0, EndOffset := 9 }, none)
      else ({ StartOffset := 5, EndOffset := 2 }, some "invalid range")
    HeaderTimestamp := fun t => toString t
    ETag := fun s => s
    errorStatus := fun code => if code = "ErrNoSuchKey" then 404 else 500 }

/-- A request for the example object with the given `Range` header. -/
def exampleRequest (rangeHeader : String) : Request :=
  { queryKeys := [], rangeHeader := rangeHeader, repositoryName := "repo",
    storageNamespace := "ns", reference := "master", path := "obj" }

end Gateway

/-! # Definitions: identities of the model (`index/model/ext.go`) -/

namespace Model

/-- A Go `string` or `[]byte`: a sequence of bytes. -/
abbrev Bytes := List Nat

/-- The bytes of an ASCII text, for writing examples. -/
def ascii (s : String) : Bytes := s.toList.map Char.toNat

/-- `identFromStrings(strings...)`: every string is appended to the buffer. -/
def identFromStrings (strings : List Bytes) : Bytes :=
  strings.foldl (fun buf str => buf ++ str) []

/-- `sort.Strings(keys)`: ascending byte-wise order. -/
def sortStrings (keys : List Bytes) : List Bytes :=
  keys.insertionSort (fun a b => a ≤ b)

/-- The Go map index expression `data[k]` on a `map[string]string`: the
value, or the empty string for a missing key.  A map is given by its
key/value pairs in the order in which `range` delivers them. -/
def mapIndex (data : List (Bytes × Bytes)) (k : Bytes) : Bytes :=
  (data.lookup k).getD []

/-- `identMapToString(data)`: the keys are collected in iteration order,
sorted, and each key is appended followed by its value. -/
def identMapToString (data : List (Bytes × Bytes)) : Bytes :=
  let keys := data.map (fun kv => kv.1)
  let keys := sortStrings keys
  keys.foldl (fun buf k => (buf ++ k) ++ mapIndex data k) []

/-- `strconv.FormatInt(n, 10)`. -/
def FormatInt (n : Int) : Bytes := ascii (toString n)

/-- The Go struct `model.Entry`: the fields `Identity` reads. -/
structure Entry where
  Name : Bytes
  Address : Bytes
  deriving Repr, DecidableEq

/-- The Go struct `model.Node`. -/
structure Node where
  Entries : List Entry
  Pointers : List Bytes
  deriving Repr, DecidableEq

/-- The Go struct `model.Commit`: the fields read by `Identity`, and the
fields `RepositoryId` and `Address` that `Identity` does not read. -/
structure Commit where
  RepositoryId : Bytes
  Address : Bytes
  Tree : Bytes
  Parents : List Bytes
  Committer : Bytes
  Message : Bytes
  Timestamp : Int
  Metadata : List (Bytes × Bytes)
  deriving Repr, DecidableEq

/-- The Go assignment `s[i] = v` on a slice: `none` stands for the run-time
panic when `i` is out of range. -/
def goAssign {α : Type} (s : List α) (i : Int) (v : α) : Option (List α) :=
  if 0 ≤ i ∧ i < s.length then some (s.set i.toNat v) else none

/-- A loop `for i, x := range xs \x7b hashes[index i] = value x \x7d`, from
position `i` on. -/
def assignEach {α : Type} (index : Int → Int) (value : α → Bytes) :
    List α → Int → List Bytes → Option (List Bytes)
  | [], _, hashes => some hashes
  | x :: rest, i, hashes =>
    match goAssign hashes (index i) (value x) with
    | none => none
    | some hashes => assignEach index value rest (i + 1) hashes

/-- `Node.Identity()`; `none` stands for a run-time panic. -/
def Node.Identity (m : Node) : Option Bytes :=
  let entries := m.Entries
  let pointers := m.Pointers
  let hashes : List Bytes := List.replicate (entries.length + pointers.length) []
  match assignEach (fun i => i) (fun (entry : Entry) => entry.Address) entries 0 hashes with
  | none => none
  | some hashes =>
    match assignEach (fun i => i + (entries.length : Int) - 1) (fun pointer => pointer)
        pointers 0 hashes with
    | none => none
    | some hashes => some (identFromStrings hashes)

/-- `Commit.Identity()`. -/
def Commit.Identity (m : Commit) : Bytes :=
  identFromStrings
    [m.Tree, m.Committer, m.Message, FormatInt m.Timestamp, identMapToString m.Metadata]
    ++ identFromStrings m.Parents

/-- A commit for the examples: tree `t`, parents `p` and `q`, committer `c`,
message `m`, timestamp 7, with the given other fields and metadata. -/
def exampleCommit (repositoryId address : Bytes) (metadata : List (Bytes × Bytes)) : Commit :=
  { RepositoryId := repositoryId, Address := address, Tree := ascii "t",
    Parents := [ascii "p", ascii "q"], Committer := ascii "c", Message := ascii "m",
    Timestamp := 7, Metadata := metadata }

end Model

/-! # Theorems -/

namespace Catalog

@[simp] theorem entriesVColumns_branch_id (k : CommitConsts) (e : Entry) :
    (entriesVColumns k e).branch_id = e.branch_id := rfl

@[simp] theorem entriesVColumns_path (k : CommitConsts) (e : Entry) :
    (entriesVColumns k e).path = e.path := rfl

@[simp] theorem entriesVColumns_min_commit (k : CommitConsts) (e : Entry) :
    (entriesVColumns k e).min_commit = e.min_commit := rfl

@[simp] theorem entriesVColumns_max_commit (k : CommitConsts) (e : Entry) :
    (entriesVColumns k e).max_commit = e.max_commit := rfl

@[simp] theorem entriesVColumns_is_committed (k : CommitConsts) (e : Entry) :
    (entriesVColumns k e).is_committed = decide (e.min_commit > 0) := rfl

@[simp] theorem entriesVColumns_is_deleted (k : CommitConsts) (e : Entry) :
    (entriesVColumns k e).is_deleted = decide (e.max_commit < k.MaxCommitID) := rfl

end Catalog

/-! ## Closed forms of the lineage conditions -/

namespace Catalog

theorem foldl_lineageStep_filter (lineage : List lineageCommit) (acc : LineageAcc) (e : EntryV) :
    (lineage.foldl lineageStep acc).lineageFilter e
      = (acc.lineageFilter e || lineage.any (fun lc => ancestorAdmits lc e)) := by
  induction lineage generalizing acc with
  | nil => simp
  | cons lc rest ih =>
    simp only [List.foldl_cons, List.any_cons]
    rw [ih]
    simp [lineageStep, ancestorAdmits, Bool.or_assoc]

theorem foldl_lineageStep_isDeletedWhens (lineage : List lineageCommit) (acc : LineageAcc) :
    (lineage.foldl lineageStep acc).isDeletedWhens
      = acc.isDeletedWhens ++ lineage.map (fun lc => (ancestorCond lc, fun e => e.is_deleted)) := by
  induction lineage generalizing acc with
  | nil => simp
  | cons lc rest ih =>
    simp only [List.foldl_cons, List.map_cons]
    rw [ih]
    simp [lineageStep, ancestorCond]
    rfl

theorem sqCase_same_value {ρ α : Type} (whens : List ((ρ → Bool) × (ρ → α))) (v els : ρ → α)
    (h : ∀ w ∈ whens, w.2 = v) (r : ρ) :
    sqCase whens els r = if whens.any (fun w => w.1 r) then v r else els r := by
  induction whens with
  | nil => simp [sqCase]
  | cons w rest ih =>
    have hw : w.2 = v := h w (List.mem_cons_self _ _)
    have hrest : ∀ w ∈ rest, w.2 = v := fun x hx => h x (List.mem_cons_of_mem _ hx)
    have ih' := ih hrest
    unfold sqCase at ih' ⊢
    by_cases hc : w.1 r = true
    · simp [List.find?, hc, hw]
    · simp only [Bool.not_eq_true] at hc
      simp only [List.find?, hc, List.any_cons, Bool.false_or]
      exact ih'

/-- Closed form of the lineage filter. -/
theorem lineageFilter_eq (k : CommitConsts) (branchID : Int) (lineage : List lineageCommit)
    (e : EntryV) :
    (sqLineageConditions k branchID lineage).1 e
      = (decide (e.branch_id = branchID) || lineage.any (fun lc => ancestorAdmits lc e)) := by
  simp [sqLineageConditions, foldl_lineageStep_filter]

/-- Closed form of the `is_deleted` column of the lineage views. -/
theorem isDeleted_eq (k : CommitConsts) (branchID : Int) (lineage : List lineageCommit)
    (e : EntryV) :
    (sqLineageConditions k branchID lineage).2.2 e
      = (e.is_deleted &&
          (decide (e.branch_id = branchID) || lineage.any (fun lc => ancestorCond lc e))) := by
  simp only [sqLineageConditions, foldl_lineageStep_isDeletedWhens]
  rw [sqCase_same_value _ (fun e => e.is_deleted)]
  · simp only [List.singleton_append, List.any_cons, List.any_map]
    cases e.is_deleted
    · simp
    · simp only [Function.comp_def, Bool.true_and, Bool.if_true_left, Bool.or_false]
      rw [Bool.eq_iff_iff]
      simp
  · intro w hw
    simp only [List.singleton_append, List.mem_cons, List.mem_map] at hw
    rcases hw with rfl | ⟨lc, _, rfl⟩ <;> rfl

end Catalog

/-! ## Visibility of a single row (C1, C2, C3) -/

namespace Catalog

theorem rowVisible_eq (k : CommitConsts) (branchID : Int) (requestedCommit : Int)
    (lineage : List lineageCommit) (e : Entry) :
    rowVisible k branchID requestedCommit lineage e
      = (entriesVWhere k requestedCommit (entriesVColumns k e) &&
          ((sqLineageConditions k branchID lineage).1 (entriesVColumns k e) &&
            !(sqLineageConditions k branchID lineage).2.2 (entriesVColumns k e))) := by
  unfold rowVisible sqEntriesV
  cases h : entriesVWhere k requestedCommit (entriesVColumns k e) <;> simp [h]

/-- The listing view returns exactly the paths of the visible rows of the
table. -/
theorem mem_sqTopEntryV (k : CommitConsts) (branchID : Int) (requestedCommit : Int)
    (lineage : List lineageCommit) (entries : List Entry) (p : String) :
    p ∈ sqTopEntryV k branchID requestedCommit lineage entries
      ↔ ∃ e ∈ entries, e.path = p ∧ rowVisible k branchID requestedCommit lineage e = true := by
  unfold sqTopEntryV sqTopEntryBase sqEntriesV
  simp only [List.mem_map, List.mem_filter, rowVisible_eq, Bool.and_eq_true,
    Bool.not_eq_true']
  constructor
  · rintro ⟨t, ⟨⟨v, ⟨⟨⟨e, he, rfl⟩, hw⟩, hf⟩, rfl⟩, hd⟩, rfl⟩
    exact ⟨e, he, rfl, hw, hf, hd⟩
  · rintro ⟨e, he, rfl, hw, hf, hd⟩
    exact ⟨_, ⟨⟨entriesVColumns k e, ⟨⟨⟨e, he, rfl⟩, hw⟩, hf⟩, rfl⟩, hd⟩, rfl⟩

/-- What the views do with a row of the displayed branch at a concrete
commit: the row is visible exactly when it is committed no later than the
requested commit and its `max_commit` is still the sentinel. -/
theorem ownRow_visible_iff (k : CommitConsts) (branchID : Int) (c : Int)
    (lineage : List lineageCommit) (e : Entry)
    (hu : c ≠ k.UncommittedID) (hc : c ≠ k.CommittedID) (he : e.branch_id = branchID) :
    rowVisible k branchID c lineage e = true
      ↔ (0 < e.min_commit ∧ e.min_commit ≤ c ∧ k.MaxCommitID ≤ e.max_commit) := by
  rw [rowVisible_eq, lineageFilter_eq, isDeleted_eq]
  simp [entriesVWhere, entriesVColumns, hu, hc, he]
  tauto

/-- C1 (the code at the failing input): branch 2 holds a row for `a` with
`min_commit = 1` and `max_commit = 5` (superseded after commit 5).  Read at
the concrete commit 3, which lies inside the range, the row is admitted but
reported deleted: it is not visible, the lineage view returns it with
`is_deleted = true`, and the listing view returns no path. -/
theorem ownRow_superseded_later_is_hidden :
    (0 < (exampleEntry 2 "a" "x" "x" 1 5 0).min_commit
      ∧ (exampleEntry 2 "a" "x" "x" 1 5 0).min_commit ≤ 3
      ∧ 3 ≤ (exampleEntry 2 "a" "x" "x" 1 5 0).max_commit)
    ∧ rowVisible exampleConsts 2 3 [] (exampleEntry 2 "a" "x" "x" 1 5 0) = false
    ∧ (sqEntriesLineage exampleConsts 2 3 [] [exampleEntry 2 "a" "x" "x" 1 5 0]).map
        (fun r => (r.path, r.is_deleted)) = [("a", true)]
    ∧ sqTopEntryV exampleConsts 2 3 [] [exampleEntry 2 "a" "x" "x" 1 5 0] = [] := by
  decide

/-- C2 (the claim fails): branch 2 sees ancestor 1 up to commit 10; the
ancestor row has `min_commit = 5` and is current, so
`0 < min_commit ≤ cp ≤ max_commit`.  It is visible when branch 2 is read
uncommitted, and not visible when branch 2 is read at the concrete commit 2:
the requested commit does change which ancestor rows are visible. -/
theorem ancestorRow_hidden_by_requested_commit :
    (0 < (exampleEntry 1 "a" "x" "x" 5 1000 0).min_commit
      ∧ (exampleEntry 1 "a" "x" "x" 5 1000 0).min_commit ≤ 10
      ∧ 10 ≤ (exampleEntry 1 "a" "x" "x" 5 1000 0).max_commit)
    ∧ rowVisible exampleConsts 2 exampleConsts.UncommittedID [⟨1, 10⟩]
        (exampleEntry 1 "a" "x" "x" 5 1000 0) = true
    ∧ rowVisible exampleConsts 2 2 [⟨1, 10⟩] (exampleEntry 1 "a" "x" "x" 5 1000 0) = false := by
  decide

/-- C2 (amended): for a lineage pair `(P, cp)` of a displayed branch `B`
(with `P ≠ B`, the lineage naming each ancestor once and `cp` not above the
sentinel) and every row of `P`, the lineage view admits the row and reports
it not deleted exactly when `min_commit > 0`, `min_commit ≤ cp`,
`max_commit ≥ cp` and, when a concrete commit `c` is requested, also
`min_commit ≤ c`. -/
theorem ancestorRow_visible_iff (k : CommitConsts) (branchID : Int) (requestedCommit : Int)
    (lineage : List lineageCommit) (P : Int) (cp : Int) (e : Entry)
    (hPB : P ≠ branchID) (hmem : (⟨P, cp⟩ : lineageCommit) ∈ lineage)
    (hnd : (lineage.map (fun lc => lc.BranchID)).Nodup) (hcp : cp ≤ k.MaxCommitID)
    (he : e.branch_id = P) :
    rowVisible k branchID requestedCommit lineage e = true
      ↔ (0 < e.min_commit ∧ e.min_commit ≤ cp ∧ cp ≤ e.max_commit
          ∧ (requestedCommit = k.UncommittedID ∨ requestedCommit = k.CommittedID
              ∨ e.min_commit ≤ requestedCommit)) := by
  have huniq : ∀ lc ∈ lineage, lc.BranchID = P → lc = ⟨P, cp⟩ := fun lc hlc hb =>
    List.inj_on_of_nodup_map hnd hlc hmem hb
  have hadm : lineage.any (fun lc => ancestorAdmits lc (entriesVColumns k e))
      = (decide (e.min_commit ≤ cp) && decide (0 < e.min_commit)) := by
    rw [Bool.eq_iff_iff]
    simp only [List.any_eq_true, ancestorAdmits, entriesVColumns, Bool.and_eq_true,
      decide_eq_true_eq, he, gt_iff_lt]
    constructor
    · rintro ⟨lc, hlc, ⟨hb, hm⟩, hpos⟩
      have := huniq lc hlc hb.symm
      subst this
      exact ⟨hm, hpos⟩
    · rintro ⟨hm, hpos⟩
      exact ⟨⟨P, cp⟩, hmem, ⟨rfl, hm⟩, hpos⟩
  have hdel : lineage.any (fun lc => ancestorCond lc (entriesVColumns k e))
      = decide (e.max_commit < cp) := by
    rw [Bool.eq_iff_iff]
    simp only [List.any_eq_true, ancestorCond, entriesVColumns, Bool.and_eq_true,
      decide_eq_true_eq, he]
    constructor
    · rintro ⟨lc, hlc, hb, hm⟩
      have := huniq lc hlc hb.symm
      subst this
      exact hm
    · intro hm
      exact ⟨⟨P, cp⟩, hmem, rfl, hm⟩
  rw [rowVisible_eq, lineageFilter_eq, isDeleted_eq, hadm, hdel]
  have hne : ¬ e.branch_id = branchID := by rw [he]; exact hPB
  simp only [entriesVColumns_branch_id, hne, decide_False, Bool.false_or]
  by_cases h1 : requestedCommit = k.UncommittedID
  · simp [entriesVWhere, entriesVColumns, h1]
    omega
  · by_cases h2 : requestedCommit = k.CommittedID
    · simp [entriesVWhere, entriesVColumns, h1, h2]
      omega
    · simp [entriesVWhere, entriesVColumns, h1, h2]
      omega

/-- Witness of C2 (amended): an ancestor row with `min_commit = 5` and
`max_commit = 10 = cp`, read through branch 2 at the concrete commit 2. -/
theorem ancestorRow_visible_iff_witness :
    ((1 : Int) ≠ 2 ∧ (⟨1, 10⟩ : lineageCommit) ∈ [(⟨1, 10⟩ : lineageCommit)]
      ∧ (10 : Int) ≤ exampleConsts.MaxCommitID)
    ∧ (rowVisible exampleConsts 2 2 [⟨1, 10⟩] (exampleEntry 1 "a" "x" "x" 5 10 0) = true
      ↔ (0 < (exampleEntry 1 "a" "x" "x" 5 10 0).min_commit
          ∧ (exampleEntry 1 "a" "x" "x" 5 10 0).min_commit ≤ 10
          ∧ 10 ≤ (exampleEntry 1 "a" "x" "x" 5 10 0).max_commit
          ∧ ((2 : Int) = exampleConsts.UncommittedID ∨ (2 : Int) = exampleConsts.CommittedID
              ∨ (exampleEntry 1 "a" "x" "x" 5 10 0).min_commit ≤ 2))) :=
  ⟨by decide,
   ancestorRow_visible_iff exampleConsts 2 2 [⟨1, 10⟩] 1 10 (exampleEntry 1 "a" "x" "x" 5 10 0)
     (by decide) (by decide) (by decide) (by decide) rfl⟩

/-- C3 (the code at the failing input): branch 2 is listed uncommitted and
sees ancestor 1 up to commit 5.  The ancestor holds a committed, current row
for `a`; branch 2 holds a tombstone for `a`.  The listing view still
produces the path `a`, while the lineage view of the same reference keeps
the tombstone for `a` and reports the path deleted. -/
theorem tombstone_does_not_suppress_listing :
    sqTopEntryV exampleConsts 2 exampleConsts.UncommittedID [⟨1, 5⟩]
        [exampleEntry 1 "a" "x" "x" 1 1000 0, exampleEntry 2 "a" "" "" 0 0 1] = ["a"]
    ∧ (sqEntriesLineageV exampleConsts 2 exampleConsts.UncommittedID [⟨1, 5⟩]
        [exampleEntry 1 "a" "x" "x" 1 1000 0, exampleEntry 2 "a" "" "" 0 0 1]).map
        (fun r => (r.path, r.source_branch, r.is_tombstone, r.is_deleted))
        = [("a", 2, true, true)] := by
  decide

end Catalog

/-! ## The row kept by `DISTINCT ON (path)` (C4) -/

namespace Catalog

theorem path_eq_of_toList_eq {p q : String} (h : p.toList = q.toList) : p = q := by
  cases p; cases q; simp_all [String.toList]

theorem pathLt_irrefl (p : String) : ¬ pathLt p p := by
  unfold pathLt; exact lt_irrefl _

theorem lineageOrder_refl (a : EntryV) : lineageOrder a a :=
  Or.inr ⟨rfl, Or.inr ⟨rfl, le_refl _⟩⟩

instance lineageOrder_isTotal : IsTotal EntryV lineageOrder where
  total a b := by
    unfold lineageOrder pathLt
    rcases lt_trichotomy a.path.toList b.path.toList with h | h | h
    · exact Or.inl (Or.inl h)
    · have hp : a.path = b.path := path_eq_of_toList_eq h
      rcases lt_trichotomy a.branch_id b.branch_id with hb | hb | hb
      · exact Or.inr (Or.inr ⟨hp.symm, Or.inl hb⟩)
      · rcases le_total a.commit_weight b.commit_weight with hw | hw
        · exact Or.inr (Or.inr ⟨hp.symm, Or.inr ⟨hb.symm, hw⟩⟩)
        · exact Or.inl (Or.inr ⟨hp, Or.inr ⟨hb, hw⟩⟩)
      · exact Or.inl (Or.inr ⟨hp, Or.inl hb⟩)
    · exact Or.inr (Or.inl h)

instance lineageOrder_isTrans : IsTrans EntryV lineageOrder where
  trans a b c := by
    unfold lineageOrder pathLt
    rintro (h1 | ⟨p1, h1⟩) (h2 | ⟨p2, h2⟩)
    · exact Or.inl (lt_trans h1 h2)
    · exact Or.inl (p2 ▸ h1)
    · exact Or.inl (p1 ▸ h2)
    · refine Or.inr ⟨p1.trans p2, ?_⟩
      omega

theorem mem_of_mem_distinctOnPath {l : List EntryV} {r : EntryV} (h : r ∈ distinctOnPath l) :
    r ∈ l := by
  induction l with
  | nil => simp [distinctOnPath] at h
  | cons a rest ih =>
    simp only [distinctOnPath, List.mem_cons, List.mem_filter] at h
    rcases h with rfl | ⟨h, _⟩
    · exact List.mem_cons_self _ _
    · exact List.mem_cons_of_mem _ (ih h)

/-- Every path of the input has a row in the output of `DISTINCT ON`. -/
theorem exists_mem_distinctOnPath {l : List EntryV} {a : EntryV} (h : a ∈ l) :
    ∃ r ∈ distinctOnPath l, r.path = a.path := by
  induction l with
  | nil => simp at h
  | cons b rest ih =>
    by_cases hp : a.path = b.path
    · exact ⟨b, by simp [distinctOnPath], hp.symm⟩
    · rcases List.mem_cons.mp h with rfl | h'
      · exact absurd rfl hp
      · obtain ⟨r, hr, hrp⟩ := ih h'
        refine ⟨r, ?_, hrp⟩
        simp only [distinctOnPath, List.mem_cons, List.mem_filter]
        exact Or.inr ⟨hr, by simpa [hrp] using hp⟩

/-- The output of `DISTINCT ON` has one row per path. -/
theorem distinctOnPath_pairwise (l : List EntryV) :
    (distinctOnPath l).Pairwise (fun a b => a.path ≠ b.path) := by
  induction l with
  | nil => simp [distinctOnPath]
  | cons a rest ih =>
    simp only [distinctOnPath, List.pairwise_cons]
    refine ⟨?_, ih.filter _⟩
    intro b hb
    have := (List.mem_filter.mp hb).2
    simp only [ne_eq, decide_not, Bool.not_eq_true', decide_eq_false_iff_not] at this
    exact fun h => this h.symm

theorem distinctOnPath_unique {l : List EntryV} {r r' : EntryV} (h : r ∈ distinctOnPath l)
    (h' : r' ∈ distinctOnPath l) (hp : r.path = r'.path) : r = r' := by
  by_contra hne
  have hpw := distinctOnPath_pairwise l
  have hsymm : ∀ a b : EntryV, a.path ≠ b.path → b.path ≠ a.path := fun _ _ h => h.symm
  exact (hpw.forall hsymm h h' hne) hp

/-- On a sorted input the row kept for a path is sorted no later than any
other row of that path. -/
theorem distinctOnPath_first {l : List EntryV} (hs : l.Pairwise lineageOrder) {r a : EntryV}
    (hr : r ∈ distinctOnPath l) (ha : a ∈ l) (hp : a.path = r.path) : lineageOrder r a := by
  induction l with
  | nil => simp at ha
  | cons b rest ih =>
    rw [List.pairwise_cons] at hs
    simp only [distinctOnPath, List.mem_cons, List.mem_filter] at hr
    rcases hr with rfl | ⟨hr, hne⟩
    · rcases List.mem_cons.mp ha with rfl | ha'
      · exact lineageOrder_refl _
      · exact hs.1 a ha'
    · simp only [ne_eq, decide_not, Bool.not_eq_true', decide_eq_false_iff_not] at hne
      rcases List.mem_cons.mp ha with rfl | ha'
      · exact absurd hp.symm hne
      · exact ih hs.2 hr ha'

theorem mem_kept_iff_admitted {k : CommitConsts} {branchID requestedCommit : Int}
    {lineage : List lineageCommit} {entries : List Entry} {r : EntryV}
    (h : r ∈ sqEntriesLineageKept k branchID requestedCommit lineage entries) :
    r ∈ admittedRows k branchID requestedCommit lineage entries := by
  have := mem_of_mem_distinctOnPath h
  exact (List.perm_insertionSort lineageOrder _).mem_iff.mp this

/-- Among the admitted rows of its path, the kept row has the largest
`source_branch` and, within that branch, the largest `commit_weight`. -/
theorem kept_is_top {k : CommitConsts} {branchID requestedCommit : Int}
    {lineage : List lineageCommit} {entries : List Entry} {r a : EntryV}
    (hr : r ∈ sqEntriesLineageKept k branchID requestedCommit lineage entries)
    (ha : a ∈ admittedRows k branchID requestedCommit lineage entries) (hp : a.path = r.path) :
    a.branch_id < r.branch_id ∨ (a.branch_id = r.branch_id ∧ a.commit_weight ≤ r.commit_weight) := by
  have hs : (List.insertionSort lineageOrder
      (admittedRows k branchID requestedCommit lineage entries)).Pairwise lineageOrder :=
    List.sorted_insertionSort lineageOrder _
  have ha' : a ∈ List.insertionSort lineageOrder
      (admittedRows k branchID requestedCommit lineage entries) :=
    (List.perm_insertionSort lineageOrder _).mem_iff.mpr ha
  rcases distinctOnPath_first hs hr ha' hp with h | ⟨_, h | ⟨h1, h2⟩⟩
  · exact absurd (hp ▸ h) (pathLt_irrefl _)
  · exact Or.inl h
  · exact Or.inr ⟨h1.symm, h2⟩

theorem exists_kept_of_admitted {k : CommitConsts} {branchID requestedCommit : Int}
    {lineage : List lineageCommit} {entries : List Entry} {a : EntryV}
    (ha : a ∈ admittedRows k branchID requestedCommit lineage entries) :
    ∃ r ∈ sqEntriesLineageKept k branchID requestedCommit lineage entries, r.path = a.path :=
  exists_mem_distinctOnPath ((List.perm_insertionSort lineageOrder _).mem_iff.mpr ha)

end Catalog

namespace Catalog

theorem admitted_from_table {k : CommitConsts} {branchID requestedCommit : Int}
    {lineage : List lineageCommit} {entries : List Entry} {a : EntryV}
    (ha : a ∈ admittedRows k branchID requestedCommit lineage entries) :
    (∃ e ∈ entries, a = entriesVColumns k e) ∧ entriesVWhere k requestedCommit a = true
      ∧ (a.branch_id = branchID ∨ ∃ lc ∈ lineage, ancestorAdmits lc a = true) := by
  unfold admittedRows sqEntriesV at ha
  simp only [List.mem_filter, List.mem_map] at ha
  obtain ⟨⟨⟨e, he, rfl⟩, hw⟩, hf⟩ := ha
  refine ⟨⟨e, he, rfl⟩, hw, ?_⟩
  rw [lineageFilter_eq] at hf
  simpa using hf

theorem admitted_weight {k : CommitConsts} {branchID requestedCommit : Int}
    {lineage : List lineageCommit} {entries : List Entry} {a : EntryV}
    (ha : a ∈ admittedRows k branchID requestedCommit lineage entries) :
    a.commit_weight = if a.min_commit = 0 then k.MaxCommitID else a.min_commit := by
  obtain ⟨⟨e, _, rfl⟩, _, _⟩ := admitted_from_table ha
  rfl

/-- C4 (the claim fails): branch 1 displays ancestor 2 up to commit 5; both
hold a committed, current row for `a`.  `DISTINCT ON` ordered by
`source_branch desc` keeps the row of the ancestor, not that of the
displayed branch. -/
theorem ancestor_row_preferred_over_own :
    (sqEntriesLineage exampleConsts 1 exampleConsts.CommittedID [⟨2, 5⟩]
        [exampleEntry 1 "a" "own" "own" 1 1000 0, exampleEntry 2 "a" "anc" "anc" 1 1000 1]).map
      (fun r => (r.path, r.source_branch, r.physical_address)) = [("a", 2, "anc")] := by
  decide

/-- C4 (amended): when the branch ids strictly decrease along
`B, P1, ..., Pn` (and every `min_commit` lies below the sentinel), every
path with an admitted row has a row in `sqEntriesLineage`, and the row kept
for a path is an admitted row such that, against every admitted row `a` of
that path: if `a` belongs to `B` then so does the kept row, the kept row is
uncommitted whenever `a` is, and a committed kept row has the largest
`min_commit`; and the kept row never comes from an ancestor farther in the
lineage than the branch of `a`. -/
theorem lineage_row_selection (k : CommitConsts) (branchID requestedCommit : Int)
    (lineage : List lineageCommit) (entries : List Entry)
    (hord : (branchID :: lineage.map (fun lc => lc.BranchID)).Pairwise (fun x y => y < x))
    (hmin : ∀ e ∈ entries, e.min_commit < k.MaxCommitID) :
    (∀ a ∈ admittedRows k branchID requestedCommit lineage entries,
        ∃ r ∈ sqEntriesLineage k branchID requestedCommit lineage entries, r.path = a.path)
    ∧ ∀ r ∈ sqEntriesLineage k branchID requestedCommit lineage entries,
        (∃ a0 ∈ admittedRows k branchID requestedCommit lineage entries,
            a0.path = r.path ∧ a0.branch_id = r.source_branch ∧ a0.min_commit = r.min_commit)
        ∧ ∀ a ∈ admittedRows k branchID requestedCommit lineage entries, a.path = r.path →
            (a.branch_id = branchID →
              r.source_branch = branchID ∧ (a.min_commit = 0 → r.min_commit = 0)
                ∧ (r.min_commit ≠ 0 → a.min_commit ≤ r.min_commit))
            ∧ ∀ i j : Fin lineage.length, (lineage.get i).BranchID = r.source_branch →
                (lineage.get j).BranchID = a.branch_id → i ≤ j := by
  rw [List.pairwise_cons, List.pairwise_map] at hord
  obtain ⟨hB, hL⟩ := hord
  constructor
  · intro a ha
    obtain ⟨r, hr, hp⟩ := exists_kept_of_admitted ha
    exact ⟨_, List.mem_map_of_mem _ hr, hp⟩
  · intro r hr
    unfold sqEntriesLineage at hr
    simp only [List.mem_map] at hr
    obtain ⟨r0, hr0, rfl⟩ := hr
    have hr0a := mem_kept_iff_admitted hr0
    refine ⟨⟨r0, hr0a, rfl, rfl, rfl⟩, ?_⟩
    intro a ha hp
    have htop := kept_is_top hr0 ha hp
    have hwa := admitted_weight ha
    have hwr := admitted_weight hr0a
    obtain ⟨⟨e, he, hre⟩, _, hfr⟩ := admitted_from_table hr0a
    obtain ⟨⟨ea, hea, hae⟩, _, _⟩ := admitted_from_table ha
    have hminr : r0.min_commit < k.MaxCommitID := by rw [hre]; exact hmin e he
    have hmina : a.min_commit < k.MaxCommitID := by rw [hae]; exact hmin ea hea
    simp only [lineageColumns]
    constructor
    · intro haB
      have hrB : r0.branch_id = branchID := by
        rcases hfr with h | ⟨lc, hlc, hadm⟩
        · exact h
        · exfalso
          have h1 : lc.BranchID < branchID := hB _ (List.mem_map_of_mem _ hlc)
          simp only [ancestorAdmits, Bool.and_eq_true, decide_eq_true_eq] at hadm
          omega
      refine ⟨hrB, ?_, ?_⟩
      · intro ha0
        by_contra hr0ne
        rw [if_pos ha0] at hwa
        rw [if_neg hr0ne] at hwr
        omega
      · intro hr0ne
        rw [if_neg hr0ne] at hwr
        split_ifs at hwa <;> omega
    · intro i j hi hj
      by_contra hlt
      push_neg at hlt
      have := List.pairwise_iff_get.mp hL j i hlt
      simp only at this
      omega

/-- Witness of C4 (amended): branch 3 with lineage `[(2, 5), (1, 3)]`; the
path `a` has a row on each ancestor and a committed and an uncommitted row
on branch 3. -/
theorem lineage_row_selection_witness :
    ((3 : Int) :: exampleLineage.map (fun lc => lc.BranchID)).Pairwise (fun x y => y < x)
    ∧ (∀ e ∈ exampleTable, e.min_commit < exampleConsts.MaxCommitID)
    ∧ (∀ a ∈ admittedRows exampleConsts 3 exampleConsts.UncommittedID exampleLineage exampleTable,
        ∃ r ∈ sqEntriesLineage exampleConsts 3 exampleConsts.UncommittedID exampleLineage
            exampleTable, r.path = a.path)
    ∧ ∀ r ∈ sqEntriesLineage exampleConsts 3 exampleConsts.UncommittedID exampleLineage
          exampleTable,
        (∃ a0 ∈ admittedRows exampleConsts 3 exampleConsts.UncommittedID exampleLineage
            exampleTable,
            a0.path = r.path ∧ a0.branch_id = r.source_branch ∧ a0.min_commit = r.min_commit)
        ∧ ∀ a ∈ admittedRows exampleConsts 3 exampleConsts.UncommittedID exampleLineage
            exampleTable, a.path = r.path →
            (a.branch_id = 3 →
              r.source_branch = 3 ∧ (a.min_commit = 0 → r.min_commit = 0)
                ∧ (r.min_commit ≠ 0 → a.min_commit ≤ r.min_commit))
            ∧ ∀ i j : Fin exampleLineage.length,
                (exampleLineage.get i).BranchID = r.source_branch →
                (exampleLineage.get j).BranchID = a.branch_id → i ≤ j :=
  ⟨by decide, by decide,
   lineage_row_selection exampleConsts 3 exampleConsts.UncommittedID exampleLineage exampleTable
     (by decide) (by decide)⟩

end Catalog

/-! ## The index: merge, commit and delete (C5 - C8) -/

namespace Index

variable {τ : Type}

theorem RepoTransact_ok {α : Type} (st tx : Store τ) (fn : Store τ → Except Err (α × Store τ))
    (a : α) (h : fn st = .ok (a, tx)) : RepoTransact st fn = (.ok a, tx) := by
  simp [RepoTransact, h]

theorem RepoTransact_error {α : Type} (st : Store τ) (fn : Store τ → Except Err (α × Store τ))
    (e : Err) (h : fn st = .error e) : RepoTransact st fn = (.error e, st) := by
  simp [RepoTransact, h]

theorem lookup_cons_filter {β : Type} (key : String) (v : β) (l : List (String × β)) :
    List.lookup key ((key, v) :: l.filter (fun kv => kv.1 ≠ key)) = some v := by
  simp [List.lookup]

@[simp] theorem ReadBranch_WriteBranch (tx : Store τ) (branch : String) (data : Branch) :
    ReadBranch (WriteBranch tx branch data) branch = .ok data := by
  simp [ReadBranch, WriteBranch, List.lookup]

@[simp] theorem ReadBranch_WriteCommit (tx : Store τ) (addr : String) (c : Commit)
    (branch : String) : ReadBranch (WriteCommit tx addr c) branch = ReadBranch tx branch := rfl

@[simp] theorem ReadBranch_ClearWorkspace (tx : Store τ) (b branch : String) :
    ReadBranch (ClearWorkspace tx b) branch = ReadBranch tx branch := rfl

@[simp] theorem ReadBranch_WriteToWorkspacePath (tx : Store τ) (b pp p : String)
    (e : WorkspaceEntry) (branch : String) :
    ReadBranch (WriteToWorkspacePath tx b pp p e) branch = ReadBranch tx branch := rfl

@[simp] theorem ReadBranch_DeleteWorkspacePath (tx : Store τ) (b p branch : String) :
    ReadBranch (DeleteWorkspacePath tx b p) branch = ReadBranch tx branch := rfl

@[simp] theorem ReadCommit_WriteCommit (tx : Store τ) (addr : String) (c : Commit) :
    ReadCommit (WriteCommit tx addr c) addr = .ok c := by
  simp [ReadCommit, WriteCommit, List.lookup]

@[simp] theorem ListWorkspace_WriteBranch (tx : Store τ) (b : String) (data : Branch)
    (branch : String) : ListWorkspace (WriteBranch tx b data) branch = ListWorkspace tx branch := rfl

@[simp] theorem ListWorkspace_WriteCommit (tx : Store τ) (addr : String) (c : Commit)
    (branch : String) : ListWorkspace (WriteCommit tx addr c) branch = ListWorkspace tx branch := rfl

@[simp] theorem ListWorkspace_ClearWorkspace (tx : Store τ) (branch : String) :
    ListWorkspace (ClearWorkspace tx branch) branch = [] := by
  simp [ListWorkspace, ClearWorkspace, List.filter_filter]

theorem ListWorkspace_WriteToWorkspacePath_ne_nil (tx : Store τ) (branch pp p : String)
    (e : WorkspaceEntry) : ListWorkspace (WriteToWorkspacePath tx branch pp p e) branch ≠ [] := by
  simp [ListWorkspace, WriteToWorkspacePath, List.filter_append]

@[simp] theorem ReadFromWorkspace_DeleteWorkspacePath (tx : Store τ) (branch path : String) :
    ReadFromWorkspace (DeleteWorkspacePath tx branch path) branch path = .error .ErrNotFound := by
  have : (tx.workspace.filter (fun r => ¬ (r.branch = branch ∧ r.path = path))).find?
      (fun r => r.branch = branch ∧ r.path = path) = none := by
    rw [List.find?_eq_none]
    intro r hr
    have h2 := (List.mem_filter.mp hr).2
    simp only [decide_eq_true_eq] at h2 ⊢
    exact h2
  simp only [ReadFromWorkspace, DeleteWorkspacePath, this]

@[simp] theorem ReadFromWorkspace_WriteToWorkspacePath (tx : Store τ) (branch pp path : String)
    (e : WorkspaceEntry) :
    ReadFromWorkspace (WriteToWorkspacePath tx branch pp path e) branch path = .ok e := by
  have h : (tx.workspace.filter (fun r => ¬ (r.branch = branch ∧ r.path = path))).find?
      (fun r => r.branch = branch ∧ r.path = path) = none := by
    rw [List.find?_eq_none]
    intro r hr
    have h2 := (List.mem_filter.mp hr).2
    simp only [decide_eq_true_eq] at h2 ⊢
    exact h2
  simp only [ReadFromWorkspace, WriteToWorkspacePath, List.find?_append, h]
  simp

/-- What `partialCommit` does on an existing branch whose tree update (if
one is needed) succeeds. -/
theorem partialCommit_spec (env : Env τ) (tx : Store τ) (branch : String) (b : Branch)
    (trees : τ) (root : String) (hb : ReadBranch tx branch = .ok b)
    (hU : ListWorkspace tx branch ≠ [] →
      env.Update tx.trees b.WorkspaceRoot (ListWorkspace tx branch) = .ok (trees, root)) :
    ∃ tx', partialCommit env tx branch = .ok tx'
      ∧ ReadBranch tx' branch
          = .ok { b with WorkspaceRoot := if ListWorkspace tx branch = [] then b.WorkspaceRoot
                                          else root }
      ∧ ListWorkspace tx' branch = []
      ∧ tx'.repo = tx.repo ∧ tx'.commits = tx.commits
      ∧ ∃ ops, tx'.log = tx.log ++ ops
          ∧ ∀ op ∈ ops, (∀ b' pp p e, op ≠ .WriteToWorkspacePath b' pp p e)
              ∧ (∀ b' p, op ≠ .DeleteWorkspacePath b' p) ∧ (∀ a c, op ≠ .WriteCommit a c) := by
  by_cases hws : ListWorkspace tx branch = []
  · refine ⟨tx, ?_, ?_, hws, rfl, rfl, [], by simp, by simp⟩
    · simp [partialCommit, hws]
    · simp [hws, hb]
  · have hU' := hU hws
    refine ⟨WriteBranch (ClearWorkspace { tx with trees := trees, log := tx.log ++ [.WriteTrees] }
        branch) branch { b with WorkspaceRoot := root }, ?_, ?_, ?_, rfl, rfl,
      [.WriteTrees, .ClearWorkspace branch, .WriteBranch branch { b with WorkspaceRoot := root }],
      ?_, ?_⟩
    · simp only [partialCommit, List.length_eq_zero, hws, if_false, hb, hU']
    · simp [hws]
    · simp
    · simp [WriteBranch, ClearWorkspace]
    · intro op hop
      simp only [List.mem_cons, List.mem_singleton, List.not_mem_nil, or_false] at hop
      rcases hop with rfl | rfl | rfl <;> simp

/-- The general form of C5: `Merge` returns without error and leaves the
store as it was, whatever the state and the two references. -/
theorem Merge_is_noop (st : Store τ) (repoId source destination : String) :
    DBIndex.Merge st repoId source destination = (.ok (), st) := rfl

/-- C5 (the code at the failing input): `master` (head `c1`) and `b1` (head
`c2`, a child commit of `c1`) both resolve and no path conflicts.
`Merge(b1, master)` returns without error; `master` still points at `c1`,
whose parents are not `[c1, c2]`, and no commit was written. -/
theorem merge_writes_no_merge_commit :
    (DBIndex.Merge (exampleStore []) "repo" "b1" "master").1 = .ok ()
    ∧ (ReadBranch (DBIndex.Merge (exampleStore []) "repo" "b1" "master").2 "master").toOption.map
        (fun b => b.CommitId) = some "c1"
    ∧ (ReadCommit (DBIndex.Merge (exampleStore []) "repo" "b1" "master").2 "c1").toOption.map
        (fun c => c.Parents) = some []
    ∧ (DBIndex.Merge (exampleStore []) "repo" "b1" "master").2.commits = (exampleStore []).commits
    ∧ (DBIndex.Merge (exampleStore []) "repo" "b1" "master").2.log = [] := by
  refine ⟨rfl, rfl, rfl, rfl, rfl⟩

/-- The result of `Commit` on an existing branch whose tree update (if one
is needed) succeeds. -/
theorem Commit_result (env : Env τ) (ts : Int) (st : Store τ)
    (repoId branch message committer : String) (metadata : List (String × String))
    (b : Branch) (trees : τ) (root : String)
    (hv : ValidateAll [env.ValidateRepoId repoId, env.ValidateRef branch,
      env.ValidateCommitMessage message] = none)
    (hb : ReadBranch st branch = .ok b)
    (hU : ListWorkspace st branch ≠ [] →
      env.Update st.trees b.WorkspaceRoot (ListWorkspace st branch) = .ok (trees, root)) :
    ∃ c st', DBIndex.Commit env ts st repoId branch message committer metadata = (.ok c, st')
      ∧ c = { RepositoryId := "", Address := env.Hash
                { RepositoryId := "", Address := ""
                  Tree := if ListWorkspace st branch = [] then b.WorkspaceRoot else root
                  Committer := committer, Message := message, CreationDate := ts
                  Parents := [b.CommitId], Metadata := metadata }
              Tree := if ListWorkspace st branch = [] then b.WorkspaceRoot else root
              Committer := committer, Message := message, CreationDate := ts
              Parents := [b.CommitId], Metadata := metadata }
      ∧ ReadCommit st' c.Address = .ok c
      ∧ ReadBranch st' branch
          = .ok { b with CommitId := c.Address, CommitRoot := c.Tree, WorkspaceRoot := c.Tree }
      ∧ ListWorkspace st' branch = [] := by
  obtain ⟨tx', hpc, hrb, hlw, -, -, -⟩ := partialCommit_spec env st branch b trees root hb hU
  let tree : String := if ListWorkspace st branch = [] then b.WorkspaceRoot else root
  let c0 : Commit :=
    { RepositoryId := "", Address := "", Tree := tree, Committer := committer,
      Message := message, CreationDate := ts, Parents := [b.CommitId], Metadata := metadata }
  let c : Commit := { c0 with Address := env.Hash c0 }
  let b' : Branch :=
    { RepositoryId := b.RepositoryId, Id := b.Id, CommitId := c.Address, CommitRoot := tree,
      WorkspaceRoot := tree }
  refine ⟨c, WriteBranch (WriteCommit tx' c.Address c) branch b', ?_, rfl, ?_, ?_, ?_⟩
  · unfold DBIndex.Commit
    rw [hv]
    apply RepoTransact_ok
    simp only [CommitTx, hpc, hrb, bind, Except.bind, pure, Except.pure]
  · simp [WriteBranch, ReadCommit, WriteCommit, List.lookup]
  · simp
  · simp [hlw]

/-- C6 (the claim fails): `master` has an empty workspace and its workspace
root equals its commit root.  `Commit` returns a commit, not an error; the
commit is written and the branch record now points at it. -/
theorem commit_of_empty_workspace_succeeds :
    ListWorkspace (exampleStore []) "master" = []
    ∧ (ReadBranch (exampleStore []) "master").toOption.map
        (fun b => (b.CommitId, b.CommitRoot, b.WorkspaceRoot)) = some ("c1", "r1", "r1")
    ∧ (DBIndex.Commit exampleEnv 7 (exampleStore []) "repo" "master" "m" "me" []).1
        = .ok { RepositoryId := "", Address := "commit(r1,c1)", Tree := "r1", Committer := "me",
                Message := "m", CreationDate := 7, Parents := ["c1"], Metadata := [] }
    ∧ (ReadBranch (DBIndex.Commit exampleEnv 7 (exampleStore []) "repo" "master" "m" "me" []).2
        "master").toOption.map (fun b => (b.CommitId, b.CommitRoot, b.WorkspaceRoot))
        = some ("commit(r1,c1)", "r1", "r1")
    ∧ ((DBIndex.Commit exampleEnv 7 (exampleStore []) "repo" "master" "m" "me" []).2.commits.map
        (fun kv => kv.1)) = ["commit(r1,c1)", "c1", "c2"] := by
  refine ⟨rfl, rfl, rfl, rfl, rfl⟩

/-- C6 (amended): for every existing branch whose workspace holds no
entries and whose workspace root equals its commit root, `Commit` (with valid
arguments) does not fail: it returns and writes a commit whose tree is the
unchanged root and whose only parent is the previous head, and the branch
record is rewritten to point at that commit. -/
theorem Commit_nothing_to_commit (env : Env τ) (ts : Int) (st : Store τ)
    (repoId branch message committer : String) (metadata : List (String × String)) (b : Branch)
    (hv : ValidateAll [env.ValidateRepoId repoId, env.ValidateRef branch,
      env.ValidateCommitMessage message] = none)
    (hb : ReadBranch st branch = .ok b)
    (hws : ListWorkspace st branch = [])
    (_hroot : b.WorkspaceRoot = b.CommitRoot) :
    ∃ c st', DBIndex.Commit env ts st repoId branch message committer metadata = (.ok c, st')
      ∧ c.Tree = b.CommitRoot ∧ c.Parents = [b.CommitId]
      ∧ ReadCommit st' c.Address = .ok c
      ∧ ReadBranch st' branch
          = .ok { b with CommitId := c.Address, CommitRoot := c.Tree, WorkspaceRoot := c.Tree } := by
  obtain ⟨c, st', h, hc, hrc, hrb, -⟩ :=
    Commit_result env ts st repoId branch message committer metadata b st.trees ""
      hv hb (fun h => absurd hws h)
  refine ⟨c, st', h, ?_, ?_, hrc, hrb⟩
  · rw [hc]; simp [hws, _hroot]
  · rw [hc]

/-- Witness of C6 (amended) on the example repository. -/
theorem Commit_nothing_to_commit_witness :
    ∃ c st', DBIndex.Commit exampleEnv 7 (exampleStore []) "repo" "master" "m" "me" [] = (.ok c, st')
      ∧ c.Tree = "r1" ∧ c.Parents = ["c1"]
      ∧ ReadCommit st' c.Address = .ok c
      ∧ ReadBranch st' "master"
          = .ok { RepositoryId := "repo", Id := "master", CommitId := c.Address,
                  CommitRoot := c.Tree, WorkspaceRoot := c.Tree } :=
  Commit_nothing_to_commit exampleEnv 7 (exampleStore []) "repo" "master" "m" "me" []
    { RepositoryId := "repo", Id := "master", CommitId := "c1", CommitRoot := "r1",
      WorkspaceRoot := "r1" } rfl rfl rfl rfl

/-- C7: for every existing branch `b` with head `h`, when the arguments are
valid and the tree update of the workspace entries (if there are any)
succeeds with root `root`, `Commit` returns a commit whose `Parents` is
`[h]`, whose `Tree` is the workspace root after the entries were folded in
(`root`, or the old workspace root when the workspace was empty) and whose
`Address` is the hash of the commit (taken before the address is set);
afterwards the commit is stored under its address, the branch's `CommitId`
is that address, its `CommitRoot` and `WorkspaceRoot` are the commit's tree,
and its workspace is empty. -/
theorem Commit_postcondition (env : Env τ) (ts : Int) (st : Store τ)
    (repoId branch message committer : String) (metadata : List (String × String))
    (b : Branch) (trees : τ) (root : String)
    (hv : ValidateAll [env.ValidateRepoId repoId, env.ValidateRef branch,
      env.ValidateCommitMessage message] = none)
    (hb : ReadBranch st branch = .ok b)
    (hU : ListWorkspace st branch ≠ [] →
      env.Update st.trees b.WorkspaceRoot (ListWorkspace st branch) = .ok (trees, root)) :
    ∃ c st', DBIndex.Commit env ts st repoId branch message committer metadata = (.ok c, st')
      ∧ c.Parents = [b.CommitId]
      ∧ c.Tree = (if ListWorkspace st branch = [] then b.WorkspaceRoot else root)
      ∧ c.Address = env.Hash { c with Address := "" }
      ∧ ReadCommit st' c.Address = .ok c
      ∧ (∃ b', ReadBranch st' branch = .ok b' ∧ b'.CommitId = c.Address
          ∧ b'.CommitRoot = c.Tree ∧ b'.WorkspaceRoot = c.Tree)
      ∧ ListWorkspace st' branch = [] := by
  obtain ⟨c, st', h, hc, hrc, hrb, hlw⟩ :=
    Commit_result env ts st repoId branch message committer metadata b trees root hv hb hU
  refine ⟨c, st', h, ?_, ?_, ?_, hrc, ⟨_, hrb, rfl, rfl, rfl⟩, hlw⟩
  · rw [hc]
  · rw [hc]
  · rw [hc]

/-- Witness of C7: `master` with one live workspace row; the update yields
the root `r1+1`. -/
theorem Commit_postcondition_witness :
    ∃ c st', DBIndex.Commit exampleEnv 7 (exampleStore [exampleLiveRow "x"]) "repo" "master"
        "m" "me" [] = (.ok c, st')
      ∧ c.Parents = ["c1"]
      ∧ c.Tree = (if ListWorkspace (exampleStore [exampleLiveRow "x"]) "master" = [] then "r1"
                  else "r1+1")
      ∧ c.Address = exampleEnv.Hash { c with Address := "" }
      ∧ ReadCommit st' c.Address = .ok c
      ∧ (∃ b', ReadBranch st' "master" = .ok b' ∧ b'.CommitId = c.Address
          ∧ b'.CommitRoot = c.Tree ∧ b'.WorkspaceRoot = c.Tree)
      ∧ ListWorkspace st' "master" = [] :=
  Commit_postcondition exampleEnv 7 (exampleStore [exampleLiveRow "x"]) "repo" "master" "m" "me" []
    { RepositoryId := "repo", Id := "master", CommitId := "c1", CommitRoot := "r1",
      WorkspaceRoot := "r1" } ["r1+1"] "r1+1" rfl rfl (fun _ => rfl)

theorem ReadFromWorkspace_error (tx : Store τ) (branch path : String) (e : Err)
    (h : ReadFromWorkspace tx branch path = .error e) : e = .ErrNotFound := by
  unfold ReadFromWorkspace at h
  split at h
  · cases h
  · cases h; rfl

/-- What `writeEntryToWorkspace` does on an existing branch when tree
updates succeed: the row is written, and whatever follows in the log is not
a workspace row write or delete. -/
theorem writeEntryToWorkspace_spec (env : Env τ) (chosen : ℚ) (tx : Store τ) (repo : Repo)
    (branch path : String) (entry : WorkspaceEntry) (br : Branch)
    (hbr : ReadBranch tx branch = .ok br)
    (hupd : ∀ t root es, ∃ r, env.Update t root es = .ok r) :
    ∃ tx' ops, writeEntryToWorkspace env chosen tx repo branch path entry = .ok tx'
      ∧ tx'.log = tx.log ++ [.WriteToWorkspacePath branch entry.ParentPath path entry] ++ ops
      ∧ (∀ op ∈ ops, (∀ b' pp p e, op ≠ .WriteToWorkspacePath b' pp p e)
          ∧ (∀ b' p, op ≠ .DeleteWorkspacePath b' p))
      ∧ (shouldPartiallyCommit chosen = false →
          tx' = WriteToWorkspacePath tx branch entry.ParentPath path entry)
      ∧ (shouldPartiallyCommit chosen = true → ListWorkspace tx' branch = []) := by
  unfold writeEntryToWorkspace
  cases hch : shouldPartiallyCommit chosen
  · exact ⟨_, [], by simp, by simp [WriteToWorkspacePath], by simp, fun _ => rfl, by simp⟩
  · obtain ⟨⟨trees, root⟩, hU⟩ := hupd
      (WriteToWorkspacePath tx branch entry.ParentPath path entry).trees br.WorkspaceRoot
      (ListWorkspace (WriteToWorkspacePath tx branch entry.ParentPath path entry) branch)
    obtain ⟨tx', hpc, -, hlw, -, -, ops, hlog, hops⟩ :=
      partialCommit_spec env (WriteToWorkspacePath tx branch entry.ParentPath path entry) branch br
        trees root (by simpa using hbr) (fun _ => hU)
    refine ⟨tx', ops, by simpa using hpc, ?_, fun op hop => ⟨(hops op hop).1, (hops op hop).2.1⟩,
      by simp, fun _ => hlw⟩
    rw [hlog]
    simp [WriteToWorkspacePath]

/-- C8: on an existing repository and branch, with valid arguments, a tree
lookup that either finds the entry or reports it missing, and tree updates
that succeed, `DeleteObject` (1) returns `ErrNotFound` exactly when the path
has neither a workspace row nor an object entry in the workspace tree, or its
workspace row is a tombstone; (2) when the path exists only as a live
workspace row, succeeds and only deletes that row; (3) when the path exists
in the tree (and is not tombstoned), succeeds, deletes the live workspace row
if there is one, then writes for the path a row whose entry is a tombstone
(`Tombstone = true`, the path, its base name, the object type and the time,
no address, size or checksum), and issues no other workspace row write or
delete; without a partial commit that tombstone is the row read back for the
path. -/
theorem DeleteObject_cases (env : Env τ) (ts : Int) (chosen : ℚ) (st : Store τ)
    (repoId branch path : String) (repo : Repo) (br : Branch)
    (hv : ValidateAll [env.ValidateRepoId repoId, env.ValidateRef branch,
      env.ValidatePath path] = none)
    (hrepo : ReadRepo st = .ok repo)
    (hbr : ReadBranch st branch = .ok br)
    (htree : ∀ e, env.GetEntry st.trees br.WorkspaceRoot path env.EntryTypeObject = .error e →
      e = .ErrNotFound)
    (hupd : ∀ t root es, ∃ r, env.Update t root es = .ok r) :
    ((DBIndex.DeleteObject env ts chosen st repoId branch path).1 = .error .ErrNotFound
      ↔ ((ReadFromWorkspace st branch path = .error .ErrNotFound
            ∧ env.GetEntry st.trees br.WorkspaceRoot path env.EntryTypeObject
                = .error .ErrNotFound)
          ∨ ∃ ws, ReadFromWorkspace st branch path = .ok ws ∧ ws.Tombstone = true))
    ∧ (∀ ws, ReadFromWorkspace st branch path = .ok ws → ws.Tombstone = false →
        env.GetEntry st.trees br.WorkspaceRoot path env.EntryTypeObject = .error .ErrNotFound →
        DBIndex.DeleteObject env ts chosen st repoId branch path
          = (.ok (), DeleteWorkspacePath st branch path))
    ∧ (∀ me, env.GetEntry st.trees br.WorkspaceRoot path env.EntryTypeObject = .ok me →
        (∀ ws, ReadFromWorkspace st branch path = .ok ws → ws.Tombstone = false) →
        (DBIndex.DeleteObject env ts chosen st repoId branch path).1 = .ok ()
        ∧ ∃ ops, (DBIndex.DeleteObject env ts chosen st repoId branch path).2.log
            = st.log
              ++ (match ReadFromWorkspace st branch path with
                  | .ok _ => [Op.DeleteWorkspacePath branch path]
                  | .error _ => [])
              ++ [Op.WriteToWorkspacePath branch "" path
                  ({ RepositoryId := "", BranchId := "", ParentPath := "", Path := path,
                     EntryName := some (env.Basename path), EntryAddress := none,
                     EntryType := some env.EntryTypeObject, EntryCreationDate := some ts,
                     EntrySize := none, EntryChecksum := none, Tombstone := true }
                    : WorkspaceEntry)] ++ ops
          ∧ (∀ op ∈ ops, (∀ b' pp p e, op ≠ Op.WriteToWorkspacePath b' pp p e)
              ∧ (∀ b' p, op ≠ Op.DeleteWorkspacePath b' p))
          ∧ (shouldPartiallyCommit chosen = false →
              ReadFromWorkspace (DBIndex.DeleteObject env ts chosen st repoId branch path).2
                branch path
                = .ok ({ RepositoryId := "", BranchId := "", ParentPath := "", Path := path,
                         EntryName := some (env.Basename path), EntryAddress := none,
                         EntryType := some env.EntryTypeObject, EntryCreationDate := some ts,
                         EntrySize := none, EntryChecksum := none, Tombstone := true }
                        : WorkspaceEntry))) := by
  unfold DBIndex.DeleteObject
  rw [hv]
  simp only
  cases hws : ReadFromWorkspace st branch path with
  | error e =>
    have he := ReadFromWorkspace_error st branch path e hws
    subst he
    cases hge : env.GetEntry st.trees br.WorkspaceRoot path env.EntryTypeObject with
    | error e' =>
      have he' := htree e' hge
      subst he'
      have htx : DeleteObjectTx env ts chosen branch path st = .error .ErrNotFound := by
        simp [DeleteObjectTx, hrepo, hws, hbr, hge, orNotFound, bind, Except.bind, throw,
          throwThe, MonadExceptOf.throw]
      rw [RepoTransact_error _ _ _ htx]
      simp
    | ok me =>
      obtain ⟨tx', ops, hw, hlog, hops, hno, -⟩ :=
        writeEntryToWorkspace_spec env chosen st repo branch path (deleteTombstone env ts path)
          br hbr hupd
      have htx : DeleteObjectTx env ts chosen branch path st = .ok ((), tx') := by
        simp [DeleteObjectTx, hrepo, hws, hbr, hge, orNotFound, bind, Except.bind, pure,
          Except.pure, hw]
      rw [RepoTransact_ok _ _ _ _ htx]
      refine ⟨by simp, by simp, ?_⟩
      intro me' _ _
      refine ⟨rfl, ops, ?_, hops, ?_⟩
      · simpa [deleteTombstone] using hlog
      · intro hch
        simp only [hno hch]
        simp [deleteTombstone]
  | ok ws =>
    cases hge : env.GetEntry st.trees br.WorkspaceRoot path env.EntryTypeObject with
    | error e' =>
      have he' := htree e' hge
      subst he'
      cases htomb : ws.Tombstone with
      | true =>
        have htx : DeleteObjectTx env ts chosen branch path st = .error .ErrNotFound := by
          simp [DeleteObjectTx, hrepo, hws, hbr, hge, orNotFound, bind, Except.bind, throw,
            throwThe, MonadExceptOf.throw, htomb, pure, Except.pure]
        rw [RepoTransact_error _ _ _ htx]
        simp [htomb]
      | false =>
        have htx : DeleteObjectTx env ts chosen branch path st
            = .ok ((), DeleteWorkspacePath st branch path) := by
          simp [DeleteObjectTx, hrepo, hws, hbr, hge, orNotFound, bind, Except.bind, pure,
            Except.pure, htomb]
        rw [RepoTransact_ok _ _ _ _ htx]
        simp [htomb]
    | ok me =>
      cases htomb : ws.Tombstone with
      | true =>
        have htx : DeleteObjectTx env ts chosen branch path st = .error .ErrNotFound := by
          simp [DeleteObjectTx, hrepo, hws, hbr, hge, orNotFound, bind, Except.bind, throw,
            throwThe, MonadExceptOf.throw, htomb, pure, Except.pure]
        rw [RepoTransact_error _ _ _ htx]
        simp [htomb]
      | false =>
        obtain ⟨tx', ops, hw, hlog, hops, hno, -⟩ :=
          writeEntryToWorkspace_spec env chosen (DeleteWorkspacePath st branch path) repo branch
            path (deleteTombstone env ts path) br (by simpa using hbr) hupd
        have htx : DeleteObjectTx env ts chosen branch path st = .ok ((), tx') := by
          simp [DeleteObjectTx, hrepo, hws, hbr, hge, orNotFound, bind, Except.bind, pure,
            Except.pure, htomb, hw]
        rw [RepoTransact_ok _ _ _ _ htx]
        refine ⟨by simp [htomb], by simp, ?_⟩
        intro me' _ _
        refine ⟨rfl, ops, ?_, hops, ?_⟩
        · simpa [deleteTombstone, DeleteWorkspacePath] using hlog
        · intro hch
          simp only [hno hch]
          simp [deleteTombstone]

/-- Witness of C8: `master` holds a live workspace row for `x`, which is not
in the tree: the row is deleted and nothing else is written.  With a live
workspace row for `in-tree`, which is in the tree, `DeleteObject` succeeds,
deletes the row and then writes the tombstone row for `in-tree`. -/
theorem DeleteObject_cases_witness :
    (((DBIndex.DeleteObject exampleEnv 7 0 (exampleStore [exampleLiveRow "x"]) "repo" "master"
        "x").1 = .error .ErrNotFound
      ↔ ((ReadFromWorkspace (exampleStore [exampleLiveRow "x"]) "master" "x" = .error .ErrNotFound
            ∧ exampleEnv.GetEntry (exampleStore [exampleLiveRow "x"]).trees
                exampleMaster.WorkspaceRoot "x" exampleEnv.EntryTypeObject = .error .ErrNotFound)
          ∨ ∃ ws, ReadFromWorkspace (exampleStore [exampleLiveRow "x"]) "master" "x" = .ok ws
              ∧ ws.Tombstone = true))
    ∧ (∀ ws, ReadFromWorkspace (exampleStore [exampleLiveRow "x"]) "master" "x" = .ok ws →
        ws.Tombstone = false →
        exampleEnv.GetEntry (exampleStore [exampleLiveRow "x"]).trees exampleMaster.WorkspaceRoot
          "x" exampleEnv.EntryTypeObject = .error .ErrNotFound →
        DBIndex.DeleteObject exampleEnv 7 0 (exampleStore [exampleLiveRow "x"]) "repo" "master" "x"
          = (.ok (), DeleteWorkspacePath (exampleStore [exampleLiveRow "x"]) "master" "x")))
    ∧ ((DBIndex.DeleteObject exampleEnv 7 0 (exampleStore [exampleLiveRow "in-tree"]) "repo"
          "master" "in-tree").1 = .ok ()
      ∧ ∃ ops, (DBIndex.DeleteObject exampleEnv 7 0 (exampleStore [exampleLiveRow "in-tree"])
            "repo" "master" "in-tree").2.log
          = [Op.DeleteWorkspacePath "master" "in-tree",
             Op.WriteToWorkspacePath "master" "" "in-tree"
               { RepositoryId := "", BranchId := "", ParentPath := "", Path := "in-tree",
                 EntryName := some "in-tree", EntryAddress := none, EntryType := some "object",
                 EntryCreationDate := some 7, EntrySize := none, EntryChecksum := none,
                 Tombstone := true }] ++ ops
        ∧ (∀ op ∈ ops, (∀ b' pp p e, op ≠ Op.WriteToWorkspacePath b' pp p e)
            ∧ (∀ b' p, op ≠ Op.DeleteWorkspacePath b' p))) :=
  ⟨⟨(DeleteObject_cases exampleEnv 7 0 (exampleStore [exampleLiveRow "x"]) "repo" "master" "x"
      exampleRepo exampleMaster rfl rfl rfl
      (fun e h => by simp [exampleEnv] at h; exact h.symm)
      (fun _ _ _ => ⟨_, rfl⟩)).1,
    (DeleteObject_cases exampleEnv 7 0 (exampleStore [exampleLiveRow "x"]) "repo" "master" "x"
      exampleRepo exampleMaster rfl rfl rfl
      (fun e h => by simp [exampleEnv] at h; exact h.symm)
      (fun _ _ _ => ⟨_, rfl⟩)).2.1⟩,
   ((DeleteObject_cases exampleEnv 7 0 (exampleStore [exampleLiveRow "in-tree"]) "repo" "master"
      "in-tree" exampleRepo exampleMaster rfl rfl rfl
      (fun e h => by simp [exampleEnv] at h)
      (fun _ _ _ => ⟨_, rfl⟩)).2.2
      { RepositoryId := "repo", Name := "in-tree", Address := "addr", EntryType := "object",
        CreationDate := 0, Size := 1, Checksum := "sum" } rfl
      (fun ws h => by
        have h' : Except.ok (exampleLiveRow "in-tree").entry = Except.ok ws := h
        cases h'
        rfl)).elim
     (fun hok h => ⟨hok, h.elim (fun ops hops => ⟨ops, hops.1, hops.2.1⟩)⟩)⟩

end Index

/-! ## The diff views (C9, C10) -/

namespace Catalog

theorem mem_leftJoinOnPath_left {α β : Type} {pa : α → String} {pb : β → String}
    {left : List α} {right : List β} {a : α} {ob : Option β}
    (h : (a, ob) ∈ leftJoinOnPath pa pb left right) :
    a ∈ left ∧ (∀ b, ob = some b → b ∈ right ∧ pb b = pa a)
      ∧ (ob = none → ∀ b ∈ right, pb b ≠ pa a) := by
  unfold leftJoinOnPath at h
  rw [List.mem_flatMap] at h
  obtain ⟨a', ha', h⟩ := h
  cases hf : right.filter (fun b => decide (pb b = pa a')) with
  | nil =>
    rw [hf] at h
    simp only [List.mem_singleton, Prod.mk.injEq] at h
    obtain ⟨rfl, rfl⟩ := h
    refine ⟨ha', fun b hb => (nomatch hb), fun _ b hb hp => ?_⟩
    have : b ∈ right.filter (fun b => decide (pb b = pa a)) :=
      List.mem_filter.mpr ⟨hb, by simpa using hp⟩
    rw [hf] at this
    cases this
  | cons m ms =>
    rw [hf] at h
    simp only [List.mem_map, Prod.mk.injEq] at h
    obtain ⟨b, hb, rfl, rfl⟩ := h
    rw [← hf] at hb
    have hb' := List.mem_filter.mp hb
    refine ⟨ha', fun b' hb'' => ?_, fun hn => (nomatch hn)⟩
    obtain rfl : b = b' := Option.some.inj hb''
    exact ⟨hb'.1, by simpa using hb'.2⟩

theorem mem_leftJoinOnPath_some {α β : Type} {pa : α → String} {pb : β → String}
    {left : List α} {right : List β} {a : α} {b : β}
    (ha : a ∈ left) (hb : b ∈ right) (hp : pb b = pa a) :
    (a, some b) ∈ leftJoinOnPath pa pb left right := by
  unfold leftJoinOnPath
  rw [List.mem_flatMap]
  refine ⟨a, ha, ?_⟩
  have hmem : b ∈ right.filter (fun b => decide (pb b = pa a)) :=
    List.mem_filter.mpr ⟨hb, by simpa using hp⟩
  cases hf : right.filter (fun b => decide (pb b = pa a)) with
  | nil => rw [hf] at hmem; cases hmem
  | cons m ms =>
    simp only [List.mem_map]
    exact ⟨b, hf ▸ hmem, rfl⟩

/-- A row of a lineage view is the column list applied to a kept row. -/
theorem mem_sqEntriesLineage {k : CommitConsts} {branchID requestedCommit : Int}
    {lineage : List lineageCommit} {entries : List Entry} {r : LineageRow}
    (h : r ∈ sqEntriesLineage k branchID requestedCommit lineage entries) :
    ∃ e ∈ sqEntriesLineageKept k branchID requestedCommit lineage entries,
      r = lineageColumns branchID (sqLineageConditions k branchID lineage).2.1
            (sqLineageConditions k branchID lineage).2.2 e := by
  unfold sqEntriesLineage at h
  simp only [List.mem_map] at h
  obtain ⟨e, he, rfl⟩ := h
  exact ⟨e, he, rfl⟩

/-- A lineage view has one row per path. -/
theorem sqEntriesLineage_unique {k : CommitConsts} {branchID requestedCommit : Int}
    {lineage : List lineageCommit} {entries : List Entry} {r r' : LineageRow}
    (h : r ∈ sqEntriesLineage k branchID requestedCommit lineage entries)
    (h' : r' ∈ sqEntriesLineage k branchID requestedCommit lineage entries)
    (hp : r.path = r'.path) : r = r' := by
  obtain ⟨e, he, rfl⟩ := mem_sqEntriesLineage h
  obtain ⟨e', he', rfl⟩ := mem_sqEntriesLineage h'
  have : e = e' := distinctOnPath_unique he he' hp
  rw [this]

/-- The columns of a row of a lineage view: it is displayed for the branch
of the view, `is_committed` says `min_commit > 0`, and an uncommitted row
belongs to the displayed branch. -/
theorem sqEntriesLineage_row {k : CommitConsts} {branchID requestedCommit : Int}
    {lineage : List lineageCommit} {entries : List Entry} {r : LineageRow}
    (h : r ∈ sqEntriesLineage k branchID requestedCommit lineage entries) :
    r.displayed_branch = branchID ∧ r.is_committed = decide (r.min_commit > 0)
      ∧ (r.min_commit = 0 → r.source_branch = branchID) := by
  obtain ⟨e, he, rfl⟩ := mem_sqEntriesLineage h
  obtain ⟨⟨e0, _, rfl⟩, _, hf⟩ := admitted_from_table (mem_kept_iff_admitted he)
  refine ⟨rfl, rfl, ?_⟩
  intro h0
  simp only [lineageColumns, entriesVColumns_min_commit] at h0
  rcases hf with hf | ⟨lc, _, hadm⟩
  · exact hf
  · simp [ancestorAdmits, h0] at hadm

theorem mem_fromSonFather {k : CommitConsts} {fatherID : Int} {lineage : List lineageCommit}
    {entries : List Entry} {f : LineageRow} :
    f ∈ fromSonFather k fatherID lineage entries
      ↔ f ∈ sqEntriesLineage k fatherID k.UncommittedID lineage entries := by
  unfold fromSonFather
  rw [List.mem_filter]
  constructor
  · exact fun h => h.1
  · exact fun h => ⟨h, by simpa using (sqEntriesLineage_row h).1⟩

theorem mem_fromFatherFather {k : CommitConsts} {fatherID : Int} {lineage : List lineageCommit}
    {entries : List Entry} {f : LineageRow} :
    f ∈ fromFatherFather k fatherID lineage entries
      ↔ f ∈ sqEntriesLineage k fatherID k.CommittedID lineage entries := by
  unfold fromFatherFather
  rw [List.mem_filter]
  constructor
  · exact fun h => h.1
  · exact fun h => ⟨h, by simpa using (sqEntriesLineage_row h).1⟩

theorem mem_fromFatherSon {k : CommitConsts} {sonID : Int} {lineage : List lineageCommit}
    {entries : List Entry} {s : LineageRow} :
    s ∈ fromFatherSon k sonID lineage entries
      ↔ s ∈ sqEntriesLineage k sonID k.UncommittedID lineage entries := by
  unfold fromFatherSon
  rw [List.mem_filter]
  constructor
  · exact fun h => h.1
  · exact fun h => ⟨h, by simpa using (sqEntriesLineage_row h).1⟩

/-- The rows of `sqDiffFromSonV`, traced back to the joined pair they come
from. -/
theorem mem_sqDiffFromSonV {k : CommitConsts} {fatherID sonID fEff sEff : Int}
    {fatherLineage sonLineageValues : List lineageCommit} {entries : List Entry}
    {d : DiffFromSonRow} :
    d ∈ sqDiffFromSonV k fatherID sonID fEff sEff fatherLineage sonLineageValues entries
      ↔ ∃ s fo, (s, fo) ∈ leftJoinOnPath (fun s : EntryV => s.path)
            (fun f : LineageRow => f.path) (fromSonScan k sonID sEff entries)
            (fromSonFather k fatherID fatherLineage entries)
          ∧ (fromSonColumns fatherID fEff sonLineageValues s fo).same_object = false
          ∧ (fromSonColumns fatherID fEff sonLineageValues s fo).both_deleted = false
          ∧ d = fromSonOutput (fromSonColumns fatherID fEff sonLineageValues s fo) := by
  unfold sqDiffFromSonV
  simp only [List.mem_map, List.mem_filter, Bool.not_eq_true', Bool.or_eq_false_iff,
    Prod.exists]
  constructor
  · rintro ⟨t, ⟨⟨s, fo, hj, rfl⟩, h1, h2⟩, rfl⟩
    exact ⟨s, fo, hj, h1, h2, rfl⟩
  · rintro ⟨s, fo, hj, h1, h2, rfl⟩
    exact ⟨_, ⟨⟨s, fo, hj, rfl⟩, h1, h2⟩, rfl⟩

/-- The rows of `sqDiffFromFatherV`, traced back to the joined rows they
come from. -/
theorem mem_sqDiffFromFatherV {k : CommitConsts}
    {getLineageAsValues : List lineageCommit → Int → List lineageCommit}
    {fatherID sonID last : Int} {fatherLineage sonLineage : List lineageCommit}
    {entries : List Entry} {d : DiffFromFatherRow} :
    d ∈ sqDiffFromFatherV k getLineageAsValues fatherID sonID last fatherLineage sonLineage entries
      ↔ ∃ f so l, (f, so) ∈ leftJoinOnPath (fun f : LineageRow => f.path)
            (fun s : LineageRow => s.path) (fromFatherFather k fatherID fatherLineage entries)
            (fromFatherSon k sonID sonLineage entries)
          ∧ l ∈ getLineageAsValues sonLineage sonID ∧ f.source_branch = l.BranchID
          ∧ (fromFatherColumns sonID last f so l).father_changed = true
          ∧ (fromFatherColumns sonID last f so l).same_object = false
          ∧ (fromFatherColumns sonID last f so l).both_deleted = false
          ∧ d = fromFatherOutput (fromFatherColumns sonID last f so l) := by
  unfold sqDiffFromFatherV
  simp only [List.mem_map, List.mem_filter, List.mem_flatMap, Bool.not_eq_true',
    Bool.or_eq_false_iff, Bool.and_eq_true, Prod.exists, decide_eq_true_eq]
  constructor
  · rintro ⟨t, ⟨⟨f, so, l, ⟨f', so', hj, l', ⟨hl, hb⟩, h⟩, rfl⟩, h0, h1, h2⟩, rfl⟩
    simp only [Prod.mk.injEq] at h
    obtain ⟨rfl, rfl, rfl⟩ := h
    exact ⟨_, _, _, hj, hl, hb, h0, h1, h2, rfl⟩
  · rintro ⟨f, so, l, hj, hl, hb, h0, h1, h2, rfl⟩
    exact ⟨_, ⟨⟨f, so, l, ⟨f, so, hj, l, ⟨hl, hb⟩, rfl⟩, rfl⟩, h0, h1, h2⟩, rfl⟩

theorem fromSonColumns_conflict_of_uncommitted (fatherID fEff : Int)
    (sonLineageValues : List lineageCommit) (s : EntryV) (f : LineageRow)
    (h : f.is_committed = false) :
    (fromSonColumns fatherID fEff sonLineageValues s (some f)).DifferenceTypeConflict = true := by
  simp [fromSonColumns, h]

theorem fromFatherColumns_conflict_of_uncommitted (sonID last : Int) (f s : LineageRow)
    (l : lineageCommit) (h : s.is_committed = false) (hb : s.source_branch = sonID) :
    (fromFatherColumns sonID last f (some s) l).DifferenceTypeConflict = true := by
  simp [fromFatherColumns, h, hb]

/-- C9: in `sqDiffFromSonV`, whenever the father's uncommitted view holds an
uncommitted row (`min_commit = 0`) for a path, every row the diff returns for
that path has `diff_type = 3` (CONFLICT), and for every scanned son row of
that path the diff does return the CONFLICT row, unless the two rows are the
same object (same `physical_address` and same `is_deleted`) or both are
deleted.  In `sqDiffFromFatherV` the same holds for an uncommitted row of the
son's view (such a row is the son's own): every returned row of that path is
a CONFLICT, and for a father row of that path changed since the commit of its
lineage row (`min_commit` above it, or deleted with `max_commit` not below
it) the CONFLICT row is returned, unless the two rows are the same object or
both are deleted. -/
theorem uncommitted_destination_row_is_conflict (k : CommitConsts)
    (getLineageAsValues : List lineageCommit → Int → List lineageCommit)
    (fatherID sonID fEff sEff last : Int)
    (fatherLineage sonLineage sonLineageValues : List lineageCommit) (entries : List Entry) :
    (∀ d ∈ sqDiffFromSonV k fatherID sonID fEff sEff fatherLineage sonLineageValues entries,
      ∀ f ∈ sqEntriesLineage k fatherID k.UncommittedID fatherLineage entries,
        f.path = d.path → f.min_commit = 0 → d.diff_type = 3)
    ∧ (∀ s ∈ fromSonScan k sonID sEff entries,
      ∀ f ∈ sqEntriesLineage k fatherID k.UncommittedID fatherLineage entries,
        f.path = s.path → f.min_commit = 0 →
        ¬ (f.physical_address = s.physical_address ∧ f.is_deleted = s.is_deleted) →
        ¬ (f.is_deleted = true ∧ s.is_deleted = true) →
        ({ diff_type := 3, path := s.path, entry_ctid := none,
           source_branch := some f.source_branch } : DiffFromSonRow)
          ∈ sqDiffFromSonV k fatherID sonID fEff sEff fatherLineage sonLineageValues entries)
    ∧ (∀ d ∈ sqDiffFromFatherV k getLineageAsValues fatherID sonID last fatherLineage sonLineage
          entries,
      ∀ s ∈ sqEntriesLineage k sonID k.UncommittedID sonLineage entries,
        s.path = d.path → s.min_commit = 0 → d.diff_type = 3)
    ∧ (∀ f ∈ sqEntriesLineage k fatherID k.CommittedID fatherLineage entries,
      ∀ s ∈ sqEntriesLineage k sonID k.UncommittedID sonLineage entries,
      ∀ l ∈ getLineageAsValues sonLineage sonID,
        s.path = f.path → s.min_commit = 0 → f.source_branch = l.BranchID →
        (f.min_commit > l.CommitID ∨ (f.max_commit ≥ l.CommitID ∧ f.is_deleted = true)) →
        ¬ (f.physical_address = s.physical_address ∧ f.is_deleted = s.is_deleted) →
        ¬ (s.is_deleted = true ∧ f.is_deleted = true) →
        ({ diff_type := 3, path := f.path,
           entry_ctid := if s.is_deleted then none else some f.entry_ctid } : DiffFromFatherRow)
          ∈ sqDiffFromFatherV k getLineageAsValues fatherID sonID last fatherLineage sonLineage
              entries) := by
  refine ⟨?_, ?_, ?_, ?_⟩
  · intro d hd f hf hp h0
    obtain ⟨s, fo, hj, -, -, rfl⟩ := mem_sqDiffFromSonV.mp hd
    obtain ⟨-, hsome, hnone⟩ := mem_leftJoinOnPath_left hj
    have hcomm : f.is_committed = false := by
      rw [(sqEntriesLineage_row hf).2.1, h0]; decide
    cases fo with
    | none => exact absurd hp (hnone rfl f (mem_fromSonFather.mpr hf))
    | some f' =>
      obtain ⟨hf', hp'⟩ := hsome f' rfl
      have : f' = f := sqEntriesLineage_unique (mem_fromSonFather.mp hf') hf (hp'.trans hp.symm)
      subst this
      simp [fromSonOutput, diffTypeCase,
        fromSonColumns_conflict_of_uncommitted fatherID fEff sonLineageValues s f' hcomm]
  · intro s hs f hf hp h0 hso hbd
    have hcomm : f.is_committed = false := by
      rw [(sqEntriesLineage_row hf).2.1, h0]; decide
    have hso' : (fromSonColumns fatherID fEff sonLineageValues s (some f)).same_object = false := by
      simp only [fromSonColumns, Bool.and_eq_false_iff, decide_eq_false_iff_not]
      exact not_and_or.mp hso
    have hbd' : (fromSonColumns fatherID fEff sonLineageValues s (some f)).both_deleted
        = false := by
      simp only [fromSonColumns, Bool.and_eq_false_iff]
      rcases not_and_or.mp hbd with h | h
      · exact Or.inl (by simpa using h)
      · exact Or.inr (by simpa using h)
    refine mem_sqDiffFromSonV.mpr ⟨s, some f,
      mem_leftJoinOnPath_some hs (mem_fromSonFather.mpr hf) hp, hso', hbd', ?_⟩
    simp [fromSonOutput, diffTypeCase,
      fromSonColumns_conflict_of_uncommitted fatherID fEff sonLineageValues s f hcomm]
    simp [fromSonColumns]
  · intro d hd s hs hp h0
    obtain ⟨f, so, l, hj, -, -, -, -, -, rfl⟩ := mem_sqDiffFromFatherV.mp hd
    obtain ⟨-, hsome, hnone⟩ := mem_leftJoinOnPath_left hj
    have hrow := sqEntriesLineage_row hs
    have hcomm : s.is_committed = false := by rw [hrow.2.1, h0]; decide
    cases so with
    | none => exact absurd hp (hnone rfl s (mem_fromFatherSon.mpr hs))
    | some s' =>
      obtain ⟨hs', hp'⟩ := hsome s' rfl
      have : s' = s := sqEntriesLineage_unique (mem_fromFatherSon.mp hs') hs (hp'.trans hp.symm)
      subst this
      simp [fromFatherOutput, diffTypeCase,
        fromFatherColumns_conflict_of_uncommitted sonID last f s' l hcomm (hrow.2.2 h0)]
  · intro f hf s hs l hl hp h0 hb hfc hso hbd
    have hrow := sqEntriesLineage_row hs
    have hcomm : s.is_committed = false := by rw [hrow.2.1, h0]; decide
    have hfc' : (fromFatherColumns sonID last f (some s) l).father_changed = true := by
      simp only [fromFatherColumns, Bool.or_eq_true, Bool.and_eq_true, decide_eq_true_eq]
      exact hfc
    have hso' : (fromFatherColumns sonID last f (some s) l).same_object = false := by
      simp only [fromFatherColumns, Bool.and_eq_false_iff, decide_eq_false_iff_not]
      exact not_and_or.mp hso
    have hbd' : (fromFatherColumns sonID last f (some s) l).both_deleted = false := by
      simp only [fromFatherColumns, Bool.and_eq_false_iff]
      rcases not_and_or.mp hbd with h | h
      · exact Or.inl (by simpa using h)
      · exact Or.inr (by simpa using h)
    refine mem_sqDiffFromFatherV.mpr ⟨f, some s, l,
      mem_leftJoinOnPath_some (mem_fromFatherFather.mpr hf) (mem_fromFatherSon.mpr hs) hp,
      hl, hb, hfc', hso', hbd', ?_⟩
    have hconf := fromFatherColumns_conflict_of_uncommitted sonID last f s l hcomm (hrow.2.2 h0)
    have hin : (fromFatherColumns sonID last f (some s) l).entry_in_son = true := by
      simp [fromFatherColumns, hrow.2.2 h0]
    have hch : (fromFatherColumns sonID last f (some s) l).DifferenceTypeChanged
        = !s.is_deleted := rfl
    have hctid : (fromFatherColumns sonID last f (some s) l).entry_ctid = f.entry_ctid := rfl
    have hpath : (fromFatherColumns sonID last f (some s) l).path = f.path := rfl
    unfold fromFatherOutput
    rw [hconf, hin, hch, hctid, hpath]
    cases s.is_deleted <;> simp [diffTypeCase]

/-- Witness of C9.  For `sqDiffFromSonV`: the father (branch 1) holds a
committed and an uncommitted row for `a`, the son (branch 2) changed `a` at
commit 7; the uncommitted row is the one in the father's view and the diff
returns `a` as a CONFLICT.  For `sqDiffFromFatherV`: the father changed `a`
at commit 7, after the commit 5 of the son's lineage row, and the son holds
an uncommitted row for `a`; the diff returns `a` as a CONFLICT. -/
theorem uncommitted_destination_row_is_conflict_witness :
    ({ diff_type := 3, path := "a", entry_ctid := none, source_branch := some 1 } : DiffFromSonRow)
      ∈ sqDiffFromSonV exampleConsts 1 2 5 6 [] (exampleLineageValues [⟨1, 5⟩] 2)
          [exampleEntry 1 "a" "x" "x" 1 1000 0, exampleEntry 2 "a" "y" "y" 7 1000 1,
           exampleEntry 1 "a" "z" "z" 0 1000 2]
    ∧ ({ diff_type := 3, path := "a", entry_ctid := some 0 } : DiffFromFatherRow)
      ∈ sqDiffFromFatherV exampleConsts exampleLineageValues 1 2 5 [] [⟨1, 5⟩]
          [exampleEntry 1 "a" "x" "x" 7 1000 0, exampleEntry 2 "a" "y" "y" 0 1000 1] :=
  ⟨(uncommitted_destination_row_is_conflict exampleConsts exampleLineageValues 1 2 5 6 5 []
      [⟨1, 5⟩] (exampleLineageValues [⟨1, 5⟩] 2)
      [exampleEntry 1 "a" "x" "x" 1 1000 0, exampleEntry 2 "a" "y" "y" 7 1000 1,
       exampleEntry 1 "a" "z" "z" 0 1000 2]).2.1
    (entriesVColumns exampleConsts (exampleEntry 2 "a" "y" "y" 7 1000 1)) (by decide)
    { displayed_branch := 1, path := "a", source_branch := 1, min_commit := 0,
      physical_address := "z", size := 1, checksum := "z", is_committed := false,
      is_tombstone := false, entry_ctid := 2, is_expired := false, max_commit := 1000,
      is_deleted := false } (by decide) rfl rfl (by decide) (by decide),
   (uncommitted_destination_row_is_conflict exampleConsts exampleLineageValues 1 2 5 6 5 []
      [⟨1, 5⟩] (exampleLineageValues [⟨1, 5⟩] 2)
      [exampleEntry 1 "a" "x" "x" 7 1000 0, exampleEntry 2 "a" "y" "y" 0 1000 1]).2.2.2
    { displayed_branch := 1, path := "a", source_branch := 1, min_commit := 7,
      physical_address := "x", size := 1, checksum := "x", is_committed := true,
      is_tombstone := false, entry_ctid := 0, is_expired := false, max_commit := 1000,
      is_deleted := false } (by decide)
    { displayed_branch := 2, path := "a", source_branch := 2, min_commit := 0,
      physical_address := "y", size := 1, checksum := "y", is_committed := false,
      is_tombstone := false, entry_ctid := 1, is_expired := false, max_commit := 1000,
      is_deleted := false } (by decide)
    ⟨1, 5⟩ (by decide) rfl rfl rfl (by decide) (by decide) (by decide)⟩

/-- C10 (the claim fails): the path `a` is present and not deleted on both
sides, with the same `physical_address` and different checksums (`c1`,
`c2`).  Neither diff query returns it: the `same_object` filter compares
`physical_address` and `is_deleted` only. -/
theorem checksum_change_is_not_reported :
    sqDiffFromSonV exampleConsts 1 2 5 6 [] (exampleLineageValues [⟨1, 5⟩] 2)
        [exampleEntry 1 "a" "x" "c1" 1 1000 0, exampleEntry 2 "a" "x" "c2" 7 1000 1] = []
    ∧ sqDiffFromFatherV exampleConsts exampleLineageValues 1 2 5 [] [⟨1, 5⟩]
        [exampleEntry 1 "a" "x" "c1" 1 6 0, exampleEntry 1 "a" "x" "c2" 7 1000 1] = []
    ∧ (fromSonScan exampleConsts 2 6
        [exampleEntry 1 "a" "x" "c1" 1 1000 0, exampleEntry 2 "a" "x" "c2" 7 1000 1]).map
        (fun s => (s.path, s.physical_address, s.checksum, s.is_deleted))
        = [("a", "x", "c2", false)]
    ∧ (fromSonFather exampleConsts 1 []
        [exampleEntry 1 "a" "x" "c1" 1 1000 0, exampleEntry 2 "a" "x" "c2" 7 1000 1]).map
        (fun f => (f.path, f.physical_address, f.checksum, f.is_deleted))
        = [("a", "x", "c1", false)] := by
  decide

/-- C10 (amended): for a path present and not deleted on both sides, the
diff is decided by `physical_address` alone; the checksum is never
consulted.  In `sqDiffFromSonV`, a scanned son row and the father's row of
its path, both not deleted and with different `physical_address`, give a
returned row whose `diff_type` is 2 (CHANGED) unless the conflict column
holds, when it is 3 (CONFLICT); and when every scanned son row of a path is
not deleted and has the `physical_address` of the father's (not deleted) row,
no row is returned for the path.  In `sqDiffFromFatherV` the same holds for
a father row, the son's row of its path and a joined lineage row for which
`father_changed` holds. -/
theorem changed_is_decided_by_physical_address (k : CommitConsts)
    (getLineageAsValues : List lineageCommit → Int → List lineageCommit)
    (fatherID sonID fEff sEff last : Int)
    (fatherLineage sonLineage sonLineageValues : List lineageCommit) (entries : List Entry) :
    (∀ s ∈ fromSonScan k sonID sEff entries,
      ∀ f ∈ sqEntriesLineage k fatherID k.UncommittedID fatherLineage entries,
        f.path = s.path → s.is_deleted = false → f.is_deleted = false →
        f.physical_address ≠ s.physical_address →
        fromSonOutput (fromSonColumns fatherID fEff sonLineageValues s (some f))
            ∈ sqDiffFromSonV k fatherID sonID fEff sEff fatherLineage sonLineageValues entries
        ∧ (fromSonOutput (fromSonColumns fatherID fEff sonLineageValues s (some f))).path = s.path
        ∧ (fromSonOutput (fromSonColumns fatherID fEff sonLineageValues s (some f))).diff_type
            = (if (fromSonColumns fatherID fEff sonLineageValues s (some f)).DifferenceTypeConflict
               then 3 else 2))
    ∧ (∀ f ∈ sqEntriesLineage k fatherID k.UncommittedID fatherLineage entries,
        f.is_deleted = false →
        (∀ s ∈ fromSonScan k sonID sEff entries, s.path = f.path →
          s.is_deleted = false ∧ s.physical_address = f.physical_address) →
        ∀ d ∈ sqDiffFromSonV k fatherID sonID fEff sEff fatherLineage sonLineageValues entries,
          d.path ≠ f.path)
    ∧ (∀ f ∈ sqEntriesLineage k fatherID k.CommittedID fatherLineage entries,
      ∀ s ∈ sqEntriesLineage k sonID k.UncommittedID sonLineage entries,
      ∀ l ∈ getLineageAsValues sonLineage sonID,
        s.path = f.path → f.source_branch = l.BranchID →
        f.is_deleted = false → s.is_deleted = false →
        (fromFatherColumns sonID last f (some s) l).father_changed = true →
        f.physical_address ≠ s.physical_address →
        fromFatherOutput (fromFatherColumns sonID last f (some s) l)
            ∈ sqDiffFromFatherV k getLineageAsValues fatherID sonID last fatherLineage sonLineage
                entries
        ∧ (fromFatherOutput (fromFatherColumns sonID last f (some s) l)).path = f.path
        ∧ (fromFatherOutput (fromFatherColumns sonID last f (some s) l)).diff_type
            = (if (fromFatherColumns sonID last f (some s) l).DifferenceTypeConflict
               then 3 else 2))
    ∧ (∀ s ∈ sqEntriesLineage k sonID k.UncommittedID sonLineage entries,
        s.is_deleted = false →
        (∀ f ∈ sqEntriesLineage k fatherID k.CommittedID fatherLineage entries, f.path = s.path →
          f.is_deleted = false ∧ f.physical_address = s.physical_address) →
        ∀ d ∈ sqDiffFromFatherV k getLineageAsValues fatherID sonID last fatherLineage sonLineage
            entries, d.path ≠ s.path) := by
  refine ⟨?_, ?_, ?_, ?_⟩
  · intro s hs f hf hp hsd hfd hne
    refine ⟨mem_sqDiffFromSonV.mpr ⟨s, some f,
      mem_leftJoinOnPath_some hs (mem_fromSonFather.mpr hf) hp, ?_, ?_, rfl⟩, rfl, ?_⟩
    · simp [fromSonColumns, hne]
    · simp [fromSonColumns, hsd]
    · simp only [fromSonOutput, diffTypeCase]
      simp [fromSonColumns, hsd, hfd]
  · intro f hf hfd hall d hd hp
    obtain ⟨s, fo, hj, hso, -, rfl⟩ := mem_sqDiffFromSonV.mp hd
    obtain ⟨hs, hsome, hnone⟩ := mem_leftJoinOnPath_left hj
    have hp' : s.path = f.path := hp
    obtain ⟨hsd, haddr⟩ := hall s hs hp'
    cases fo with
    | none => exact absurd hp'.symm (hnone rfl f (mem_fromSonFather.mpr hf))
    | some f' =>
      obtain ⟨hf', hpf⟩ := hsome f' rfl
      have : f' = f := sqEntriesLineage_unique (mem_fromSonFather.mp hf') hf (hpf.trans hp')
      subst this
      simp [fromSonColumns, haddr, hsd, hfd] at hso
  · intro f hf s hs l hl hp hb hfd hsd hfc hne
    refine ⟨mem_sqDiffFromFatherV.mpr ⟨f, some s, l,
      mem_leftJoinOnPath_some (mem_fromFatherFather.mpr hf) (mem_fromFatherSon.mpr hs) hp,
      hl, hb, hfc, ?_, ?_, rfl⟩, rfl, ?_⟩
    · simp [fromFatherColumns, hne]
    · simp [fromFatherColumns, hfd]
    · simp only [fromFatherOutput, diffTypeCase]
      simp [fromFatherColumns, hsd, hfd]
  · intro s hs hsd hall d hd hp
    obtain ⟨f, so, l, hj, -, -, -, hso, -, rfl⟩ := mem_sqDiffFromFatherV.mp hd
    obtain ⟨hf, hsome, hnone⟩ := mem_leftJoinOnPath_left hj
    have hp' : f.path = s.path := hp
    obtain ⟨hfd, haddr⟩ := hall f (mem_fromFatherFather.mp hf) hp'
    cases so with
    | none => exact absurd hp'.symm (hnone rfl s (mem_fromFatherSon.mpr hs))
    | some s' =>
      obtain ⟨hs', hps⟩ := hsome s' rfl
      have : s' = s := sqEntriesLineage_unique (mem_fromFatherSon.mp hs') hs (hps.trans hp')
      subst this
      simp [fromFatherColumns, haddr, hsd, hfd] at hso

/-- Witness of C10 (amended): the son changed `a` to the address `y` at
commit 7 while the father still holds `x`; `sqDiffFromSonV` returns `a` with
`diff_type = 2`. -/
theorem changed_is_decided_by_physical_address_witness :
    ({ diff_type := 2, path := "a", entry_ctid := some 1, source_branch := some 1 }
        : DiffFromSonRow)
      ∈ sqDiffFromSonV exampleConsts 1 2 5 6 [] (exampleLineageValues [⟨1, 5⟩] 2)
          [exampleEntry 1 "a" "x" "c" 1 1000 0, exampleEntry 2 "a" "y" "c" 7 1000 1] :=
  ((changed_is_decided_by_physical_address exampleConsts exampleLineageValues 1 2 5 6 5 []
      [⟨1, 5⟩] (exampleLineageValues [⟨1, 5⟩] 2)
      [exampleEntry 1 "a" "x" "c" 1 1000 0, exampleEntry 2 "a" "y" "c" 7 1000 1]).1
    (entriesVColumns exampleConsts (exampleEntry 2 "a" "y" "c" 7 1000 1)) (by decide)
    { displayed_branch := 1, path := "a", source_branch := 1, min_commit := 1,
      physical_address := "x", size := 1, checksum := "c", is_committed := true,
      is_tombstone := false, entry_ctid := 0, is_expired := false, max_commit := 1000,
      is_deleted := false } (by decide) rfl rfl rfl (by decide)).1

end Catalog

/-! ## The diff views: the same-object filter and inherited rows (C11, C12) -/

namespace Catalog

theorem diffTypeCase_eq_three (conflict removed changed : Bool) :
    diffTypeCase conflict removed changed = 3 ↔ conflict = true := by
  cases conflict <;> cases removed <;> cases changed <;> simp [diffTypeCase]

/-- Every row returned by the two diff queries comes from a joined row for
which `NOT (same_object OR both_deleted)` holds. -/
theorem returned_rows_pass_filter (k : CommitConsts)
    (getLineageAsValues : List lineageCommit → Int → List lineageCommit)
    (fatherID sonID fEff sEff last : Int)
    (fatherLineage sonLineage sonLineageValues : List lineageCommit) (entries : List Entry) :
    (∀ d ∈ sqDiffFromSonV k fatherID sonID fEff sEff fatherLineage sonLineageValues entries,
      ∃ s fo, s ∈ fromSonScan k sonID sEff entries
        ∧ (∀ f, fo = some f →
            f ∈ sqEntriesLineage k fatherID k.UncommittedID fatherLineage entries ∧ f.path = s.path)
        ∧ d = fromSonOutput (fromSonColumns fatherID fEff sonLineageValues s fo)
        ∧ (!((fromSonColumns fatherID fEff sonLineageValues s fo).same_object
              || (fromSonColumns fatherID fEff sonLineageValues s fo).both_deleted)) = true)
    ∧ (∀ d ∈ sqDiffFromFatherV k getLineageAsValues fatherID sonID last fatherLineage sonLineage
          entries,
      ∃ f so l, f ∈ sqEntriesLineage k fatherID k.CommittedID fatherLineage entries
        ∧ (∀ s, so = some s →
            s ∈ sqEntriesLineage k sonID k.UncommittedID sonLineage entries ∧ s.path = f.path)
        ∧ d = fromFatherOutput (fromFatherColumns sonID last f so l)
        ∧ (!((fromFatherColumns sonID last f so l).same_object
              || (fromFatherColumns sonID last f so l).both_deleted)) = true) := by
  constructor
  · intro d hd
    obtain ⟨s, fo, hj, h1, h2, rfl⟩ := mem_sqDiffFromSonV.mp hd
    obtain ⟨hs, hsome, -⟩ := mem_leftJoinOnPath_left hj
    refine ⟨s, fo, hs, fun f hf => ⟨mem_fromSonFather.mp (hsome f hf).1, (hsome f hf).2⟩, rfl, ?_⟩
    simp [h1, h2]
  · intro d hd
    obtain ⟨f, so, l, hj, -, -, -, h1, h2, rfl⟩ := mem_sqDiffFromFatherV.mp hd
    obtain ⟨hf, hsome, -⟩ := mem_leftJoinOnPath_left hj
    refine ⟨f, so, l, mem_fromFatherFather.mp hf,
      fun s hs => ⟨mem_fromFatherSon.mp (hsome s hs).1, (hsome s hs).2⟩, rfl, ?_⟩
    simp [h1, h2]

/-- C11 (the code at the failing input): the father (branch 1) holds `a` at
address `x`; the son (branch 2, effective commit 6) wrote `a` at address `y`
in commit 6 and overwrote it with address `x` in commit 8, which leaves the
superseded row with `max_commit = 7`.  Both sides now have a row for `a`
with the same `physical_address` and the same `is_deleted` flag, yet
`sqDiffFromSonV` returns `a` (as REMOVED): the superseded row is scanned too
and is compared on its own. -/
theorem same_object_path_is_returned :
    sqDiffFromSonV exampleConsts 1 2 5 6 [] (exampleLineageValues [⟨1, 5⟩] 2)
        [exampleEntry 1 "a" "x" "x" 1 1000 0, exampleEntry 2 "a" "y" "y" 6 7 1,
         exampleEntry 2 "a" "x" "x" 8 1000 2]
      = [{ diff_type := 1, path := "a", entry_ctid := none, source_branch := some 1 }]
    ∧ (fromSonScan exampleConsts 2 6
        [exampleEntry 1 "a" "x" "x" 1 1000 0, exampleEntry 2 "a" "y" "y" 6 7 1,
         exampleEntry 2 "a" "x" "x" 8 1000 2]).map
        (fun s => (s.path, s.physical_address, s.is_deleted))
        = [("a", "y", true), ("a", "x", false)]
    ∧ (fromSonFather exampleConsts 1 []
        [exampleEntry 1 "a" "x" "x" 1 1000 0, exampleEntry 2 "a" "y" "y" 6 7 1,
         exampleEntry 2 "a" "x" "x" 8 1000 2]).map
        (fun f => (f.path, f.physical_address, f.is_deleted))
        = [("a", "x", false)]
    ∧ (sqEntriesLineage exampleConsts 2 exampleConsts.CommittedID [⟨1, 5⟩]
        [exampleEntry 1 "a" "x" "x" 1 1000 0, exampleEntry 2 "a" "y" "y" 6 7 1,
         exampleEntry 2 "a" "x" "x" 8 1000 2]).map
        (fun s => (s.path, s.physical_address, s.is_deleted))
        = [("a", "x", false)] := by
  decide

/-- A row of a lineage view that does not belong to the displayed branch is
committed. -/
theorem sqEntriesLineage_inherited_committed {k : CommitConsts}
    {branchID requestedCommit : Int} {lineage : List lineageCommit} {entries : List Entry}
    {r : LineageRow} (h : r ∈ sqEntriesLineage k branchID requestedCommit lineage entries)
    (hne : r.source_branch ≠ branchID) : r.is_committed = true := by
  obtain ⟨e, he, rfl⟩ := mem_sqEntriesLineage h
  obtain ⟨-, -, hf⟩ := admitted_from_table (mem_kept_iff_admitted he)
  rcases hf with hf | ⟨lc, -, hadm⟩
  · exact absurd hf hne
  · simp only [ancestorAdmits, Bool.and_eq_true] at hadm
    exact hadm.2

theorem sonCannotSee_iff (sonLineageValues : List lineageCommit) (f : LineageRow) :
    sonCannotSee sonLineageValues f = true
      ↔ ¬ ∃ l ∈ sonLineageValues, l.BranchID = f.source_branch ∧ l.CommitID ≥ f.min_commit
          ∧ (l.CommitID > f.max_commit ∨ f.is_deleted = false) := by
  simp only [sonCannotSee, Bool.not_eq_true', List.any_eq_false, Bool.and_eq_true,
    Bool.or_eq_true, decide_eq_true_eq, Bool.not_eq_true', not_exists, not_and]

/-- C12: in `sqDiffFromSonV`, a father row `f` that comes from the father's
lineage (`f.source_branch` is not the father's id) is committed, and the
conflict column of a son row joined with it holds if and only if no row `l`
of the son's lineage has `l.branch_id = f.source_branch`,
`l.commit_id >= f.min_commit` and (`l.commit_id > f.max_commit` or `f` not
deleted); accordingly a returned row whose father row comes from the lineage
has `diff_type = 3` (CONFLICT) exactly in that case. -/
theorem inherited_row_conflict_iff_son_cannot_see (k : CommitConsts)
    (fatherID sonID fEff sEff : Int)
    (fatherLineage sonLineageValues : List lineageCommit) (entries : List Entry) :
    (∀ (s : EntryV), ∀ f ∈ sqEntriesLineage k fatherID k.UncommittedID fatherLineage entries,
      f.source_branch ≠ fatherID →
        f.is_committed = true
        ∧ ((fromSonColumns fatherID fEff sonLineageValues s (some f)).DifferenceTypeConflict = true
            ↔ ¬ ∃ l ∈ sonLineageValues, l.BranchID = f.source_branch
                ∧ l.CommitID ≥ f.min_commit
                ∧ (l.CommitID > f.max_commit ∨ f.is_deleted = false)))
    ∧ (∀ d ∈ sqDiffFromSonV k fatherID sonID fEff sEff fatherLineage sonLineageValues entries,
      ∀ f ∈ sqEntriesLineage k fatherID k.UncommittedID fatherLineage entries,
        f.path = d.path → f.source_branch ≠ fatherID →
        (d.diff_type = 3
          ↔ ¬ ∃ l ∈ sonLineageValues, l.BranchID = f.source_branch
              ∧ l.CommitID ≥ f.min_commit
              ∧ (l.CommitID > f.max_commit ∨ f.is_deleted = false))) := by
  have hcol : ∀ (s : EntryV), ∀ f ∈ sqEntriesLineage k fatherID k.UncommittedID fatherLineage
      entries, f.source_branch ≠ fatherID →
      f.is_committed = true
      ∧ ((fromSonColumns fatherID fEff sonLineageValues s (some f)).DifferenceTypeConflict = true
          ↔ ¬ ∃ l ∈ sonLineageValues, l.BranchID = f.source_branch
              ∧ l.CommitID ≥ f.min_commit
              ∧ (l.CommitID > f.max_commit ∨ f.is_deleted = false)) := by
    intro s f hf hne
    have hc := sqEntriesLineage_inherited_committed hf hne
    refine ⟨hc, ?_⟩
    rw [← sonCannotSee_iff]
    simp [fromSonColumns, hc, hne]
  refine ⟨hcol, ?_⟩
  intro d hd f hf hp hne
  obtain ⟨s, fo, hj, -, -, rfl⟩ := mem_sqDiffFromSonV.mp hd
  obtain ⟨-, hsome, hnone⟩ := mem_leftJoinOnPath_left hj
  cases fo with
  | none => exact absurd hp (hnone rfl f (mem_fromSonFather.mpr hf))
  | some f' =>
    obtain ⟨hf', hp'⟩ := hsome f' rfl
    have : f' = f := sqEntriesLineage_unique (mem_fromSonFather.mp hf') hf (hp'.trans hp.symm)
    subst this
    rw [← (hcol s f' hf hne).2]
    simp only [fromSonOutput]
    exact diffTypeCase_eq_three _ _ _

/-- Witness of C12: branch 2 (the father) inherits `a` from branch 1 up to
commit 6; the son (branch 3) sees branch 1 up to commit 3 only.  The row of
branch 1 was created at commit 4, so no row of the son's lineage can see it,
and the returned row of `a` is a CONFLICT. -/
theorem inherited_row_conflict_iff_son_cannot_see_witness :
    ((3 : Int) = 3
      ↔ ¬ ∃ l ∈ exampleLineageValues [⟨2, 5⟩, ⟨1, 3⟩] 3, l.BranchID = (1 : Int)
          ∧ l.CommitID ≥ (4 : Int) ∧ (l.CommitID > (1000 : Int) ∨ false = false))
    ∧ sqDiffFromSonV exampleConsts 2 3 5 7 [⟨1, 6⟩] (exampleLineageValues [⟨2, 5⟩, ⟨1, 3⟩] 3)
        [exampleEntry 1 "a" "x" "x" 4 1000 0, exampleEntry 3 "a" "y" "y" 8 1000 1]
      = [{ diff_type := 3, path := "a", entry_ctid := none, source_branch := some 1 }] :=
  ⟨(inherited_row_conflict_iff_son_cannot_see exampleConsts 2 3 5 7 [⟨1, 6⟩]
      (exampleLineageValues [⟨2, 5⟩, ⟨1, 3⟩] 3)
      [exampleEntry 1 "a" "x" "x" 4 1000 0, exampleEntry 3 "a" "y" "y" 8 1000 1]).2
      { diff_type := 3, path := "a", entry_ctid := none, source_branch := some 1 } (by decide)
      { displayed_branch := 2, path := "a", source_branch := 1, min_commit := 4,
        physical_address := "x", size := 1, checksum := "x", is_committed := true,
        is_tombstone := false, entry_ctid := 0, is_expired := false, max_commit := 1000,
        is_deleted := false } (by decide) rfl (by decide),
   by decide⟩

end Catalog

/-! ## The auth service: authorization and pagination (C17 - C19) -/

namespace Auth

theorem authorizeActions_deny (env : Env) (stmt : Statement) (perm : Permission)
    (hd : stmt.Effect = env.StatementEffectDeny) (actions : List String) (allowed : Bool)
    (h : ∃ action ∈ actions, env.wildcardMatch action perm.Action = true) :
    authorizeActions env stmt perm actions allowed = none := by
  induction actions generalizing allowed with
  | nil => simp at h
  | cons a rest ih =>
    unfold authorizeActions
    by_cases hm : env.wildcardMatch a perm.Action = true
    · simp [hm, hd]
    · simp only [Bool.not_eq_true] at hm
      simp only [hm, Bool.not_false, if_true]
      apply ih
      obtain ⟨action, ha, hma⟩ := h
      rcases List.mem_cons.mp ha with rfl | ha'
      · rw [hm] at hma; cases hma
      · exact ⟨action, ha', hma⟩

theorem authorizeStatements_deny (env : Env) (user : String) (perm : Permission)
    (stmts : List Statement) (allowed : Bool)
    (h : ∃ stmt ∈ stmts, stmt.Effect = env.StatementEffectDeny
      ∧ env.ArnMatch (interpolateUser stmt.Resource user) perm.Resource = true
      ∧ ∃ action ∈ stmt.Action, env.wildcardMatch action perm.Action = true) :
    authorizeStatements env user perm stmts allowed = none := by
  induction stmts generalizing allowed with
  | nil => simp at h
  | cons st rest ih =>
    unfold authorizeStatements
    obtain ⟨stmt, hs, hd, harn, hact⟩ := h
    by_cases hm : env.ArnMatch (interpolateUser st.Resource user) perm.Resource = true
    · simp only [hm, Bool.not_true, Bool.false_eq_true, if_false]
      cases hres : authorizeActions env st perm st.Action allowed with
      | none => rfl
      | some allowed' =>
        simp only
        apply ih
        rcases List.mem_cons.mp hs with rfl | hs'
        · rw [authorizeActions_deny env stmt perm hd stmt.Action allowed hact] at hres
          cases hres
        · exact ⟨stmt, hs', hd, harn, hact⟩
    · simp only [Bool.not_eq_true] at hm
      simp only [hm, Bool.not_false, if_true]
      apply ih
      rcases List.mem_cons.mp hs with rfl | hs'
      · rw [hm] at harn; cases harn
      · exact ⟨stmt, hs', hd, harn, hact⟩

theorem authorizePolicies_deny (env : Env) (user : String) (perm : Permission)
    (policies : List Policy) (allowed : Bool)
    (h : ∃ policy ∈ policies, ∃ stmt ∈ policy.Statement, stmt.Effect = env.StatementEffectDeny
      ∧ env.ArnMatch (interpolateUser stmt.Resource user) perm.Resource = true
      ∧ ∃ action ∈ stmt.Action, env.wildcardMatch action perm.Action = true) :
    authorizePolicies env user perm policies allowed = none := by
  induction policies generalizing allowed with
  | nil => simp at h
  | cons p rest ih =>
    unfold authorizePolicies
    obtain ⟨policy, hp, hstmt⟩ := h
    cases hres : authorizeStatements env user perm p.Statement allowed with
    | none => rfl
    | some allowed' =>
      simp only
      apply ih
      rcases List.mem_cons.mp hp with rfl | hp'
      · rw [authorizeStatements_deny env user perm policy.Statement allowed hstmt] at hres
        cases hres
      · exact ⟨policy, hp', hstmt⟩

theorem authorizePermissions_deny (env : Env) (user : String) (policies : List Policy)
    (perms : List Permission) (allowed : Bool)
    (h : ∃ perm ∈ perms, ∃ policy ∈ policies, ∃ stmt ∈ policy.Statement,
      stmt.Effect = env.StatementEffectDeny
      ∧ env.ArnMatch (interpolateUser stmt.Resource user) perm.Resource = true
      ∧ ∃ action ∈ stmt.Action, env.wildcardMatch action perm.Action = true) :
    authorizePermissions env user policies perms allowed = none := by
  induction perms generalizing allowed with
  | nil => simp at h
  | cons p rest ih =>
    unfold authorizePermissions
    obtain ⟨perm, hp, hpol⟩ := h
    cases hres : authorizePolicies env user p policies allowed with
    | none => rfl
    | some allowed' =>
      simp only
      apply ih
      rcases List.mem_cons.mp hp with rfl | hp'
      · rw [authorizePolicies_deny env user perm policies allowed hpol] at hres
        cases hres
      · exact ⟨perm, hp', hpol⟩

/-- With `Amount = -1`, `ListEffectivePolicies` returns every effective
policy of the user, ordered by display name, with an empty next-page token. -/
theorem ListEffectivePolicies_all (db : Database) (user after : String) :
    DBAuthService.ListEffectivePolicies db user { After := after, Amount := -1 }
      = .returned ((resolvePolicies db user).insertionSort policyOrder,
          { Amount := ((resolvePolicies db user).insertionSort policyOrder).length,
            NextPageToken := "" }) := by
  simp [DBAuthService.ListEffectivePolicies, resolvePoliciesAll]

/-- C17: for every user, every effective policy list and every list of
required permissions, if some statement with effect Deny has a resource that
after `$\x7buser\x7d` interpolation matches a required permission's resource,
and one of its action patterns matches that permission's action, then
`Authorize` returns `Allowed = false` with `ErrInsufficientPermissions`,
whatever else the lists hold and in whatever order. -/
theorem Authorize_deny_takes_precedence (env : Env) (db : Database) (req : AuthorizationRequest)
    (h : ∃ perm ∈ req.RequiredPermissions,
      ∃ policy ∈ (resolvePolicies db req.UserDisplayName).insertionSort policyOrder,
      ∃ stmt ∈ policy.Statement, stmt.Effect = env.StatementEffectDeny
        ∧ env.ArnMatch (interpolateUser stmt.Resource req.UserDisplayName) perm.Resource = true
        ∧ ∃ action ∈ stmt.Action, env.wildcardMatch action perm.Action = true) :
    DBAuthService.Authorize env db req
      = .returned { Allowed := false, Error := some .ErrInsufficientPermissions } := by
  unfold DBAuthService.Authorize
  rw [ListEffectivePolicies_all]
  simp only
  rw [authorizePermissions_deny env req.UserDisplayName _ req.RequiredPermissions false h]

/-- Witness of C17: `bob` has `allow-all` attached directly and `deny-write`
through a group; a request needing read and write is refused. -/
theorem Authorize_deny_takes_precedence_witness :
    DBAuthService.Authorize exampleEnv exampleDb
        { UserDisplayName := "bob",
          RequiredPermissions := [⟨"fs:Read", "arn:x"⟩, ⟨"fs:Write", "arn:x"⟩] }
      = .returned { Allowed := false, Error := some .ErrInsufficientPermissions } :=
  Authorize_deny_takes_precedence exampleEnv exampleDb
    { UserDisplayName := "bob",
      RequiredPermissions := [⟨"fs:Read", "arn:x"⟩, ⟨"fs:Write", "arn:x"⟩] }
    ⟨⟨"fs:Write", "arn:x"⟩, by decide,
     { Id := 10, CreatedAt := 0, DisplayName := "deny-write",
       Statement := [{ Effect := "Deny", Action := ["fs:Write"], Resource := "*" }] },
     by decide,
     { Effect := "Deny", Action := ["fs:Write"], Resource := "*" }, by decide, rfl, by decide,
     "fs:Write", by decide, by decide⟩

instance userOrder_isTotal : IsTotal User userOrder :=
  ⟨fun a b => le_total a.DisplayName.toList b.DisplayName.toList⟩

instance userOrder_isTrans : IsTrans User userOrder :=
  ⟨fun _ _ _ h1 h2 => le_trans h1 h2⟩

/-- The rows before `LIMIT`: exactly the users after `after`, in ascending
display-name order. -/
theorem usersAfter_spec (db : Database) (after : String) :
    (usersAfter db after).Sorted userOrder
      ∧ ∀ u, u ∈ usersAfter db after ↔ u ∈ db.users ∧ after.toList < u.DisplayName.toList := by
  refine ⟨List.sorted_insertionSort userOrder _, fun u => ?_⟩
  unfold usersAfter
  rw [(List.perm_insertionSort userOrder _).mem_iff, List.mem_filter]
  simp [textGt]

theorem int64Wrap_of_range (x : Int) (h1 : -(2 ^ 63) ≤ x) (h2 : x < 2 ^ 63) :
    Go.int64Wrap x = x := by
  unfold Go.int64Wrap
  omega

/-- The "more pages" branch of `ListUsers`, step by step. -/
theorem ListUsers_more_pages (db : Database) (params : PaginationParams)
    (users page : List User) (last : User)
    (hsel : selectUsersPage db params.After (Go.int64Wrap (params.Amount + 1)) = .ok users)
    (hlen : (users.length : Int) = Go.int64Wrap (params.Amount + 1))
    (hs : Go.goSliceTo users params.Amount = some page)
    (hi : Go.goIndex page (Go.int64Wrap ((page.length : Int) - 1)) = some last) :
    DBAuthService.ListUsers db params
      = .returned (page, { Amount := params.Amount, NextPageToken := last.DisplayName }) := by
  unfold DBAuthService.ListUsers
  rw [hsel]
  dsimp only
  rw [if_pos hlen, hs]
  dsimp only
  rw [hi]

/-- The last-page branch of `ListUsers`. -/
theorem ListUsers_last_page (db : Database) (params : PaginationParams) (users : List User)
    (hsel : selectUsersPage db params.After (Go.int64Wrap (params.Amount + 1)) = .ok users)
    (hlen : ¬ (users.length : Int) = Go.int64Wrap (params.Amount + 1)) :
    DBAuthService.ListUsers db params
      = .returned (users, { Amount := users.length, NextPageToken := "" }) := by
  unfold DBAuthService.ListUsers
  rw [hsel]
  dsimp only
  rw [if_neg hlen]

/-- What `ListUsers` does for a page size between 1 and the largest `int`
minus one: it returns the first `n` users after `After` in display-name
order (all of them if there are fewer), `Paginator.Amount` is the number
returned, and the token is the display name of the last returned user when
more users follow and empty otherwise. -/
theorem ListUsers_page (db : Database) (after : String) (n : Int) (h1 : 1 ≤ n)
    (h2 : n + 1 < 2 ^ 63) :
    ∃ pg, DBAuthService.ListUsers db { After := after, Amount := n }
        = .returned ((usersAfter db after).take n.toNat, pg)
      ∧ pg.Amount = ((usersAfter db after).take n.toNat).length
      ∧ ((usersAfter db after).length ≤ n.toNat → pg.NextPageToken = "")
      ∧ (n.toNat < (usersAfter db after).length →
          ((usersAfter db after).take n.toNat).getLast?.map (fun u => u.DisplayName)
            = some pg.NextPageToken) := by
  obtain ⟨m, rfl⟩ := Int.eq_ofNat_of_zero_le (by omega : 0 ≤ n)
  have hm : 1 ≤ m := by omega
  have hw : Go.int64Wrap ((m : Int) + 1) = ((m + 1 : Nat) : Int) := by
    rw [int64Wrap_of_range _ (by omega) h2]; push_cast; rfl
  have hsel : selectUsersPage db after ((m + 1 : Nat) : Int)
      = .ok ((usersAfter db after).take (m + 1)) := by
    unfold selectUsersPage sqlLimit usersAfter
    simp
    omega
  by_cases hk : m + 1 ≤ (usersAfter db after).length
  · -- more pages
    have hlen : ((usersAfter db after).take (m + 1)).length = m + 1 := by
      rw [List.length_take]; omega
    have hslice : Go.goSliceTo ((usersAfter db after).take (m + 1)) (m : Int)
        = some ((usersAfter db after).take m) := by
      unfold Go.goSliceTo
      rw [hlen, if_pos ⟨by omega, by omega⟩, Int.toNat_ofNat, List.take_take,
        Nat.min_eq_left (Nat.le_succ m)]
    have hlen' : ((usersAfter db after).take m).length = m := by
      rw [List.length_take]; omega
    have hw' : Go.int64Wrap ((((usersAfter db after).take m).length : Int) - 1)
        = ((m - 1 : Nat) : Int) := by
      rw [hlen', int64Wrap_of_range _ (by omega) (by omega)]; omega
    obtain ⟨last, hlast⟩ : ∃ last, ((usersAfter db after).take m)[m - 1]? = some last := by
      have : m - 1 < ((usersAfter db after).take m).length := by omega
      exact ⟨_, List.getElem?_eq_getElem this⟩
    have hidx : Go.goIndex ((usersAfter db after).take m) ((m - 1 : Nat) : Int) = some last := by
      unfold Go.goIndex
      simp [List.get?_eq_getElem?, hlast]
    have hw'idx : Go.goIndex ((usersAfter db after).take m)
        (Go.int64Wrap ((((usersAfter db after).take m).length : Int) - 1)) = some last :=
      hw'.symm ▸ hidx
    refine ⟨{ Amount := m, NextPageToken := last.DisplayName }, ?_, ?_, ?_, ?_⟩
    · rw [Int.toNat_ofNat]
      exact ListUsers_more_pages db { After := after, Amount := (m : Int) } _ _ last
        (hw.symm ▸ hsel) (hw.symm ▸ congrArg Nat.cast hlen) hslice hw'idx
    · simp [hlen']
    · intro hle
      simp only [Int.toNat_ofNat] at hle
      omega
    · intro _
      simp only [Int.toNat_ofNat]
      rw [List.getLast?_eq_getElem?, hlen', hlast]
      rfl
  · -- the last page
    push_neg at hk
    have htake : (usersAfter db after).take (m + 1) = usersAfter db after :=
      List.take_of_length_le (by omega)
    have htake' : (usersAfter db after).take m = usersAfter db after :=
      List.take_of_length_le (by omega)
    refine ⟨{ Amount := (usersAfter db after).length, NextPageToken := "" }, ?_, ?_, ?_, ?_⟩
    · have hne : ¬ (((usersAfter db after).length : Int) = ((m + 1 : Nat) : Int)) := by
        omega
      rw [Int.toNat_ofNat, htake']
      have h := ListUsers_last_page db { After := after, Amount := (m : Int) } _
        (hw.symm ▸ hsel) (hw.symm ▸ (htake.symm ▸ hne))
      rw [htake] at h
      exact h
    · simp [htake']
    · intro _; rfl
    · intro hlt
      simp only [Int.toNat_ofNat] at hlt
      omega

/-- C18 (the code at the failing input): with `Amount = 0` and a user after
`After`, the query returns one row, the "more pages" branch cuts the slice to
`users[0:0]` and then reads `users[len(users)-1]`, an index of `-1`: the call
panics instead of returning an empty page. -/
theorem ListUsers_amount_zero_panics :
    (usersAfter exampleDb "").map (fun u => u.DisplayName) = ["alice", "bob"]
    ∧ DBAuthService.ListUsers exampleDb { After := "", Amount := 0 }
        = .panicked "index out of range" := by
  decide

/-- C19 (the code at the failing input): with `Amount = -1` the queries of
`ListUsers` and `ListPolicies` run with `LIMIT 0` and return no row; the
length 0 equals `Amount + 1`, so the "more pages" branch slices
`users[0:-1]` and the call panics.  `ListEffectivePolicies`, which tests
`Amount != -1`, returns the full set with an empty token. -/
theorem unbounded_amount_panics_outside_effective_policies :
    DBAuthService.ListUsers exampleDb { After := "", Amount := -1 }
        = .panicked "slice bounds out of range"
    ∧ DBAuthService.ListPolicies exampleDb { After := "", Amount := -1 }
        = .panicked "slice bounds out of range"
    ∧ DBAuthService.ListEffectivePolicies exampleDb "bob" { After := "", Amount := -1 }
        = .returned
            ([{ Id := 11, CreatedAt := 0, DisplayName := "allow-all",
                Statement := [{ Effect := "Allow", Action := ["*"], Resource := "*" }] },
              { Id := 10, CreatedAt := 0, DisplayName := "deny-write",
                Statement := [{ Effect := "Deny", Action := ["fs:Write"], Resource := "*" }] }],
             { Amount := 2, NextPageToken := "" }) := by
  decide

end Auth

/-! ## The gateway: range reads (C20) -/

namespace Gateway

theorem String.length_pos_of_ne_empty {s : String} (h : s ≠ "") : s.length > 0 := by
  rcases s with ⟨l⟩
  cases l with
  | nil => exact absurd rfl h
  | cons c cs => simp [String.length]

/-- C20: for an object of size `N` (a Go `int64`) and a non-empty `Range`
header that `ParseHTTPRange` parses without error to `X..Y` with
`0 <= X <= Y < N`, when the entry is found and the block store delivers the
range, the handler asks the block store for exactly `GetRange(pointer, X, Y)`
(both ends inclusive), sets `Content-Length` to `Y - X + 1` and
`Content-Range` to `bytes X-Y/N`, and writes the delivered bytes. -/
theorem GetObject_range_headers (env : Env) (req : Request) (entry : Entry) (X Y : Int)
    (data : List Nat)
    (hq1 : req.queryKeys.contains "versioning" = false)
    (hq2 : req.queryKeys.contains "tagging" = false)
    (hent : env.GetEntry req.repositoryName req.reference req.path = .ok entry)
    (hspec : req.rangeHeader ≠ "")
    (hparse : env.ParseHTTPRange req.rangeHeader entry.Size
      = ({ StartOffset := X, EndOffset := Y }, none))
    (hX : 0 ≤ X) (hXY : X ≤ Y) (hY : Y < entry.Size) (hN : entry.Size < 2 ^ 63)
    (hget : env.GetRange req.storageNamespace entry.PhysicalAddress X Y = .ok data) :
    (GetObject.Handle env req).blockCalls
        = [.GetRange req.storageNamespace entry.PhysicalAddress X Y]
    ∧ (GetObject.Handle env req).header "Content-Length" = some (sprintfD (Y - X + 1))
    ∧ (GetObject.Handle env req).header "Content-Range"
        = some ("bytes " ++ sprintfD X ++ "-" ++ sprintfD Y ++ "/" ++ sprintfD entry.Size)
    ∧ (GetObject.Handle env req).body = .data data := by
  have hlen : req.rangeHeader.length > 0 := String.length_pos_of_ne_empty hspec
  have hw : Go.int64Wrap (Y - X + 1) = Y - X + 1 := by
    unfold Go.int64Wrap
    omega
  have hX1 : X ≠ -1 := by omega
  unfold GetObject.Handle
  simp only [hq1, hq2, hent, hlen, hparse, hspec, hget, hw, hX1, if_true, if_false,
    Bool.false_eq_true, false_or, ne_eq, not_true_eq_false, not_false_eq_true]
  refine ⟨?_, ?_, ?_, ?_⟩
  · simp [SetHeader]
  · simp [Response.header, SetHeader, List.lookup, List.filter]
  · simp [Response.header, SetHeader, List.lookup, List.filter]
  · trivial

set_option maxRecDepth 100000 in
/-- Witness of C20: `Range: bytes=0-9` on the 1000-byte example object gives
`Content-Length: 10` and `Content-Range: bytes 0-9/1000`. -/
theorem GetObject_range_headers_witness :
    (GetObject.Handle exampleEnv (exampleRequest "bytes=0-9")).blockCalls
        = [.GetRange "ns" "addr" 0 9]
    ∧ (GetObject.Handle exampleEnv (exampleRequest "bytes=0-9")).header "Content-Length"
        = some "10"
    ∧ (GetObject.Handle exampleEnv (exampleRequest "bytes=0-9")).header "Content-Range"
        = some "bytes 0-9/1000"
    ∧ (GetObject.Handle exampleEnv (exampleRequest "bytes=0-9")).body
        = .data [0, 1, 2, 3, 4, 5, 6, 7, 8, 9] :=
  GetObject_range_headers exampleEnv (exampleRequest "bytes=0-9")
    { CreationDate := 0, Checksum := "sum", Size := 1000, PhysicalAddress := "addr" } 0 9
    [0, 1, 2, 3, 4, 5, 6, 7, 8, 9] rfl rfl rfl (by decide) rfl (by decide) (by decide)
    (by decide) (by decide) rfl

end Gateway

/-! ## The gateway: status of a range read and invalid ranges (C21, C22) -/

namespace Gateway

/-- On every path on which `Handle` writes the object's bytes, it has never
set a status: the response goes out with Go's default `200 OK`. -/
theorem Handle_data_status (env : Env) (req : Request) (data : List Nat)
    (h : (GetObject.Handle env req).body = .data data) :
    (GetObject.Handle env req).status = none ∧ (GetObject.Handle env req).sentStatus = 200 := by
  have key : (GetObject.Handle env req).status = none := by
    revert h
    unfold GetObject.Handle
    dsimp only
    split
    · intro h; simp [EncodeResponse] at h
    split
    · intro h; simp [EncodeResponse] at h
    split
    · intro h; simp [EncodeError] at h
    · intro h; simp [EncodeError] at h
    · split
      · intro h; simp [EncodeError] at h
      · split
        · intro h; simp [EncodeError] at h
        · intro _
          dsimp only
          split_ifs <;> rfl
  exact ⟨key, by simp [Response.sentStatus, key]⟩

set_option maxRecDepth 100000 in
/-- C21 (the code at the failing input): `Range: bytes=0-9` on the
1000-byte example object is served as a range (`Content-Range: bytes
0-9/1000`, ten bytes), but the handler never sets a status, so the
response carries `200`, not `206`; the same request without a `Range`
header also carries `200`. -/
theorem range_read_is_sent_with_status_200 :
    (GetObject.Handle exampleEnv (exampleRequest "bytes=0-9")).header "Content-Range"
        = some "bytes 0-9/1000"
    ∧ (GetObject.Handle exampleEnv (exampleRequest "bytes=0-9")).body
        = .data [0, 1, 2, 3, 4, 5, 6, 7, 8, 9]
    ∧ (GetObject.Handle exampleEnv (exampleRequest "bytes=0-9")).status = none
    ∧ (GetObject.Handle exampleEnv (exampleRequest "bytes=0-9")).sentStatus = 200
    ∧ (GetObject.Handle exampleEnv (exampleRequest "")).sentStatus = 200 := by
  refine ⟨by decide, by decide, by decide, by decide, by decide⟩

/-- What `Handle` does with a `Range` header that `ParseHTTPRange` rejects:
the whole object is read with `Get` and `Content-Length` is the object size,
as without a `Range` header; `Content-Range` however is set from the range
returned alongside the error unless its start is `-1`. -/
theorem Handle_invalid_range (env : Env) (req : Request) (entry : Entry) (rng : HttpRange)
    (e : String) (data : List Nat)
    (hq1 : req.queryKeys.contains "versioning" = false)
    (hq2 : req.queryKeys.contains "tagging" = false)
    (hent : env.GetEntry req.repositoryName req.reference req.path = .ok entry)
    (hspec : req.rangeHeader ≠ "")
    (hparse : env.ParseHTTPRange req.rangeHeader entry.Size = (rng, some e))
    (hget : env.Get req.storageNamespace entry.PhysicalAddress = .ok data) :
    (GetObject.Handle env req).blockCalls = [.Get req.storageNamespace entry.PhysicalAddress]
    ∧ (GetObject.Handle env req).header "Content-Length" = some (sprintfD entry.Size)
    ∧ (GetObject.Handle env req).body = .data data
    ∧ (GetObject.Handle env req).header "Content-Range"
        = (if rng.StartOffset ≠ -1 then
            some ("bytes " ++ sprintfD rng.StartOffset ++ "-" ++ sprintfD rng.EndOffset ++ "/"
              ++ sprintfD entry.Size)
          else none) := by
  have hlen : req.rangeHeader.length > 0 := String.length_pos_of_ne_empty hspec
  unfold GetObject.Handle
  simp only [hq1, hq2, hent, hlen, hparse, hspec, hget, if_true, if_false,
    Bool.false_eq_true, false_or, ne_eq, not_true_eq_false, not_false_eq_true,
    reduceCtorEq]
  refine ⟨?_, ?_, ?_, ?_⟩
  · split_ifs <;> simp [SetHeader]
  · split_ifs <;> simp [Response.header, SetHeader, List.lookup, List.filter]
  · trivial
  · split_ifs <;> simp [Response.header, SetHeader, List.lookup, List.filter]

/-- C22 (the code at the failing input): the example `ParseHTTPRange`
rejects `bytes=x` and returns the range `5..2` with the error.  The handler
reads the whole object with `Get` and sets `Content-Length: 1000`, as for
the request without a `Range` header, but it also sets `Content-Range:
bytes 5-2/1000`, which the request without a `Range` header does not
carry. -/
theorem invalid_range_still_sets_content_range :
    exampleEnv.ParseHTTPRange "bytes=x" 1000
        = ({ StartOffset := 5, EndOffset := 2 }, some "invalid range")
    ∧ (GetObject.Handle exampleEnv (exampleRequest "bytes=x")).blockCalls
        = [.Get "ns" "addr"]
    ∧ (GetObject.Handle exampleEnv (exampleRequest "")).blockCalls = [.Get "ns" "addr"]
    ∧ (GetObject.Handle exampleEnv (exampleRequest "bytes=x")).header "Content-Length"
        = some "1000"
    ∧ (GetObject.Handle exampleEnv (exampleRequest "bytes=x")).header "Content-Range"
        = some "bytes 5-2/1000"
    ∧ (GetObject.Handle exampleEnv (exampleRequest "")).header "Content-Range" = none := by
  refine ⟨by decide, by decide, by decide, by decide, by decide, by decide⟩

end Gateway

/-! ## Identities of the model (C25, C27, C28, C29) -/

namespace Model

theorem foldl_append_flatten (l : List Bytes) (acc : Bytes) :
    l.foldl (fun buf str => buf ++ str) acc = acc ++ l.flatten := by
  induction l generalizing acc with
  | nil => simp
  | cons x rest ih => simp [ih, List.append_assoc]

/-- The buffer built by `identFromStrings` is the concatenation of its
arguments in order. -/
theorem identFromStrings_eq (l : List Bytes) : identFromStrings l = l.flatten := by
  unfold identFromStrings
  rw [foldl_append_flatten]
  rfl

theorem foldl_key_value (f : Bytes → Bytes) (keys : List Bytes) (acc : Bytes) :
    keys.foldl (fun buf k => (buf ++ k) ++ f k) acc
      = acc ++ (keys.map (fun k => k ++ f k)).flatten := by
  induction keys generalizing acc with
  | nil => simp
  | cons x rest ih =>
    rw [List.foldl_cons, ih, List.map_cons, List.flatten_cons]
    simp only [List.append_assoc]

/-- The rendering of a map: key followed by value, over the sorted keys. -/
theorem identMapToString_eq (data : List (Bytes × Bytes)) :
    identMapToString data
      = ((sortStrings (data.map (fun kv => kv.1))).map
          (fun k => k ++ mapIndex data k)).flatten := by
  unfold identMapToString
  dsimp only
  rw [foldl_key_value]
  rfl

theorem sortStrings_sorted (keys : List Bytes) :
    (sortStrings keys).Sorted (fun a b => a ≤ b) :=
  List.sorted_insertionSort (fun a b : Bytes => a ≤ b) keys

theorem sortStrings_perm (keys : List Bytes) : (sortStrings keys).Perm keys :=
  List.perm_insertionSort (fun a b : Bytes => a ≤ b) keys

theorem sortStrings_eq_of_perm {k1 k2 : List Bytes} (h : k1.Perm k2) :
    sortStrings k1 = sortStrings k2 :=
  List.eq_of_perm_of_sorted
    (((sortStrings_perm k1).trans h).trans (sortStrings_perm k2).symm)
    (sortStrings_sorted k1) (sortStrings_sorted k2)

theorem lookup_of_mem {data : List (Bytes × Bytes)} {k v : Bytes}
    (hn : (data.map (fun kv => kv.1)).Nodup) (h : (k, v) ∈ data) :
    data.lookup k = some v := by
  induction data with
  | nil => cases h
  | cons kv rest ih =>
    obtain ⟨k0, v0⟩ := kv
    rw [List.map_cons, List.nodup_cons] at hn
    rcases List.mem_cons.mp h with heq | hin
    · cases heq
      simp [List.lookup]
    · have hne : k ≠ k0 := by
        rintro rfl
        exact hn.1 (List.mem_map.mpr ⟨(k, v), hin, rfl⟩)
      have hb : (k == k0) = false := by simpa using hne
      simp only [List.lookup, hb]
      exact ih hn.2 hin

theorem lookup_of_not_mem {data : List (Bytes × Bytes)} {k : Bytes}
    (h : k ∉ data.map (fun kv => kv.1)) : data.lookup k = none := by
  induction data with
  | nil => rfl
  | cons kv rest ih =>
    obtain ⟨k0, v0⟩ := kv
    rw [List.map_cons, List.mem_cons, not_or] at h
    have hb : (k == k0) = false := by simpa using h.1
    simp only [List.lookup, hb]
    exact ih h.2

/-- The value found for a key does not depend on the order of the pairs of
a map (its keys are distinct). -/
theorem mapIndex_eq_of_perm {d1 d2 : List (Bytes × Bytes)}
    (hn : (d1.map (fun kv => kv.1)).Nodup) (h : d1.Perm d2) (k : Bytes) :
    mapIndex d1 k = mapIndex d2 k := by
  have hn2 : (d2.map (fun kv => kv.1)).Nodup := (h.map _).nodup_iff.mp hn
  unfold mapIndex
  by_cases hk : k ∈ d1.map (fun kv => kv.1)
  · obtain ⟨⟨k0, v⟩, hin, hk0⟩ := List.mem_map.mp hk
    cases hk0
    rw [lookup_of_mem hn hin, lookup_of_mem hn2 (h.mem_iff.mp hin)]
  · have hk2 : k ∉ d2.map (fun kv => kv.1) := fun hin => hk ((h.map _).mem_iff.mpr hin)
    rw [lookup_of_not_mem hk, lookup_of_not_mem hk2]

/-- C29: for a map given by its key/value pairs `d1` (distinct keys, in any
iteration order), `identMapToString` returns key followed by value over the
keys in strictly ascending order; the keys rendered are exactly the keys of
the map, each with its own value; and the same pairs delivered in another
order `d2` render to the same bytes. -/
theorem identMapToString_order_independent (d1 d2 : List (Bytes × Bytes))
    (hn : (d1.map (fun kv => kv.1)).Nodup) (h : d1.Perm d2) :
    identMapToString d1
        = ((sortStrings (d1.map (fun kv => kv.1))).map
            (fun k => k ++ mapIndex d1 k)).flatten
    ∧ (sortStrings (d1.map (fun kv => kv.1))).Sorted (fun a b => a < b)
    ∧ (∀ k, k ∈ sortStrings (d1.map (fun kv => kv.1)) ↔ ∃ v, (k, v) ∈ d1)
    ∧ (∀ k v, (k, v) ∈ d1 → mapIndex d1 k = v)
    ∧ identMapToString d1 = identMapToString d2 := by
  refine ⟨identMapToString_eq d1, ?_, ?_, ?_, ?_⟩
  · exact (sortStrings_sorted _).lt_of_le ((sortStrings_perm _).nodup_iff.mpr hn)
  · intro k
    rw [(sortStrings_perm _).mem_iff, List.mem_map]
    constructor
    · rintro ⟨⟨k0, v⟩, hin, rfl⟩
      exact ⟨v, hin⟩
    · rintro ⟨v, hin⟩
      exact ⟨(k, v), hin, rfl⟩
  · intro k v hin
    unfold mapIndex
    rw [lookup_of_mem hn hin]
    rfl
  · rw [identMapToString_eq, identMapToString_eq, sortStrings_eq_of_perm (h.map _)]
    congr 1
    exact List.map_congr_left (fun k _ => by rw [mapIndex_eq_of_perm hn h k])

/-- Witness of C29: the map with the pairs b:2 and a:1, delivered in either
order, renders to `a1b2`. -/
theorem identMapToString_order_independent_witness :
    identMapToString [(ascii "b", ascii "2"), (ascii "a", ascii "1")] = ascii "a1b2"
    ∧ identMapToString [(ascii "b", ascii "2"), (ascii "a", ascii "1")]
        = identMapToString [(ascii "a", ascii "1"), (ascii "b", ascii "2")] :=
  ⟨by decide,
   (identMapToString_order_independent
      [(ascii "b", ascii "2"), (ascii "a", ascii "1")]
      [(ascii "a", ascii "1"), (ascii "b", ascii "2")] (by decide)
      (List.Perm.swap _ _ _)).2.2.2.2⟩

/-- The closed form of `Commit.Identity`. -/
theorem Commit_Identity_eq (c : Commit) :
    c.Identity
      = c.Tree ++ c.Committer ++ c.Message ++ FormatInt c.Timestamp
          ++ identMapToString c.Metadata ++ c.Parents.flatten := by
  unfold Commit.Identity
  rw [identFromStrings_eq, identFromStrings_eq]
  simp [List.append_assoc]

/-- C25: `Commit.Identity` is the concatenation, in this order, of tree,
committer, message, the decimal timestamp, the metadata rendered as key
followed by value over the keys in strictly ascending order, and the parent
ids in list order; two commits that agree on these six fields (the metadata
being the same map: the same pairs, with distinct keys, in any order) have
the same identity, whatever their `RepositoryId` and `Address`. -/
theorem Commit_Identity_six_fields (c1 c2 : Commit)
    (hT : c1.Tree = c2.Tree) (hP : c1.Parents = c2.Parents) (hM : c1.Message = c2.Message)
    (hC : c1.Committer = c2.Committer) (hTs : c1.Timestamp = c2.Timestamp)
    (hn : (c1.Metadata.map (fun kv => kv.1)).Nodup) (hMd : c1.Metadata.Perm c2.Metadata) :
    c1.Identity
        = c1.Tree ++ c1.Committer ++ c1.Message ++ FormatInt c1.Timestamp
            ++ ((sortStrings (c1.Metadata.map (fun kv => kv.1))).map
                (fun k => k ++ mapIndex c1.Metadata k)).flatten
            ++ c1.Parents.flatten
    ∧ (sortStrings (c1.Metadata.map (fun kv => kv.1))).Sorted (fun a b => a < b)
    ∧ c1.Identity = c2.Identity := by
  have h29 := identMapToString_eq c1.Metadata
  refine ⟨?_, ?_, ?_⟩
  · rw [Commit_Identity_eq, h29]
  · exact (sortStrings_sorted _).lt_of_le ((sortStrings_perm _).nodup_iff.mpr hn)
  · rw [Commit_Identity_eq, Commit_Identity_eq, hT, hP, hM, hC, hTs]
    have hmd : identMapToString c1.Metadata = identMapToString c2.Metadata := by
      rw [identMapToString_eq, identMapToString_eq, sortStrings_eq_of_perm (hMd.map _)]
      congr 1
      exact List.map_congr_left (fun k _ => by rw [mapIndex_eq_of_perm hn hMd k])
    rw [hmd]

/-- Witness of C25: two commits with the same six fields (the metadata pairs
in different order) and different `RepositoryId` and `Address` have the
identity `tcm7a1b2pq`. -/
theorem Commit_Identity_six_fields_witness :
    (exampleCommit (ascii "r1") (ascii "x")
        [(ascii "b", ascii "2"), (ascii "a", ascii "1")]).Identity = ascii "tcm7a1b2pq"
    ∧ (exampleCommit (ascii "r1") (ascii "x")
        [(ascii "b", ascii "2"), (ascii "a", ascii "1")]).Identity
      = (exampleCommit (ascii "r2") (ascii "y")
        [(ascii "a", ascii "1"), (ascii "b", ascii "2")]).Identity :=
  ⟨by decide,
   (Commit_Identity_six_fields
      (exampleCommit (ascii "r1") (ascii "x") [(ascii "b", ascii "2"), (ascii "a", ascii "1")])
      (exampleCommit (ascii "r2") (ascii "y") [(ascii "a", ascii "1"), (ascii "b", ascii "2")])
      rfl rfl rfl rfl rfl (by decide) (List.Perm.swap _ _ _)).2.2⟩

/-- The first loop of `Node.Identity` on a node without entries leaves the
slice as it is, and the first assignment of the second loop is at index
`-1`: a node without entries and with a pointer makes `Identity` panic. -/
theorem Node_Identity_without_entries (pointer : Bytes) (pointers : List Bytes) :
    Node.Identity { Entries := [], Pointers := pointer :: pointers } = none := by
  simp [Node.Identity, assignEach, goAssign]

/-- C28 (the code at the failing inputs): on a node without entries and
with one pointer the second loop assigns `hashes[0 + 0 - 1]`, index `-1`,
and `Identity` panics; on a node with one entry and one pointer the pointer
is written over the entry's address, which is missing from the identity; on
a node with two entries and two pointers the second entry's address is
missing. -/
theorem Node_Identity_off_by_one :
    Node.Identity { Entries := [], Pointers := [ascii "p"] } = none
    ∧ Node.Identity { Entries := [⟨ascii "n", ascii "e"⟩], Pointers := [ascii "p"] }
        = some (ascii "p")
    ∧ Node.Identity
        { Entries := [⟨ascii "n1", ascii "e1"⟩, ⟨ascii "n2", ascii "e2"⟩],
          Pointers := [ascii "p", ascii "q"] }
        = some (ascii "e1pq") := by
  decide

theorem digitChar_value (d : Nat) (h : d < 10) :
    (Nat.digitChar d).toNat - 48 = d ∧ Nat.digitChar d ≠ '-' := by
  interval_cases d <;> decide

theorem toDigitsCore_append (fuel n : Nat) (ds : List Char) :
    Nat.toDigitsCore 10 fuel n ds = Nat.toDigitsCore 10 fuel n [] ++ ds := by
  induction fuel generalizing n ds with
  | zero => simp [Nat.toDigitsCore]
  | succ fuel ih =>
    simp only [Nat.toDigitsCore]
    split
    · simp
    · rw [ih (n / 10) (Nat.digitChar (n % 10) :: ds), ih (n / 10) [Nat.digitChar (n % 10)]]
      simp

theorem toDigitsCore_value (fuel n : Nat) (h : n < fuel) :
    (Nat.toDigitsCore 10 fuel n []).foldl (fun a c => a * 10 + (c.toNat - 48)) 0 = n := by
  induction fuel generalizing n with
  | zero => omega
  | succ fuel ih =>
    simp only [Nat.toDigitsCore]
    have hd := (digitChar_value (n % 10) (Nat.mod_lt _ (by decide))).1
    split
    · rename_i h0
      simp only [List.foldl_cons, List.foldl_nil, hd]
      omega
    · rename_i h0
      rw [toDigitsCore_append, List.foldl_append, ih (n / 10) (by omega)]
      simp only [List.foldl_cons, List.foldl_nil, hd]
      omega

theorem toDigitsCore_no_minus (fuel n : Nat) :
    '-' ∉ Nat.toDigitsCore 10 fuel n [] := by
  induction fuel generalizing n with
  | zero => simp [Nat.toDigitsCore]
  | succ fuel ih =>
    simp only [Nat.toDigitsCore]
    have hd := (digitChar_value (n % 10) (Nat.mod_lt _ (by decide))).2
    split
    · simpa using hd.symm
    · rw [toDigitsCore_append]
      simp only [List.mem_append, List.mem_singleton, not_or]
      exact ⟨ih _, hd.symm⟩

theorem Nat_repr_injective {a b : Nat} (h : Nat.repr a = Nat.repr b) : a = b := by
  have h2 : Nat.toDigits 10 a = Nat.toDigits 10 b := by
    have := congrArg String.data h
    simpa [Nat.repr, List.asString] using this
  have ha := toDigitsCore_value (a + 1) a (by omega)
  have hb := toDigitsCore_value (b + 1) b (by omega)
  unfold Nat.toDigits at h2
  rw [h2] at ha
  omega

/-- The decimal rendering of `strconv.FormatInt` determines the number. -/
theorem FormatInt_injective {a b : Int} (h : FormatInt a = FormatInt b) : a = b := by
  have hc : ∀ x y : Char, x.toNat = y.toNat → x = y := fun x y hxy => by
    rw [← Char.ofNat_toNat x, ← Char.ofNat_toNat y, hxy]
  have h1 : (toString a).toList = (toString b).toList :=
    List.map_injective_iff.mpr hc h
  have h2 : toString a = toString b := String.toList_inj.mp h1
  have hminus : ∀ (m n : Nat), Nat.repr m ≠ "-" ++ Nat.repr n := by
    intro m n hmn
    have := congrArg String.data hmn
    have hin : '-' ∈ Nat.toDigits 10 m := by
      simp only [Nat.repr, List.asString] at this
      rw [this]
      simp
    exact toDigitsCore_no_minus _ _ hin
  cases a with
  | ofNat m =>
    cases b with
    | ofNat n =>
      have : Nat.repr m = Nat.repr n := h2
      rw [Nat_repr_injective this]
    | negSucc n =>
      exact absurd h2 (hminus m (n + 1))
  | negSucc m =>
    cases b with
    | ofNat n =>
      exact absurd h2.symm (hminus n (m + 1))
    | negSucc n =>
      have h3 : "-" ++ Nat.repr (m + 1) = "-" ++ Nat.repr (n + 1) := h2
      have h4 : Nat.repr (m + 1) = Nat.repr (n + 1) := by
        have := congrArg String.data h3
        simp only [String.data_append, List.append_cancel_left_eq] at this
        exact String.ext this
      have h5 : m = n := by
        have := Nat_repr_injective h4
        omega
      rw [h5]

/-- C27 (counterexample): the strings are appended without a separator, so
the tree `a` with the committer `b` and the tree `ab` with an empty
committer give the same identity; likewise the parents `ab` and `a`, `b`,
and the metadata pair `k`:`v` and the message `kv`. -/
theorem Commit_Identity_not_injective :
    Commit.Identity
        { RepositoryId := [], Address := [], Tree := ascii "a", Parents := [],
          Committer := ascii "b", Message := [], Timestamp := 0, Metadata := [] }
      = Commit.Identity
        { RepositoryId := [], Address := [], Tree := ascii "ab", Parents := [],
          Committer := [], Message := [], Timestamp := 0, Metadata := [] }
    ∧ ascii "a" ≠ ascii "ab"
    ∧ Commit.Identity
        { RepositoryId := [], Address := [], Tree := [], Parents := [ascii "ab"],
          Committer := [], Message := [], Timestamp := 0, Metadata := [] }
      = Commit.Identity
        { RepositoryId := [], Address := [], Tree := [], Parents := [ascii "a", ascii "b"],
          Committer := [], Message := [], Timestamp := 0, Metadata := [] } := by
  decide

/-- C27 (amended): when two commits have the same identity and their trees,
committers, messages, decimal timestamps and rendered metadata have
pairwise the same length, they have the same tree, committer, message and
timestamp, the same rendered metadata and the same concatenation of parent
ids. -/
theorem Commit_Identity_injective_on_lengths (c1 c2 : Commit)
    (h : c1.Identity = c2.Identity)
    (hT : c1.Tree.length = c2.Tree.length)
    (hC : c1.Committer.length = c2.Committer.length)
    (hM : c1.Message.length = c2.Message.length)
    (hTs : (FormatInt c1.Timestamp).length = (FormatInt c2.Timestamp).length)
    (hMd : (identMapToString c1.Metadata).length = (identMapToString c2.Metadata).length) :
    c1.Tree = c2.Tree ∧ c1.Committer = c2.Committer ∧ c1.Message = c2.Message
    ∧ c1.Timestamp = c2.Timestamp
    ∧ identMapToString c1.Metadata = identMapToString c2.Metadata
    ∧ c1.Parents.flatten = c2.Parents.flatten := by
  rw [Commit_Identity_eq, Commit_Identity_eq] at h
  simp only [List.append_assoc] at h
  obtain ⟨h1, h⟩ := List.append_inj h hT
  obtain ⟨h2, h⟩ := List.append_inj h hC
  obtain ⟨h3, h⟩ := List.append_inj h hM
  obtain ⟨h4, h⟩ := List.append_inj h hTs
  obtain ⟨h5, h6⟩ := List.append_inj h hMd
  exact ⟨h1, h2, h3, FormatInt_injective h4, h5, h6⟩

/-- Witness of C27 (amended): two commits with the identity `tcm7a1pq`,
fields of the same lengths and different `RepositoryId` and `Address`. -/
theorem Commit_Identity_injective_on_lengths_witness :
    (exampleCommit (ascii "r1") (ascii "x") [(ascii "a", ascii "1")]).Identity
        = ascii "tcm7a1pq"
    ∧ (exampleCommit (ascii "r1") (ascii "x") [(ascii "a", ascii "1")]).Timestamp
        = (exampleCommit (ascii "r2") (ascii "y") [(ascii "a", ascii "1")]).Timestamp :=
  ⟨by decide,
   (Commit_Identity_injective_on_lengths
      (exampleCommit (ascii "r1") (ascii "x") [(ascii "a", ascii "1")])
      (exampleCommit (ascii "r2") (ascii "y") [(ascii "a", ascii "1")])
      (by decide) rfl rfl rfl rfl rfl).2.2.2.1⟩

end Model

/-! ## The auth service: what a granted request guarantees (C26) -/

namespace Auth

theorem authorizeActions_allowed (env : Env) (stmt : Statement) (perm : Permission)
    (actions : List String) (allowed : Bool)
    (h : authorizeActions env stmt perm actions allowed = some true) :
    allowed = true ∨ ∃ action ∈ actions, env.wildcardMatch action perm.Action = true
      ∧ stmt.Effect ≠ env.StatementEffectDeny := by
  induction actions generalizing allowed with
  | nil =>
    simp only [authorizeActions, Option.some.injEq] at h
    exact Or.inl h
  | cons action rest ih =>
    simp only [authorizeActions] at h
    by_cases hm : env.wildcardMatch action perm.Action = true
    · by_cases hd : stmt.Effect = env.StatementEffectDeny
      · simp [hm, hd] at h
      · exact Or.inr ⟨action, List.mem_cons_self _ _, hm, hd⟩
    · simp only [hm, Bool.not_false, if_true, Bool.false_eq_true, not_false_eq_true] at h
      rcases ih allowed (by simpa [hm] using h) with h1 | ⟨a, ha, h2⟩
      · exact Or.inl h1
      · exact Or.inr ⟨a, List.mem_cons_of_mem _ ha, h2⟩

theorem authorizeStatements_allowed (env : Env) (user : String) (perm : Permission)
    (stmts : List Statement) (allowed : Bool)
    (h : authorizeStatements env user perm stmts allowed = some true) :
    allowed = true ∨ ∃ stmt ∈ stmts,
      env.ArnMatch (interpolateUser stmt.Resource user) perm.Resource = true
      ∧ stmt.Effect ≠ env.StatementEffectDeny
      ∧ ∃ action ∈ stmt.Action, env.wildcardMatch action perm.Action = true := by
  induction stmts generalizing allowed with
  | nil =>
    simp only [authorizeStatements, Option.some.injEq] at h
    exact Or.inl h
  | cons stmt rest ih =>
    simp only [authorizeStatements] at h
    by_cases hm : env.ArnMatch (interpolateUser stmt.Resource user) perm.Resource = true
    · simp only [hm, Bool.not_true, Bool.false_eq_true, if_false] at h
      cases hact : authorizeActions env stmt perm stmt.Action allowed with
      | none => simp [hact] at h
      | some a =>
        simp only [hact] at h
        rcases ih a h with h1 | ⟨s, hs, h2⟩
        · subst h1
          rcases authorizeActions_allowed env stmt perm stmt.Action allowed hact with
            h3 | ⟨action, hin, hw, hd⟩
          · exact Or.inl h3
          · exact Or.inr ⟨stmt, List.mem_cons_self _ _, hm, hd, action, hin, hw⟩
        · exact Or.inr ⟨s, List.mem_cons_of_mem _ hs, h2⟩
    · simp only [hm, Bool.not_false, if_true] at h
      rcases ih allowed h with h1 | ⟨s, hs, h2⟩
      · exact Or.inl h1
      · exact Or.inr ⟨s, List.mem_cons_of_mem _ hs, h2⟩

theorem authorizePolicies_allowed (env : Env) (user : String) (perm : Permission)
    (policies : List Policy) (allowed : Bool)
    (h : authorizePolicies env user perm policies allowed = some true) :
    allowed = true ∨ ∃ policy ∈ policies, ∃ stmt ∈ policy.Statement,
      env.ArnMatch (interpolateUser stmt.Resource user) perm.Resource = true
      ∧ stmt.Effect ≠ env.StatementEffectDeny
      ∧ ∃ action ∈ stmt.Action, env.wildcardMatch action perm.Action = true := by
  induction policies generalizing allowed with
  | nil =>
    simp only [authorizePolicies, Option.some.injEq] at h
    exact Or.inl h
  | cons policy rest ih =>
    simp only [authorizePolicies] at h
    cases hst : authorizeStatements env user perm policy.Statement allowed with
    | none => simp [hst] at h
    | some a =>
      simp only [hst] at h
      rcases ih a h with h1 | ⟨p, hp, h2⟩
      · subst h1
        rcases authorizeStatements_allowed env user perm policy.Statement allowed hst with
          h3 | ⟨stmt, hin, h4⟩
        · exact Or.inl h3
        · exact Or.inr ⟨policy, List.mem_cons_self _ _, stmt, hin, h4⟩
      · exact Or.inr ⟨p, List.mem_cons_of_mem _ hp, h2⟩

theorem authorizePermissions_allowed (env : Env) (user : String) (policies : List Policy)
    (perms : List Permission) (allowed : Bool)
    (h : authorizePermissions env user policies perms allowed = some true) :
    allowed = true ∨ ∃ perm ∈ perms, ∃ policy ∈ policies, ∃ stmt ∈ policy.Statement,
      env.ArnMatch (interpolateUser stmt.Resource user) perm.Resource = true
      ∧ stmt.Effect ≠ env.StatementEffectDeny
      ∧ ∃ action ∈ stmt.Action, env.wildcardMatch action perm.Action = true := by
  induction perms generalizing allowed with
  | nil =>
    simp only [authorizePermissions, Option.some.injEq] at h
    exact Or.inl h
  | cons perm rest ih =>
    simp only [authorizePermissions] at h
    cases hp : authorizePolicies env user perm policies allowed with
    | none => simp [hp] at h
    | some a =>
      simp only [hp] at h
      rcases ih a h with h1 | ⟨q, hq, h2⟩
      · subst h1
        rcases authorizePolicies_allowed env user perm policies allowed hp with
          h3 | ⟨policy, hin, h4⟩
        · exact Or.inl h3
        · exact Or.inr ⟨perm, List.mem_cons_self _ _, policy, hin, h4⟩
      · exact Or.inr ⟨q, List.mem_cons_of_mem _ hq, h2⟩

/-- What a granted request guarantees: when `Authorize` answers
`Allowed = true`, SOME required permission is matched, resource and action,
by a statement of an effective policy whose effect is not Deny.  (A single
flag `allowed` serves all required permissions.) -/
theorem Authorize_allowed_some_permission (env : Env) (db : Database)
    (req : AuthorizationRequest) (resp : AuthorizationResponse)
    (h : DBAuthService.Authorize env db req = .returned resp) (ha : resp.Allowed = true) :
    ∃ perm ∈ req.RequiredPermissions, ∃ policy ∈ resolvePolicies db req.UserDisplayName,
      ∃ stmt ∈ policy.Statement,
        env.ArnMatch (interpolateUser stmt.Resource req.UserDisplayName) perm.Resource = true
        ∧ stmt.Effect ≠ env.StatementEffectDeny
        ∧ ∃ action ∈ stmt.Action, env.wildcardMatch action perm.Action = true := by
  have hpol := ListEffectivePolicies_all db req.UserDisplayName ""
  unfold DBAuthService.Authorize at h
  rw [hpol] at h
  dsimp only at h
  cases hperm : authorizePermissions env req.UserDisplayName
      ((resolvePolicies db req.UserDisplayName).insertionSort policyOrder)
      req.RequiredPermissions false with
  | none =>
    rw [hperm] at h
    simp only [Outcome.returned.injEq] at h
    rw [← h] at ha
    cases ha
  | some allowed =>
    rw [hperm] at h
    cases allowed with
    | false =>
      simp only [Bool.not_false, if_true, Outcome.returned.injEq] at h
      rw [← h] at ha
      cases ha
    | true =>
      rcases authorizePermissions_allowed env _ _ _ _ hperm with h1 | ⟨perm, hin, policy, hp, h2⟩
      · cases h1
      · exact ⟨perm, hin, policy,
          ((List.perm_insertionSort policyOrder _).mem_iff).mp hp, h2⟩

/-- C26 (the code at the failing input): `carol` has one policy, which
allows `fs:Read` only.  A request that requires `fs:Read` and `fs:Write` is
granted, although no statement matches `fs:Write`: the flag set by the
first permission is never reset.  The request for `fs:Write` alone, and the
request with no required permission, are refused. -/
theorem Authorize_grants_with_uncovered_permission :
    DBAuthService.Authorize exampleEnv exampleReadOnlyDb
        { UserDisplayName := "carol",
          RequiredPermissions := [⟨"fs:Read", "arn:x"⟩, ⟨"fs:Write", "arn:x"⟩] }
      = .returned { Allowed := true, Error := none }
    ∧ DBAuthService.Authorize exampleEnv exampleReadOnlyDb
        { UserDisplayName := "carol", RequiredPermissions := [⟨"fs:Write", "arn:x"⟩] }
      = .returned { Allowed := false, Error := some .ErrInsufficientPermissions }
    ∧ DBAuthService.Authorize exampleEnv exampleReadOnlyDb
        { UserDisplayName := "carol", RequiredPermissions := [] }
      = .returned { Allowed := false, Error := some .ErrInsufficientPermissions } := by
  decide

end Auth

/-! ## The index: revert to a commit and reads through the workspace (C23, C24) -/

namespace Index

variable {τ : Type}

/-- What `RevertCommit` does when its arguments are valid: it succeeds
exactly when the commit and the branch exist, and then leaves the branch's
workspace empty and the branch record at the commit, with both roots at the
commit's tree; a read error of the commit is returned and the store is left
as it was. -/
theorem RevertCommit_result (env : Env τ) (st : Store τ) (repoId branch commit : String)
    (hv : ValidateAll [env.ValidateRepoId repoId, env.ValidateRef branch,
      env.ValidateCommitID commit] = none) :
    (∀ b c, ReadBranch st branch = .ok b → ReadCommit st commit = .ok c →
      DBIndex.RevertCommit env st repoId branch commit
        = (.ok (), WriteBranch (ClearWorkspace st branch) branch
            { b with CommitId := commit, CommitRoot := c.Tree, WorkspaceRoot := c.Tree }))
    ∧ (∀ e, ReadCommit st commit = .error e →
      DBIndex.RevertCommit env st repoId branch commit = (.error e, st))
    ∧ (∀ c e, ReadCommit st commit = .ok c → ReadBranch st branch = .error e →
      DBIndex.RevertCommit env st repoId branch commit = (.error e, st)) := by
  have hrc : ReadCommit (ClearWorkspace st branch) commit = ReadCommit st commit := rfl
  have hrb : ReadBranch (ClearWorkspace st branch) branch = ReadBranch st branch := rfl
  refine ⟨?_, ?_, ?_⟩
  · intro b c hb hc
    unfold DBIndex.RevertCommit
    rw [hv]
    apply RepoTransact_ok
    simp [RevertCommitTx, hrc, hrb, hb, hc, bind, Except.bind, pure, Except.pure]
  · intro e hc
    unfold DBIndex.RevertCommit
    rw [hv]
    apply RepoTransact_error
    simp [RevertCommitTx, hrc, hc, bind, Except.bind]
  · intro c e hc hb
    unfold DBIndex.RevertCommit
    rw [hv]
    apply RepoTransact_error
    simp [RevertCommitTx, hrc, hrb, hb, hc, bind, Except.bind]

/-- C23: for valid arguments, an existing branch `b` and an existing commit
`c`, `RevertCommit(b, c)` succeeds and afterwards the workspace of `b` is
empty and the branch record of `b` has `CommitId = c`, `CommitRoot` and
`WorkspaceRoot` equal to the tree of `c`, its other fields unchanged; when
`c` does not exist (the read of the commit fails) the operation fails with
that error and the store, hence the branch record and the workspace, is as
before. -/
theorem RevertCommit_postcondition (env : Env τ) (st : Store τ)
    (repoId branch commit : String) (b : Branch)
    (hv : ValidateAll [env.ValidateRepoId repoId, env.ValidateRef branch,
      env.ValidateCommitID commit] = none)
    (hb : ReadBranch st branch = .ok b) :
    (∀ c, ReadCommit st commit = .ok c →
      (DBIndex.RevertCommit env st repoId branch commit).1 = .ok ()
      ∧ ListWorkspace (DBIndex.RevertCommit env st repoId branch commit).2 branch = []
      ∧ ReadBranch (DBIndex.RevertCommit env st repoId branch commit).2 branch
          = .ok { b with CommitId := commit, CommitRoot := c.Tree, WorkspaceRoot := c.Tree })
    ∧ (∀ e, ReadCommit st commit = .error e →
      (DBIndex.RevertCommit env st repoId branch commit).1 = .error e
      ∧ (DBIndex.RevertCommit env st repoId branch commit).2 = st
      ∧ ReadBranch (DBIndex.RevertCommit env st repoId branch commit).2 branch = .ok b
      ∧ ListWorkspace (DBIndex.RevertCommit env st repoId branch commit).2 branch
          = ListWorkspace st branch) := by
  obtain ⟨h1, h2, -⟩ := RevertCommit_result env st repoId branch commit hv
  refine ⟨?_, ?_⟩
  · intro c hc
    rw [h1 b c hb hc]
    exact ⟨rfl, by simp, by simp⟩
  · intro e hc
    rw [h2 e hc]
    exact ⟨rfl, rfl, hb, rfl⟩

/-- Witness of C23: `master` (head `c1`) with one live workspace row is
reverted to the commit `c2`, whose tree is `r2`; reverting to the missing
commit `c9` fails and changes nothing. -/
theorem RevertCommit_postcondition_witness :
    ((DBIndex.RevertCommit exampleEnv (exampleStore [exampleLiveRow "x"]) "repo" "master"
        "c2").1 = .ok ()
      ∧ ListWorkspace (DBIndex.RevertCommit exampleEnv (exampleStore [exampleLiveRow "x"]) "repo"
          "master" "c2").2 "master" = []
      ∧ ReadBranch (DBIndex.RevertCommit exampleEnv (exampleStore [exampleLiveRow "x"]) "repo"
          "master" "c2").2 "master"
          = .ok { RepositoryId := "repo", Id := "master", CommitId := "c2", CommitRoot := "r2",
                  WorkspaceRoot := "r2" })
    ∧ (DBIndex.RevertCommit exampleEnv (exampleStore [exampleLiveRow "x"]) "repo" "master"
        "c9").1 = .error .ErrNotFound
    ∧ ListWorkspace (DBIndex.RevertCommit exampleEnv (exampleStore [exampleLiveRow "x"]) "repo"
        "master" "c9").2 "master" = [(exampleLiveRow "x").entry] :=
  ⟨(RevertCommit_postcondition exampleEnv (exampleStore [exampleLiveRow "x"]) "repo" "master"
      "c2" exampleMaster rfl rfl).1
      { RepositoryId := "repo", Address := "c2", Tree := "r2", Committer := "",
        Message := "", CreationDate := 0, Parents := ["c1"], Metadata := [] } rfl,
   ((RevertCommit_postcondition exampleEnv (exampleStore [exampleLiveRow "x"]) "repo" "master"
      "c9" exampleMaster rfl rfl).2 .ErrNotFound rfl).1,
   ((RevertCommit_postcondition exampleEnv (exampleStore [exampleLiveRow "x"]) "repo" "master"
      "c9" exampleMaster rfl rfl).2 .ErrNotFound rfl).2.2.2⟩

/-- The reference that `resolveRef` finds does not depend on the workspace
rows. -/
theorem resolveRef_workspace (env : ReadEnv τ) (tx : Store τ) (ws : List WorkspaceRow)
    (ref : String) :
    resolveRef env { tx with workspace := ws } ref = resolveRef env tx ref := rfl

/-- C24: in a transaction on an existing repository, for a reference that
resolves to a branch: if the workspace of the branch holds a tombstone for
the path, `readEntry` and `ReadObject` return `ErrNotFound`, whatever the
tree holds (the tree reads of the environment are arbitrary); if it holds a
live entry (its fields set), `readEntry` returns the entry made of the
workspace entry's fields and `ReadObject` reads the object at its address,
again whatever the tree holds.  For a reference that resolves to a commit
both read the commit's tree, and the result is the same for every content
of the workspace. -/
theorem read_through_workspace (env : ReadEnv τ) (tx : Store τ) (ref path typ : String)
    (repo : Repo) (r : reference)
    (hrepo : ReadRepo tx = .ok repo) (href : resolveRef env tx ref = .ok r) :
    (∀ b we, r.isBranch = true → r.branch = some b →
      ReadFromWorkspace tx b.Id path = .ok we → we.Tombstone = true →
      readEntry env tx ref path typ = some (.error .ErrNotFound)
      ∧ ReadObjectTx env tx ref path = some (.error .ErrNotFound))
    ∧ (∀ b we entry address, r.isBranch = true → r.branch = some b →
      ReadFromWorkspace tx b.Id path = .ok we → we.Tombstone = false →
      entryOfWorkspace we = some entry → we.EntryAddress = some address →
      readEntry env tx ref path typ = some (.ok entry)
      ∧ ReadObjectTx env tx ref path = some (env.ReadObject tx.trees address))
    ∧ (r.isBranch = false → ∀ ws,
      readEntry env { tx with workspace := ws } ref path typ
        = some (env.GetEntry tx.trees r.commit.Tree path typ)
      ∧ ReadObjectTx env { tx with workspace := ws } ref path
        = some (env.GetObject tx.trees r.commit.Tree path)) := by
  refine ⟨?_, ?_, ?_⟩
  · intro b we hisb hb hws htomb
    simp [readEntry, ReadObjectTx, hrepo, href, hisb, hb, hws, htomb]
  · intro b we entry address hisb hb hws htomb hentry haddr
    simp [readEntry, ReadObjectTx, hrepo, href, hisb, hb, hws, htomb, hentry, haddr]
  · intro hisb ws
    have hrepo' : ReadRepo { tx with workspace := ws } = .ok repo := hrepo
    simp [readEntry, ReadObjectTx, hrepo', resolveRef_workspace, href, hisb]

/-- Witness of C24: on `master` the tombstone for `a/b/c` hides the tree
entry; the live row for `x` is returned although the tree does not hold
`x`; at the commit `c1` the tree entry of `a/b/c` is read in spite of the
tombstone in the workspace. -/
theorem read_through_workspace_witness :
    readEntry exampleReadEnv (exampleStore [exampleTombstoneRow "a/b/c", exampleLiveRow "x"])
        "master" "a/b/c" "object" = some (.error .ErrNotFound)
    ∧ readEntry exampleReadEnv (exampleStore [exampleTombstoneRow "a/b/c", exampleLiveRow "x"])
        "master" "x" "object"
      = some (.ok { RepositoryId := "repo", Name := "x", Address := "a", EntryType := "object",
                    CreationDate := 1, Size := 1, Checksum := "s" })
    ∧ readEntry exampleReadEnv (exampleStore [exampleTombstoneRow "a/b/c", exampleLiveRow "x"])
        "c1" "a/b/c" "object"
      = some (.ok { RepositoryId := "repo", Name := "a/b/c", Address := "addr",
                    EntryType := "object", CreationDate := 0, Size := 1, Checksum := "sum" }) :=
  ⟨((read_through_workspace exampleReadEnv
        (exampleStore [exampleTombstoneRow "a/b/c", exampleLiveRow "x"]) "master" "a/b/c"
        "object" exampleRepo
        { commit := { RepositoryId := "repo", Address := "c1", Tree := "r1", Committer := "",
                      Message := "", CreationDate := 0, Parents := [], Metadata := [] },
          branch := some exampleMaster, isBranch := true } rfl rfl).1
      exampleMaster (exampleTombstoneRow "a/b/c").entry rfl rfl rfl rfl).1,
   ((read_through_workspace exampleReadEnv
        (exampleStore [exampleTombstoneRow "a/b/c", exampleLiveRow "x"]) "master" "x"
        "object" exampleRepo
        { commit := { RepositoryId := "repo", Address := "c1", Tree := "r1", Committer := "",
                      Message := "", CreationDate := 0, Parents := [], Metadata := [] },
          branch := some exampleMaster, isBranch := true } rfl rfl).2.1
      exampleMaster (exampleLiveRow "x").entry
      { RepositoryId := "repo", Name := "x", Address := "a", EntryType := "object",
        CreationDate := 1, Size := 1, Checksum := "s" } "a" rfl rfl rfl rfl rfl rfl).1,
   ((read_through_workspace exampleReadEnv
        (exampleStore []) "c1" "a/b/c"
        "object" exampleRepo
        { commit := { RepositoryId := "repo", Address := "c1", Tree := "r1", Committer := "",
                      Message := "", CreationDate := 0, Parents := [], Metadata := [] },
          branch := none, isBranch := false } rfl rfl).2.2 rfl
      [exampleTombstoneRow "a/b/c", exampleLiveRow "x"]).1⟩

end Index

/-! ## The index: the parent path of workspace rows (C30) -/

namespace Index

variable {τ : Type}

theorem ReadRepo_with_trees (st : Store τ) (trees : τ) (log : List Op) :
    ReadRepo { st with trees := trees, log := log } = ReadRepo st := rfl

/-- `WriteEntry`, `WriteFile` and `WriteObject` file their workspace entry
under `parentPath` of the path, and the entry carries the repository id and
the branch of the operation (for `WriteObject` the path is first passed
through `pth.New(path).String()`). -/
theorem live_entries_filed_under_parent (env : ReadEnv τ) (ts : Int) (chosen : ℚ) (st : Store τ)
    (repoId branch path : String) (entry : Entry) (obj : Object) (repo : Repo) (br : Branch)
    (trees : τ)
    (hv : ValidateAll [env.ValidateRepoId repoId, env.ValidateRef branch,
      env.ValidatePath path] = none)
    (hrepo : ReadRepo st = .ok repo) (hbr : ReadBranch st branch = .ok br)
    (hobj : env.WriteObject st.trees (env.HashObject obj) obj = .ok trees)
    (hupd : ∀ t root es, ∃ r, env.Update t root es = .ok r) :
    (∃ st' ops, DBIndex.WriteEntry env chosen st repoId branch path entry = (.ok (), st')
      ∧ st'.log = st.log
          ++ [.WriteToWorkspacePath branch (parentPath env.toEnv path) path
                (liveEntry env repoId branch path entry)] ++ ops)
    ∧ (∃ st' ops, DBIndex.WriteFile env chosen st repoId branch path entry obj = (.ok (), st')
      ∧ st'.log = st.log ++ [.WriteObject (env.HashObject obj)]
          ++ [.WriteToWorkspacePath branch (parentPath env.toEnv path) path
                (liveEntry env repoId branch path entry)] ++ ops)
    ∧ (∃ st' ops, DBIndex.WriteObject env ts chosen st repoId branch path obj = (.ok (), st')
      ∧ st'.log = st.log ++ [.WriteObject (env.HashObject obj)]
          ++ [.WriteToWorkspacePath branch (parentPath env.toEnv (env.PathString path)) path
                (objectEntry env ts repoId branch path obj)] ++ ops)
    ∧ (liveEntry env repoId branch path entry).RepositoryId = repoId
    ∧ (liveEntry env repoId branch path entry).BranchId = branch
    ∧ (liveEntry env repoId branch path entry).ParentPath = parentPath env.toEnv path
    ∧ (objectEntry env ts repoId branch path obj).RepositoryId = repoId
    ∧ (objectEntry env ts repoId branch path obj).BranchId = branch
    ∧ (objectEntry env ts repoId branch path obj).ParentPath
        = parentPath env.toEnv (env.PathString path) := by
  have hw : WriteObject env st (env.HashObject obj) obj
      = .ok { st with trees := trees, log := st.log ++ [.WriteObject (env.HashObject obj)] } := by
    simp [WriteObject, hobj]
  refine ⟨?_, ?_, ?_, rfl, rfl, rfl, rfl, rfl, rfl⟩
  · obtain ⟨tx', ops, h1, h2, -⟩ := writeEntryToWorkspace_spec env.toEnv chosen st repo branch
      path (liveEntry env repoId branch path entry) br hbr hupd
    refine ⟨tx', ops, ?_, h2⟩
    unfold DBIndex.WriteEntry
    rw [hv]
    apply RepoTransact_ok
    simp [WriteEntryTx, hrepo, h1, bind, Except.bind, pure, Except.pure]
  · obtain ⟨tx', ops, h1, h2, -⟩ := writeEntryToWorkspace_spec env.toEnv chosen
      { st with trees := trees, log := st.log ++ [.WriteObject (env.HashObject obj)] }
      repo branch path (liveEntry env repoId branch path entry) br hbr hupd
    refine ⟨tx', ops, ?_, h2⟩
    unfold DBIndex.WriteFile
    rw [hv]
    apply RepoTransact_ok
    simp [WriteFileTx, hrepo, hw, h1, bind, Except.bind, pure, Except.pure]
  · obtain ⟨tx', ops, h1, h2, -⟩ := writeEntryToWorkspace_spec env.toEnv chosen
      { st with trees := trees, log := st.log ++ [.WriteObject (env.HashObject obj)] }
      repo branch path (objectEntry env ts repoId branch path obj) br hbr hupd
    refine ⟨tx', ops, ?_, h2⟩
    unfold DBIndex.WriteObject
    rw [hv]
    apply RepoTransact_ok
    simp [WriteObjectTx, ReadRepo_with_trees, hrepo, hw, h1, bind, Except.bind, pure,
      Except.pure]

/-- C30 (the code at the failing input): the tree holds `a/b/c`, whose
parent path is `a/b`.  `WriteEntry` files its row for `a/b/c` under `a/b`
with the repository id and the branch in the entry; `DeleteObject` files the
tombstone for `a/b/c` under the empty parent path, and the tombstone carries
an empty repository id, branch id and parent path.  (Both then fold the
workspace into the tree: the partial commit.) -/
theorem tombstone_is_filed_under_empty_parent :
    parentPath exampleReadEnv.toEnv "a/b/c" = "a/b"
    ∧ (DBIndex.WriteEntry exampleReadEnv 0 (exampleStore []) "repo" "master" "a/b/c"
        { RepositoryId := "repo", Name := "c", Address := "addr", EntryType := "object",
          CreationDate := 1, Size := 1, Checksum := "s" }).2.log
      = [.WriteToWorkspacePath "master" "a/b" "a/b/c"
          { RepositoryId := "repo", BranchId := "master", ParentPath := "a/b", Path := "a/b/c"
            EntryName := some "c", EntryAddress := some "addr", EntryType := some "object"
            EntryCreationDate := some 1, EntrySize := some 1, EntryChecksum := some "s"
            Tombstone := false },
         .WriteTrees, .ClearWorkspace "master",
         .WriteBranch "master" { exampleMaster with WorkspaceRoot := "r1+1" }]
    ∧ (DBIndex.DeleteObject exampleReadEnv.toEnv 5 0 (exampleStore []) "repo" "master"
        "a/b/c").1 = .ok ()
    ∧ (DBIndex.DeleteObject exampleReadEnv.toEnv 5 0 (exampleStore []) "repo" "master"
        "a/b/c").2.log
      = [.WriteToWorkspacePath "master" "" "a/b/c"
          { RepositoryId := "", BranchId := "", ParentPath := "", Path := "a/b/c"
            EntryName := some "a/b/c", EntryAddress := none, EntryType := some "object"
            EntryCreationDate := some 5, EntrySize := none, EntryChecksum := none
            Tombstone := true },
         .WriteTrees, .ClearWorkspace "master",
         .WriteBranch "master" { exampleMaster with WorkspaceRoot := "r1+1" }] := by
  refine ⟨by decide, by decide, rfl, by decide⟩

end Index

/-! ## Listing by prefix: the order of texts and the marker (C13 - C16) -/

namespace Catalog

theorem lex_cons_lt_cons {α : Type} [LinearOrder α] {a b : α} {s t : List α} :
    a :: s < b :: t ↔ a < b ∨ (a = b ∧ s < t) := by
  constructor
  · intro h
    cases h with
    | cons h => exact Or.inr ⟨rfl, h⟩
    | rel h => exact Or.inl h
  · rintro (h | ⟨rfl, h⟩)
    · exact List.Lex.rel h
    · exact List.Lex.cons h

theorem lex_append_lt_append {α : Type} [LinearOrder α] (s : List α) {t u : List α} : s ++ t < s ++ u ↔ t < u := by
  induction s with
  | nil => simp
  | cons a s ih =>
    rw [List.cons_append, List.cons_append, lex_cons_lt_cons]
    constructor
    · rintro (h | ⟨-, h⟩)
      · exact absurd h (lt_irrefl a)
      · exact ih.mp h
    · intro h
      exact Or.inr ⟨rfl, ih.mpr h⟩

theorem lex_append_le_append {α : Type} [LinearOrder α] (s : List α) {t u : List α} : s ++ t ≤ s ++ u ↔ t ≤ u := by
  rw [← not_lt, ← not_lt, lex_append_lt_append]

theorem lex_nil_lt {α : Type} [LinearOrder α] {t : List α} (h : t ≠ []) : [] < t := by
  cases t with
  | nil => exact absurd rfl h
  | cons a t => exact List.nil_lt_cons a t

theorem lex_lt_append {α : Type} [LinearOrder α] (s : List α) {t : List α} (h : t ≠ []) : s < s ++ t := by
  have := (lex_append_lt_append s (t := []) (u := t)).mpr (lex_nil_lt h)
  simpa using this

theorem lex_le_append {α : Type} [LinearOrder α] (s t : List α) : s ≤ s ++ t := by
  have := (lex_append_le_append s (t := []) (u := t)).mpr List.nil_le
  simpa using this

/-- A list between `a ++ x` and `a ++ y` starts with `a`. -/
theorem lex_between {α : Type} [LinearOrder α] (a : List α) {x y q : List α} (h1 : a ++ x ≤ q) (h2 : q < a ++ y) :
    ∃ t, q = a ++ t ∧ x ≤ t ∧ t < y := by
  induction a generalizing q with
  | nil => exact ⟨q, rfl, by simpa using h1, by simpa using h2⟩
  | cons c a ih =>
    cases q with
    | nil =>
      exact absurd (List.nil_lt_cons c (a ++ x)) (not_lt.mpr h1)
    | cons d q =>
      rw [List.cons_append, lex_cons_lt_cons] at h2
      rw [List.cons_append, ← not_lt, lex_cons_lt_cons, not_or, not_and] at h1
      have hdc : d = c := by
        rcases h2 with h | ⟨h, -⟩
        · exact absurd h h1.1
        · exact h
      subst hdc
      have h2' : q < a ++ y := by
        rcases h2 with h | ⟨-, h⟩
        · exact absurd h (lt_irrefl d)
        · exact h
      obtain ⟨t, rfl, hx, hy⟩ := ih (not_lt.mp (h1.2 rfl)) h2'
      exact ⟨t, rfl, hx, hy⟩

/-- A list between `a ++ x` and `a ++ y`, ends included, starts with `a`. -/
theorem lex_between_le {α : Type} [LinearOrder α] (a : List α) {x y q : List α} (h1 : a ++ x ≤ q) (h2 : q ≤ a ++ y) :
    ∃ t, q = a ++ t ∧ x ≤ t ∧ t ≤ y := by
  rcases h2.lt_or_eq with h | h
  · obtain ⟨t, ht, hx, hy⟩ := lex_between a h1 h
    exact ⟨t, ht, hx, hy.le⟩
  · exact ⟨y, h, (lex_append_le_append a).mp (h ▸ h1), le_rfl⟩

theorem takeWhile_append_of_mem {α : Type} [DecidableEq α] {d : α} {w : List α} (h : d ∈ w) :
    ∃ r, w = w.takeWhile (fun c => c ≠ d) ++ d :: r := by
  induction w with
  | nil => cases h
  | cons c w ih =>
    by_cases hc : c = d
    · subst hc
      exact ⟨w, by simp⟩
    · have hd : d ∈ w := by
        rcases List.mem_cons.mp h with h | h
        · exact absurd h.symm hc
        · exact h
      obtain ⟨r, hr⟩ := ih hd
      refine ⟨r, ?_⟩
      rw [List.takeWhile_cons_of_pos (by simpa using hc), List.cons_append, ← hr]

theorem takeWhile_prefix_delim {α : Type} [DecidableEq α] {d : α} (tw t : List α) (h : d ∉ tw) :
    (tw ++ d :: t).takeWhile (fun c => c ≠ d) = tw := by
  induction tw with
  | nil => simp
  | cons c tw ih =>
    rw [List.mem_cons, not_or] at h
    rw [List.cons_append, List.takeWhile_cons_of_pos (by simpa using Ne.symm h.1), ih h.2]

theorem not_mem_takeWhile_ne {α : Type} [DecidableEq α] (d : α) (w : List α) : d ∉ w.takeWhile (fun c => c ≠ d) := by
  intro h
  have := List.mem_takeWhile_imp h
  simp at this

/-- The marker of a text that contains the delimiter. -/
theorem markerOf_of_mem {α : Type} [DecidableEq α] {d dt : α} {w : List α} (h : d ∈ w) :
    markerOf d dt w = w.takeWhile (fun c => c ≠ d) ++ [d, dt] := by
  simp [markerOf, h]

theorem markerOf_of_not_mem {α : Type} [DecidableEq α] {d dt : α} {w : List α} (h : d ∉ w) : markerOf d dt w = w := by
  simp [markerOf, h]

/-- A text whose characters are below the termination character is not
above its marker. -/
theorem le_markerOf {α : Type} [LinearOrder α] [DecidableEq α] {d dt : α} {w : List α} (hw : ∀ c ∈ w, c < dt) : w ≤ markerOf d dt w := by
  by_cases h : d ∈ w
  · obtain ⟨r, hr⟩ := takeWhile_append_of_mem h
    rw [markerOf_of_mem h]
    have hr' : ∀ c ∈ r, c < dt := fun c hc => hw c (by
      rw [hr]; exact List.mem_append_right _ (List.mem_cons_of_mem _ hc))
    have key : d :: r ≤ [d, dt] := by
      cases r with
      | nil => exact (lex_le_append [d] [dt])
      | cons c r =>
        have hc : c < dt := hr' c (List.mem_cons_self _ _)
        exact le_of_lt (lex_cons_lt_cons.mpr (Or.inr ⟨rfl, lex_cons_lt_cons.mpr (Or.inl hc)⟩))
    calc w = w.takeWhile (fun c => c ≠ d) ++ d :: r := hr
      _ ≤ w.takeWhile (fun c => c ≠ d) ++ [d, dt] := (lex_append_le_append _).mpr key
  · rw [markerOf_of_not_mem h]

/-- A text above `w` and not above the marker of `w` has the marker of
`w`: it lies in the same directory. -/
theorem markerOf_eq_of_between {α : Type} [LinearOrder α] [DecidableEq α] {d dt : α} {w x : List α} (h1 : w < x)
    (h2 : x ≤ markerOf d dt w) : markerOf d dt x = markerOf d dt w := by
  by_cases h : d ∈ w
  · obtain ⟨r, hr⟩ := takeWhile_append_of_mem h
    rw [markerOf_of_mem h] at h2 ⊢
    have h1' : (w.takeWhile (fun c => c ≠ d) ++ [d]) ++ r ≤ x := by
      rw [List.append_assoc, List.singleton_append, ← hr]
      exact h1.le
    have h2' : x ≤ (w.takeWhile (fun c => c ≠ d) ++ [d]) ++ [dt] := by
      rw [List.append_assoc]
      exact h2
    obtain ⟨t, ht, -, -⟩ := lex_between_le _ h1' h2'
    have hx : x = w.takeWhile (fun c => c ≠ d) ++ d :: t := by
      rw [ht, List.append_assoc, List.singleton_append]
    have hdx : d ∈ x := by
      rw [hx]
      exact List.mem_append_right _ (List.mem_cons_self _ _)
    rw [markerOf_of_mem hdx]
    congr 1
    rw [hx]
    exact takeWhile_prefix_delim _ _ (not_mem_takeWhile_ne d w)
  · rw [markerOf_of_not_mem h] at h2
    exact absurd h1 (not_lt.mpr h2)

theorem markerOf_ne_nil {α : Type} [DecidableEq α] {d dt : α} {w : List α} (h : w ≠ []) : markerOf d dt w ≠ [] := by
  by_cases hd : d ∈ w
  · rw [markerOf_of_mem hd]
    simp
  · rw [markerOf_of_not_mem hd]
    exact h



end Catalog

namespace Catalog

theorem strposFrom_single (d : Char) (l : List Char) (i : Nat) :
    strposFrom [d] l i
      = if d ∈ l then i + (l.takeWhile (fun c => c ≠ d)).length else 0 := by
  induction l generalizing i with
  | nil => simp [strposFrom]
  | cons c l ih =>
    by_cases hc : c = d
    · subst hc
      simp [strposFrom, List.isPrefixOf]
    · have hdc : ¬ d = c := fun h => hc h.symm
      have hb : (d == c) = false := by simpa using hdc
      simp only [strposFrom, List.isPrefixOf, hb, Bool.false_and, Bool.false_eq_true, if_false,
        ih, List.mem_cons, hdc, false_or]
      rw [List.takeWhile_cons_of_pos (by simpa using hc)]
      split
      · simp; omega
      · simp

theorem take_through_delim {d : Char} {l : List Char} (h : d ∈ l) :
    l.take ((l.takeWhile (fun c => c ≠ d)).length + 1)
      = l.takeWhile (fun c => c ≠ d) ++ [d] := by
  induction l with
  | nil => cases h
  | cons c l ih =>
    by_cases hc : c = d
    · subst hc
      simp
    · have hd : d ∈ l := by
        rcases List.mem_cons.mp h with h | h
        · exact absurd h.symm hc
        · exact h
      rw [List.takeWhile_cons_of_pos (by simpa using hc), List.length_cons, List.take_succ_cons,
        ih hd, List.cons_append]

theorem DirectoryTermination_toList :
    DirectoryTermination.toList = [DirectoryTerminationChar] := rfl

/-- The marker column in closed form, for a delimiter of one character. -/
theorem getNextMarkerV_toList (n : Nat) (delimiter : String) (d : Char)
    (hd : delimiter.toList = [d]) (path : String) :
    (getNextMarkerV n delimiter path).toList
      = markerOf d DirectoryTerminationChar (path.toList.drop (n - 1)) := by
  unfold getNextMarkerV sqlStrpos sqlSubstr sqlLeft
  simp only [String.toList] at hd ⊢
  simp only [hd, strposFrom_single]
  by_cases h : d ∈ List.drop (n - 1) path.data
  · rw [markerOf_of_mem h]
    simp only [h, if_true]
    rw [if_pos (by omega), String.data_append, Nat.add_comm 1 _, take_through_delim h]
    show _ ++ [DirectoryTerminationChar] = _
    simp
  · rw [markerOf_of_not_mem h]
    simp [h]

end Catalog

namespace Catalog

theorem sqlMinPath_none {l : List String} (h : sqlMinPath l = none) : l = [] := by
  cases l with
  | nil => rfl
  | cons p rest =>
    simp only [sqlMinPath] at h
    split at h
    · cases h
    · split at h <;> cases h

/-- The path that `min(path)` returns is one of the rows and no row is
below it. -/
theorem sqlMinPath_some {l : List String} {q : String} (h : sqlMinPath l = some q) :
    q ∈ l ∧ ∀ y ∈ l, ¬ pathLt y q := by
  induction l generalizing q with
  | nil => cases h
  | cons p rest ih =>
    simp only [sqlMinPath] at h
    split at h
    · rename_i hnone
      cases h
      have hrest := sqlMinPath_none hnone
      subst hrest
      refine ⟨List.mem_cons_self _ _, fun y hy => ?_⟩
      rw [List.mem_singleton] at hy
      subst hy
      exact pathLt_irrefl _
    · rename_i m hm
      obtain ⟨hmem, hmin⟩ := ih hm
      split at h
      · rename_i hlt
        cases h
        refine ⟨List.mem_cons_of_mem _ hmem, fun y hy => ?_⟩
        rcases List.mem_cons.mp hy with rfl | hy
        · exact fun hyq => lt_asymm hlt hyq
        · exact hmin y hy
      · rename_i hlt
        cases h
        refine ⟨List.mem_cons_self _ _, fun y hy => ?_⟩
        rcases List.mem_cons.mp hy with rfl | hy
        · exact pathLt_irrefl _
        · intro hyq
          exact hmin y hy (lt_of_lt_of_le hyq (not_lt.mp hlt))

/-- The recursion of `dir_list` stops by itself: once `num` has passed
`maxLines` no row is added, so any fuel beyond `maxLines` steps gives the
same rows. -/
theorem dirListRows_fuel_from (next : String → Option String) (maxLines : Int) (fuel : Nat)
    (num : Int) (marker : Option String) (extra : Nat)
    (h : maxLines + 1 ≤ num + fuel) :
    dirListRows next maxLines (fuel + extra) num marker
      = dirListRows next maxLines fuel num marker := by
  induction fuel generalizing num marker with
  | zero =>
    cases extra with
    | zero => rfl
    | succ e =>
      have hnot : ¬ num ≤ maxLines := by
        simp only [Nat.cast_zero, add_zero] at h
        omega
      rw [Nat.zero_add]
      cases marker <;> simp [dirListRows, hnot]
  | succ fuel ih =>
    have hsucc : fuel + 1 + extra = (fuel + extra) + 1 := by omega
    rw [hsucc]
    cases marker with
    | none => simp [dirListRows]
    | some m =>
      simp only [dirListRows]
      rw [ih (num + 1) (next m) (by push_cast at h ⊢; omega)]

/-- The fuel `maxLines` given to `dirListRows` by `sqListByPrefix` is enough:
more fuel gives the same rows. -/
theorem dirListRows_fuel (next : String → Option String) (maxLines : Int)
    (marker : Option String) (extra : Nat) :
    dirListRows next maxLines (maxLines.toNat + extra) 1 marker
      = dirListRows next maxLines maxLines.toNat 1 marker :=
  dirListRows_fuel_from next maxLines maxLines.toNat 1 marker extra (by omega)

/-- The rows of `dir_list`, read as the paths they stand for: the markers
returned are the marker column `g` on a sequence of paths `qs` that starts
with the path of the first row, each path being the one selected after the
marker of the one before; there are at most `fuel + 1` of them, and when
there are fewer the sequence ended because the last marker is empty or no
path is selected after it. -/
theorem dirListRows_paths (sel : String → Option String) (g : String → String) (pfx : String)
    (maxLines : Int) (fuel : Nat) (num : Int) (oq : Option String)
    (hnum : 1 ≤ num) (hinv : num + fuel = maxLines.toNat + 1) :
    ∃ qs : List String,
      (dirListRows (fun m => (sel (pfx ++ m)).map g) maxLines fuel num (oq.map g)).filterMap
          (fun d => d.2) = qs.map g
      ∧ qs.head? = oq
      ∧ List.Chain' (fun q q' => sel (pfx ++ g q) = some q') qs
      ∧ qs.length ≤ fuel + 1
      ∧ (qs.length ≤ fuel → ∀ last ∈ qs.getLast?,
          (g last).length = 0 ∨ sel (pfx ++ g last) = none) := by
  induction fuel generalizing num oq with
  | zero =>
    cases oq with
    | none => exact ⟨[], by simp [dirListRows], rfl, List.chain'_nil, by simp, by simp⟩
    | some q =>
      exact ⟨[q], by simp [dirListRows], rfl, List.chain'_singleton _, by simp, by simp⟩
  | succ fuel ih =>
    cases oq with
    | none => exact ⟨[], by simp [dirListRows], rfl, List.chain'_nil, by simp, by simp⟩
    | some q =>
      have hle : num ≤ maxLines := by omega
      by_cases hlen : (g q).length > 0
      · obtain ⟨qs, hout, hhead, hchain, hlen', hlast⟩ :=
          ih (num + 1) (sel (pfx ++ g q)) (by omega) (by push_cast at hinv ⊢; omega)
        refine ⟨q :: qs, ?_, rfl, ?_, by simp; omega, ?_⟩
        · simp only [dirListRows, Option.map_some', hle, hlen, and_self, if_true,
            List.filterMap_cons, List.map_cons]
          rw [hout]
        · exact hchain.cons' (fun y hy => by rw [hhead] at hy; exact hy)
        · intro hshort last hl
          cases qs with
          | nil =>
            simp only [List.getLast?_singleton, Option.mem_def, Option.some.injEq] at hl
            subst hl
            exact Or.inr (by simpa using hhead.symm)
          | cons q' qs' =>
            have : (q :: q' :: qs').getLast? = (q' :: qs').getLast? := by simp [List.getLast?_cons_cons]
            rw [this] at hl
            exact hlast (by simp at hshort ⊢; omega) last hl
      · refine ⟨[q], ?_, rfl, List.chain'_singleton _, by simp, ?_⟩
        · simp [dirListRows, hlen]
        · intro _ last hl
          simp only [List.getLast?_singleton, Option.mem_def, Option.some.injEq] at hl
          subst hl
          exact Or.inl (by omega)

end Catalog

namespace Catalog

/-- The path selected by `SELECT min(path) ... WHERE e.path > lower and
e.path < upper`: the least path of the range. -/
theorem range_min_some {top : List String} {lower upper q : String}
    (h : sqlMinPath (top.filter fun p => decide (pathLt lower p) && decide (pathLt p upper))
      = some q) :
    q ∈ top ∧ pathLt lower q ∧ pathLt q upper
      ∧ ∀ y ∈ top, pathLt lower y → pathLt y upper → ¬ pathLt y q := by
  obtain ⟨hmem, hmin⟩ := sqlMinPath_some h
  rw [List.mem_filter] at hmem
  simp only [Bool.and_eq_true, decide_eq_true_eq] at hmem
  refine ⟨hmem.1, hmem.2.1, hmem.2.2, fun y hy h1 h2 => hmin y ?_⟩
  rw [List.mem_filter]
  simp only [Bool.and_eq_true, decide_eq_true_eq]
  exact ⟨hy, h1, h2⟩

theorem range_min_none {top : List String} {lower upper : String}
    (h : sqlMinPath (top.filter fun p => decide (pathLt lower p) && decide (pathLt p upper))
      = none) :
    ∀ y ∈ top, ¬ (pathLt lower y ∧ pathLt y upper) := by
  intro y hy hr
  have hnil := sqlMinPath_none h
  have : y ∈ top.filter fun p => decide (pathLt lower p) && decide (pathLt p upper) := by
    rw [List.mem_filter]
    simp only [Bool.and_eq_true, decide_eq_true_eq]
    exact ⟨hy, hr⟩
  rw [hnil] at this
  cases this

theorem toList_append (a b : String) : (a ++ b).toList = a.toList ++ b.toList := by
  simp [String.toList]

/-- The marker of a path that starts with the prefix, when the byte length
of the prefix is its length in characters. -/
theorem marker_of_path_below {pfx delimiter q : String} {d : Char} {w : List Char}
    (hd : delimiter.toList = [d]) (h1 : pfx.utf8ByteSize = pfx.length)
    (hw : q.toList = pfx.toList ++ w) :
    (getNextMarkerV (pfx.utf8ByteSize + 1) delimiter q).toList
      = markerOf d DirectoryTerminationChar w := by
  rw [getNextMarkerV_toList _ _ d hd, hw, h1]
  have : pfx.length + 1 - 1 = pfx.toList.length := by
    rw [Nat.add_sub_cancel]
    cases pfx
    rfl
  rw [this, List.drop_left]

/-- A path in the range of the listing above `pfx ++ lower` starts with the
prefix, and what follows the prefix is not empty and above `lower`. -/
theorem below_prefix_of_range {pfx lower q : String}
    (h1 : pathLt (pfx ++ lower) q) (h2 : pathLt q (pfx ++ DirectoryTermination)) :
    ∃ w, q.toList = pfx.toList ++ w ∧ w ≠ [] ∧ lower.toList < w := by
  unfold pathLt at h1 h2
  rw [toList_append] at h1 h2
  obtain ⟨w, hw, -, -⟩ := lex_between pfx.toList h1.le h2
  rw [hw] at h1
  have hlt := (lex_append_lt_append pfx.toList).mp h1
  refine ⟨w, hw, ?_, hlt⟩
  rintro rfl
  exact absurd hlt (List.Lex.not_nil_right _ _)

end Catalog

namespace Catalog

/-- One step of the listing: from a visible path `q` below the prefix to the
path `q'` selected after the marker of `q`. -/
theorem listing_step {top : List String} {pfx delimiter q q' : String} {d : Char}
    (hd : delimiter.toList = [d]) (h1 : pfx.utf8ByteSize = pfx.length)
    (h3 : ∀ p ∈ top, ∀ c ∈ p.toList, c < DirectoryTerminationChar)
    (hq : q ∈ top) (hqw : ∃ w, q.toList = pfx.toList ++ w)
    (hS : sqlMinPath (top.filter fun p =>
        decide (pathLt (pfx ++ getNextMarkerV (pfx.utf8ByteSize + 1) delimiter q) p)
          && decide (pathLt p (pfx ++ DirectoryTermination))) = some q') :
    q' ∈ top ∧ (∃ w', q'.toList = pfx.toList ++ w')
      ∧ pathLt q q'
      ∧ pathLt (getNextMarkerV (pfx.utf8ByteSize + 1) delimiter q)
          (getNextMarkerV (pfx.utf8ByteSize + 1) delimiter q')
      ∧ ∀ x ∈ top, pathLt q x → pathLt x q' →
          getNextMarkerV (pfx.utf8ByteSize + 1) delimiter x
            = getNextMarkerV (pfx.utf8ByteSize + 1) delimiter q := by
  obtain ⟨w, hw⟩ := hqw
  obtain ⟨hq', hlo, hhi, hmin⟩ := range_min_some hS
  obtain ⟨w', hw', -, hlt'⟩ := below_prefix_of_range hlo hhi
  have hm := marker_of_path_below hd h1 hw
  have hm' := marker_of_path_below hd h1 hw'
  have hwlt : ∀ c ∈ w, c < DirectoryTerminationChar := fun c hc =>
    h3 q hq c (by rw [hw]; exact List.mem_append_right _ hc)
  have hwlt' : ∀ c ∈ w', c < DirectoryTerminationChar := fun c hc =>
    h3 q' hq' c (by rw [hw']; exact List.mem_append_right _ hc)
  have hqm : q.toList ≤ (pfx ++ getNextMarkerV (pfx.utf8ByteSize + 1) delimiter q).toList := by
    rw [toList_append, hm, hw]
    exact (lex_append_le_append _).mpr (le_markerOf hwlt)
  refine ⟨hq', ⟨w', hw'⟩, lt_of_le_of_lt hqm hlo, ?_, ?_⟩
  · unfold pathLt
    rw [hm']
    exact lt_of_lt_of_le hlt' (le_markerOf hwlt')
  · intro x hx hqx hxq'
    have hnot : ¬ pathLt (pfx ++ getNextMarkerV (pfx.utf8ByteSize + 1) delimiter q) x :=
      fun h => hmin x hx h (lt_trans hxq' hhi) hxq'
    have hxm : x.toList ≤ pfx.toList ++ markerOf d DirectoryTerminationChar w := by
      have := not_lt.mp hnot
      rwa [toList_append, hm] at this
    have hqx' : pfx.toList ++ w ≤ x.toList := by
      rw [← hw]
      exact le_of_lt hqx
    obtain ⟨t, ht, -, htm⟩ := lex_between_le pfx.toList hqx' hxm
    have hwt : w < t := by
      have : pfx.toList ++ w < pfx.toList ++ t := by
        rw [← hw, ← ht]
        exact hqx
      exact (lex_append_lt_append _).mp this
    apply path_eq_of_toList_eq
    rw [marker_of_path_below hd h1 ht, hm]
    exact markerOf_eq_of_between hwt htm

/-- A property that holds at the head of a chain and is carried along its
links holds for every element, and the links satisfy what the property
adds. -/
theorem chain_carry {α : Type} {P : α → Prop} {R S : α → α → Prop}
    (hstep : ∀ a b, P a → R a b → P b ∧ S a b) :
    ∀ (l : List α), (∀ a ∈ l.head?, P a) → List.Chain' R l →
      (∀ a ∈ l, P a) ∧ List.Chain' S l
  | [], _, _ => ⟨fun _ h => (nomatch h), List.chain'_nil⟩
  | [a], h, _ =>
    ⟨fun b hb => by rw [List.mem_singleton] at hb; subst hb; exact h b rfl,
      List.chain'_singleton _⟩
  | a :: b :: l, h, hc => by
    have ha : P a := h a rfl
    obtain ⟨hab, hc'⟩ := List.chain'_cons.mp hc
    obtain ⟨hb, hS⟩ := hstep a b ha hab
    obtain ⟨hall, hchain⟩ := chain_carry hstep (b :: l) (fun x hx => by cases hx; exact hb) hc'
    refine ⟨fun x hx => ?_, List.chain'_cons.mpr ⟨hS, hchain⟩⟩
    rcases List.mem_cons.mp hx with rfl | hx
    · exact ha
    · exact hall x hx

end Catalog

namespace Catalog

instance pathLt_isTrans : IsTrans String pathLt :=
  ⟨fun a _ c hab hbc => show a.toList < c.toList from lt_trans hab hbc⟩

/-- The query of `sqListByPrefix` as the rows of `dir_list` over the range
selection: the statement of `dirListRows_paths` for the query. -/
theorem sqListByPrefix_paths (k : CommitConsts) (pfx after delimiter : String)
    (branchID maxLines requestedCommit : Int) (lineage : List lineageCommit)
    (entries : List Entry) :
    ∃ qs : List String,
      sqListByPrefix k pfx after delimiter branchID maxLines requestedCommit lineage entries
        = qs.map (getNextMarkerV (pfx.utf8ByteSize + 1) delimiter)
      ∧ qs.head? = sqlMinPath ((sqTopEntryV k branchID requestedCommit lineage entries).filter
          fun p =>
            decide (pathLt (pfx ++ (if delimiter.toList.isSuffixOf after.toList
              then after ++ DirectoryTermination else after)) p)
            && decide (pathLt p (pfx ++ DirectoryTermination)))
      ∧ List.Chain' (fun q q' =>
          sqlMinPath ((sqTopEntryV k branchID requestedCommit lineage entries).filter fun p =>
            decide (pathLt (pfx ++ getNextMarkerV (pfx.utf8ByteSize + 1) delimiter q) p)
              && decide (pathLt p (pfx ++ DirectoryTermination))) = some q') qs
      ∧ qs.length ≤ maxLines.toNat + 1
      ∧ (qs.length ≤ maxLines.toNat → ∀ last ∈ qs.getLast?,
          (getNextMarkerV (pfx.utf8ByteSize + 1) delimiter last).length = 0
          ∨ sqlMinPath ((sqTopEntryV k branchID requestedCommit lineage entries).filter fun p =>
              decide (pathLt (pfx ++ getNextMarkerV (pfx.utf8ByteSize + 1) delimiter last) p)
                && decide (pathLt p (pfx ++ DirectoryTermination))) = none) :=
  dirListRows_paths
    (fun lower => sqlMinPath ((sqTopEntryV k branchID requestedCommit lineage entries).filter
      fun p => decide (pathLt lower p) && decide (pathLt p (pfx ++ DirectoryTermination))))
    (getNextMarkerV (pfx.utf8ByteSize + 1) delimiter) pfx maxLines maxLines.toNat 1 _
    (le_refl 1) (by omega)

end Catalog

namespace Catalog

/-- C13 (amended): when the byte length of the prefix is its length in
characters, the delimiter is one character and every character of every
visible path is below the directory termination character, the markers of
`sqListByPrefix` are the marker column on a sequence `qs` of visible paths
such that: every path of `qs` starts with the prefix and is strictly
greater than `prefix + after`; `qs` and the markers are strictly
increasing, so no marker is returned twice; and every visible path strictly
between two consecutive paths of `qs` has the marker of the earlier one. -/
theorem listing_order_and_start (k : CommitConsts) (pfx after delimiter : String)
    (branchID maxLines requestedCommit : Int) (lineage : List lineageCommit)
    (entries : List Entry) (d : Char)
    (hd : delimiter.toList = [d]) (h1 : pfx.utf8ByteSize = pfx.length)
    (h3 : ∀ p ∈ sqTopEntryV k branchID requestedCommit lineage entries,
      ∀ c ∈ p.toList, c < DirectoryTerminationChar) :
    ∃ qs : List String,
      sqListByPrefix k pfx after delimiter branchID maxLines requestedCommit lineage entries
        = qs.map (getNextMarkerV (pfx.utf8ByteSize + 1) delimiter)
      ∧ (∀ q ∈ qs, q ∈ sqTopEntryV k branchID requestedCommit lineage entries
          ∧ pfx.toList <+: q.toList ∧ pathLt (pfx ++ after) q)
      ∧ qs.Pairwise pathLt
      ∧ (sqListByPrefix k pfx after delimiter branchID maxLines requestedCommit lineage
          entries).Pairwise pathLt
      ∧ (sqListByPrefix k pfx after delimiter branchID maxLines requestedCommit lineage
          entries).Nodup
      ∧ List.Chain' (fun q q' =>
          ∀ x ∈ sqTopEntryV k branchID requestedCommit lineage entries,
            pathLt q x → pathLt x q' →
            getNextMarkerV (pfx.utf8ByteSize + 1) delimiter x
              = getNextMarkerV (pfx.utf8ByteSize + 1) delimiter q) qs := by
  obtain ⟨qs, hout, hhead, hchain, -, -⟩ :=
    sqListByPrefix_paths k pfx after delimiter branchID maxLines requestedCommit lineage entries
  have hcarry := chain_carry
    (P := fun q => q ∈ sqTopEntryV k branchID requestedCommit lineage entries
      ∧ (∃ w, q.toList = pfx.toList ++ w) ∧ pathLt (pfx ++ after) q)
    (S := fun q q' => pathLt q q'
      ∧ pathLt (getNextMarkerV (pfx.utf8ByteSize + 1) delimiter q)
          (getNextMarkerV (pfx.utf8ByteSize + 1) delimiter q')
      ∧ ∀ x ∈ sqTopEntryV k branchID requestedCommit lineage entries,
          pathLt q x → pathLt x q' →
          getNextMarkerV (pfx.utf8ByteSize + 1) delimiter x
            = getNextMarkerV (pfx.utf8ByteSize + 1) delimiter q)
    (fun q q' hP hR => by
      obtain ⟨hq', hw', hlt, hm, hskip⟩ := listing_step hd h1 h3 hP.1 hP.2.1 hR
      exact ⟨⟨hq', hw', lt_trans hP.2.2 hlt⟩, hlt, hm, hskip⟩)
    qs
    (fun q hq => by
      rw [hhead] at hq
      obtain ⟨hmem, hlo, hhi, -⟩ := range_min_some hq
      obtain ⟨w, hw, -, -⟩ := below_prefix_of_range hlo hhi
      refine ⟨hmem, ⟨w, hw⟩, lt_of_le_of_lt ?_ hlo⟩
      rw [toList_append, toList_append]
      apply (lex_append_le_append _).mpr
      split
      · rw [toList_append]
        exact lex_le_append _ _
      · exact le_refl _)
    hchain
  obtain ⟨hall, hS⟩ := hcarry
  have hmark : (sqListByPrefix k pfx after delimiter branchID maxLines requestedCommit lineage
      entries).Pairwise pathLt := by
    rw [hout]
    exact List.chain'_iff_pairwise.mp
      ((List.chain'_map _).mpr (hS.imp (fun _ _ h => h.2.1)))
  refine ⟨qs, hout, fun q hq => ?_, ?_, hmark, ?_, hS.imp (fun _ _ h => h.2.2)⟩
  · obtain ⟨hmem, ⟨w, hw⟩, hafter⟩ := hall q hq
    exact ⟨hmem, hw ▸ List.prefix_append _ _, hafter⟩
  · exact List.chain'_iff_pairwise.mp (hS.imp (fun _ _ h => h.1))
  · refine hmark.imp ?_
    intro a b hab heq
    subst heq
    exact pathLt_irrefl a hab

end Catalog

namespace Catalog

/-- Witness of C13 (amended): the entries of the repository's test, listed
from the start with the delimiter `/`. -/
theorem listing_order_and_start_witness :
    sqListByPrefix exampleConsts "" "" "/" 1 100 0 [] exampleListing
      = ["/" ++ DirectoryTermination, "file1", "file2", "file2/" ++ DirectoryTermination,
         "file3/" ++ DirectoryTermination, "file4", "file5", "file6/" ++ DirectoryTermination,
         "file7", "file8", "file9", "filea"]
    ∧ (sqListByPrefix exampleConsts "" "" "/" 1 100 0 [] exampleListing).Nodup :=
  ⟨by decide,
   (listing_order_and_start exampleConsts "" "" "/" 1 100 0 [] exampleListing '/' rfl rfl
      (by decide)).elim (fun _ h => h.2.2.2.2.1)⟩

/-- C13 (counterexample): the visible paths `d/a` and `d/` followed by the
character 1100000 and `x`, listed with the delimiter `/` and `maxLines = 2`.
The second path is above `d/` followed by the termination character, so it
is selected again and again: the marker of the directory `d/` is returned
three times. -/
theorem listing_repeats_marker_above_termination :
    sqListByPrefix exampleConsts "" "" "/" 1 2 0 []
        (["d/a", "d/" ++ String.singleton (Char.ofNat 1100000) ++ "x"].map exampleFile)
      = ["d/" ++ DirectoryTermination, "d/" ++ DirectoryTermination,
         "d/" ++ DirectoryTermination]
    ∧ ¬ (sqListByPrefix exampleConsts "" "" "/" 1 2 0 []
        (["d/a", "d/" ++ String.singleton (Char.ofNat 1100000) ++ "x"].map exampleFile)).Nodup := by
  decide

/-- In a chain of `N + 1` elements the last of the first `N` is linked to
the last element. -/
theorem chain_last_take {α : Type} {R : α → α → Prop} {l : List α} {N : Nat} (hN : 1 ≤ N)
    (hlen : l.length = N + 1) (hc : List.Chain' R l) :
    ∃ a ∈ (l.take N).getLast?, ∃ b, R a b := by
  have htake : (l.take N).length = N := by rw [List.length_take]; omega
  have hdrop : (l.drop N).length = 1 := by rw [List.length_drop]; omega
  obtain ⟨b, hb⟩ := List.length_eq_one.mp hdrop
  have hne : l.take N ≠ [] := by
    intro h
    rw [h] at htake
    simp at htake
    omega
  obtain ⟨l1, a, ha⟩ := (List.eq_nil_or_concat (l.take N)).resolve_left hne
  have hl : l = l1 ++ a :: [b] := by
    rw [← List.take_append_drop N l, ha, hb]
    simp
  rw [hl] at hc
  have hab : R a b := (List.chain'_cons.mp (List.chain'_split.mp hc).2).1
  exact ⟨a, by rw [ha]; simp, b, hab⟩

theorem getNextMarkerV_length_pos (n : Nat) (delimiter path : String)
    (h : path.toList.drop (n - 1) ≠ []) : (getNextMarkerV n delimiter path).length > 0 := by
  unfold getNextMarkerV
  dsimp only
  split
  · rw [String.length_append]
    have : DirectoryTermination.length = 1 := rfl
    omega
  · unfold sqlSubstr
    show (path.toList.drop (n - 1)).length > 0
    exact List.length_pos.mpr h

theorem drop_prefix_len {pfx q : String} {w : List Char} (h1 : pfx.utf8ByteSize = pfx.length)
    (hw : q.toList = pfx.toList ++ w) : q.toList.drop (pfx.utf8ByteSize + 1 - 1) = w := by
  have : pfx.utf8ByteSize + 1 - 1 = pfx.toList.length := by
    rw [Nat.add_sub_cancel, h1]
    cases pfx
    rfl
  rw [this, hw, List.drop_left]

/-- The rows of the query: when the byte length of the prefix is its length
in characters, the query of `sqListByPrefix` with `maxLines = n` returns at
most `n + 1` markers; every marker after the first is the marker of a visible
path of the range that follows the marker before it; when no marker is
returned no visible path lies in the range after `after`, and when fewer
than `n + 1` markers are returned no visible path of the range follows the
last one; so for `n >= 1` the marker number `n + 1` is returned exactly when
a visible path of the range follows the last of the first `n` markers. -/
theorem listing_limit (k : CommitConsts) (pfx after delimiter : String)
    (branchID maxLines requestedCommit : Int) (lineage : List lineageCommit)
    (entries : List Entry) (h1 : pfx.utf8ByteSize = pfx.length) :
    (sqListByPrefix k pfx after delimiter branchID maxLines requestedCommit lineage
        entries).length ≤ maxLines.toNat + 1
    ∧ List.Chain' (fun m m' =>
        ∃ p ∈ sqTopEntryV k branchID requestedCommit lineage entries,
          pathLt (pfx ++ m) p ∧ pathLt p (pfx ++ DirectoryTermination)
          ∧ m' = getNextMarkerV (pfx.utf8ByteSize + 1) delimiter p)
        (sqListByPrefix k pfx after delimiter branchID maxLines requestedCommit lineage entries)
    ∧ (sqListByPrefix k pfx after delimiter branchID maxLines requestedCommit lineage entries = []
        → ∀ p ∈ sqTopEntryV k branchID requestedCommit lineage entries,
          ¬ (pathLt (pfx ++ (if delimiter.toList.isSuffixOf after.toList
                then after ++ DirectoryTermination else after)) p
              ∧ pathLt p (pfx ++ DirectoryTermination)))
    ∧ ((sqListByPrefix k pfx after delimiter branchID maxLines requestedCommit lineage
          entries).length ≤ maxLines.toNat →
        ∀ last ∈ (sqListByPrefix k pfx after delimiter branchID maxLines requestedCommit lineage
          entries).getLast?,
        ∀ p ∈ sqTopEntryV k branchID requestedCommit lineage entries,
          ¬ (pathLt (pfx ++ last) p ∧ pathLt p (pfx ++ DirectoryTermination)))
    ∧ (1 ≤ maxLines →
        ((sqListByPrefix k pfx after delimiter branchID maxLines requestedCommit lineage
            entries).length = maxLines.toNat + 1
          ↔ ∃ last ∈ ((sqListByPrefix k pfx after delimiter branchID maxLines requestedCommit
              lineage entries).take maxLines.toNat).getLast?,
            ∃ p ∈ sqTopEntryV k branchID requestedCommit lineage entries,
              pathLt (pfx ++ last) p ∧ pathLt p (pfx ++ DirectoryTermination))) := by
  obtain ⟨qs, hout, hhead, hchain, hlen, hlast⟩ :=
    sqListByPrefix_paths k pfx after delimiter branchID maxLines requestedCommit lineage entries
  -- every path of the sequence has a non-empty part below the prefix
  have hcarry := chain_carry
    (P := fun q => ∃ w, q.toList = pfx.toList ++ w ∧ w ≠ [])
    (S := fun q q' => ∃ p ∈ sqTopEntryV k branchID requestedCommit lineage entries,
      pathLt (pfx ++ getNextMarkerV (pfx.utf8ByteSize + 1) delimiter q) p
      ∧ pathLt p (pfx ++ DirectoryTermination)
      ∧ getNextMarkerV (pfx.utf8ByteSize + 1) delimiter q'
          = getNextMarkerV (pfx.utf8ByteSize + 1) delimiter p)
    (fun q q' _ hR => by
      obtain ⟨hmem, hlo, hhi, -⟩ := range_min_some hR
      obtain ⟨w, hw, hne, -⟩ := below_prefix_of_range hlo hhi
      exact ⟨⟨w, hw, hne⟩, q', hmem, hlo, hhi, rfl⟩)
    qs
    (fun q hq => by
      rw [hhead] at hq
      obtain ⟨-, hlo, hhi, -⟩ := range_min_some hq
      obtain ⟨w, hw, hne, -⟩ := below_prefix_of_range hlo hhi
      exact ⟨w, hw, hne⟩)
    hchain
  obtain ⟨hall, hS⟩ := hcarry
  have hchainOut : List.Chain' (fun m m' =>
      ∃ p ∈ sqTopEntryV k branchID requestedCommit lineage entries,
        pathLt (pfx ++ m) p ∧ pathLt p (pfx ++ DirectoryTermination)
        ∧ m' = getNextMarkerV (pfx.utf8ByteSize + 1) delimiter p)
      (sqListByPrefix k pfx after delimiter branchID maxLines requestedCommit lineage
        entries) := by
    rw [hout]
    exact (List.chain'_map _).mpr hS
  have hcomplete : (sqListByPrefix k pfx after delimiter branchID maxLines requestedCommit
      lineage entries).length ≤ maxLines.toNat →
      ∀ last ∈ (sqListByPrefix k pfx after delimiter branchID maxLines requestedCommit lineage
        entries).getLast?,
      ∀ p ∈ sqTopEntryV k branchID requestedCommit lineage entries,
        ¬ (pathLt (pfx ++ last) p ∧ pathLt p (pfx ++ DirectoryTermination)) := by
    intro hshort last hl
    rw [hout, List.length_map] at hshort
    rw [hout, List.getLast?_map] at hl
    obtain ⟨q, hq, rfl⟩ := Option.map_eq_some'.mp hl
    have hqmem : q ∈ qs := List.mem_of_getLast?_eq_some hq
    obtain ⟨w, hw, hne⟩ := hall q hqmem
    rcases hlast hshort q hq with h0 | hnone
    · have := getNextMarkerV_length_pos (pfx.utf8ByteSize + 1) delimiter q
        (by rw [drop_prefix_len h1 hw]; exact hne)
      omega
    · exact range_min_none hnone
  refine ⟨by rw [hout, List.length_map]; exact hlen, hchainOut, ?_, hcomplete, ?_⟩
  · intro hnil
    rw [hout] at hnil
    have hqs : qs = [] := List.map_eq_nil_iff.mp hnil
    rw [hqs] at hhead
    exact range_min_none hhead.symm
  · intro hmax
    constructor
    · intro hfull
      obtain ⟨a, ha, b, p, hp, hlo, hhi, -⟩ :=
        chain_last_take (N := maxLines.toNat) (by omega) hfull hchainOut
      exact ⟨a, ha, p, hp, hlo, hhi⟩
    · rintro ⟨last, hl, p, hp, hr⟩
      by_contra hne
      have hshort : (sqListByPrefix k pfx after delimiter branchID maxLines requestedCommit
          lineage entries).length ≤ maxLines.toNat := by
        have hle : (sqListByPrefix k pfx after delimiter branchID maxLines requestedCommit
            lineage entries).length ≤ maxLines.toNat + 1 := by
          rw [hout, List.length_map]; exact hlen
        omega
      rw [List.take_of_length_le hshort] at hl
      exact hcomplete hshort last hl p hp hr

end Catalog

namespace Catalog

/-- A marker is never a text that ends with the delimiter: a marker that
contains the delimiter ends with the termination character. -/
theorem markerOf_ne_delimiter_suffixed {d dt : Char} (hdt : d ≠ dt) (w u : List Char) :
    markerOf d dt w ≠ u ++ [d] := by
  intro h
  by_cases hd : d ∈ w
  · rw [markerOf_of_mem hd] at h
    have h' : (w.takeWhile (fun c => c ≠ d) ++ [d]) ++ [dt] = u ++ [d] := by
      rw [List.append_assoc]
      exact h
    have := (List.append_inj' h' rfl).2
    simp only [List.cons.injEq, and_true] at this
    exact hdt this.symm
  · rw [markerOf_of_not_mem hd] at h
    exact hd (h ▸ List.mem_append_right _ (List.mem_singleton_self d))

/-- C15 (amended): for a delimiter of one character `d` other than the
termination character, a path whose part below the prefix is `u` followed
by `d`, with no `d` in `u` (such as `file3/`), gets the marker of a common
prefix: that part followed by the termination character.  It is the marker
of every path below that directory, and no marker returned by
`sqListByPrefix` is the part `u` followed by `d` itself. -/
theorem delimiter_suffixed_entry_is_directory_marker (k : CommitConsts)
    (pfx after delimiter : String) (branchID maxLines requestedCommit : Int)
    (lineage : List lineageCommit) (entries : List Entry) (d : Char) (path : String)
    (u : List Char)
    (hd : delimiter.toList = [d]) (hdt : d ≠ DirectoryTerminationChar)
    (hw : path.toList.drop (pfx.utf8ByteSize + 1 - 1) = u ++ [d]) (hu : d ∉ u) :
    (getNextMarkerV (pfx.utf8ByteSize + 1) delimiter path).toList
        = u ++ [d, DirectoryTerminationChar]
    ∧ (∀ other t, other.toList.drop (pfx.utf8ByteSize + 1 - 1) = u ++ d :: t →
        getNextMarkerV (pfx.utf8ByteSize + 1) delimiter other
          = getNextMarkerV (pfx.utf8ByteSize + 1) delimiter path)
    ∧ ∀ m ∈ sqListByPrefix k pfx after delimiter branchID maxLines requestedCommit lineage
        entries, m.toList ≠ u ++ [d] := by
  have hmark : ∀ t, markerOf d DirectoryTerminationChar (u ++ d :: t)
      = u ++ [d, DirectoryTerminationChar] := by
    intro t
    rw [markerOf_of_mem (List.mem_append_right _ (List.mem_cons_self _ _)),
      takeWhile_prefix_delim u t hu]
  have hpath : (getNextMarkerV (pfx.utf8ByteSize + 1) delimiter path).toList
      = u ++ [d, DirectoryTerminationChar] := by
    rw [getNextMarkerV_toList _ _ d hd, hw]
    exact hmark []
  refine ⟨hpath, ?_, ?_⟩
  · intro other t ht
    apply path_eq_of_toList_eq
    rw [hpath, getNextMarkerV_toList _ _ d hd, ht]
    exact hmark t
  · intro m hm
    obtain ⟨qs, hout, -⟩ :=
      sqListByPrefix_paths k pfx after delimiter branchID maxLines requestedCommit lineage
        entries
    rw [hout] at hm
    obtain ⟨q, -, rfl⟩ := List.mem_map.mp hm
    rw [getNextMarkerV_toList _ _ d hd]
    exact markerOf_ne_delimiter_suffixed hdt _ u

/-- C15 (counterexample): the visible entries `file3/` and `file4`, listed
with the delimiter `/`: the entry `file3/` is returned as the marker of the
common prefix `file3/` (followed by the termination character), not as
itself. -/
theorem entry_ending_with_delimiter_is_collapsed :
    sqListByPrefix exampleConsts "" "" "/" 1 100 0 [] (["file3/", "file4"].map exampleFile)
      = ["file3/" ++ DirectoryTermination, "file4"]
    ∧ "file3/" ∉ sqListByPrefix exampleConsts "" "" "/" 1 100 0 []
        (["file3/", "file4"].map exampleFile)
    ∧ (ListEntriesByLevel exampleConsts "" "" "/" 1 100 0 []
        (["file3/", "file4"].map exampleFile)).1.map (fun r => (r.Path, r.CommonLevel))
      = [("file3/", true), ("file4", false)] := by
  decide

/-- Witness of C15 (amended): the path `file3/` under the empty prefix. -/
theorem delimiter_suffixed_entry_is_directory_marker_witness :
    (getNextMarkerV ("".utf8ByteSize + 1) "/" "file3/").toList
      = "file3".toList ++ ['/', DirectoryTerminationChar] :=
  (delimiter_suffixed_entry_is_directory_marker exampleConsts "" "" "/" 1 100 0 []
    (["file3/", "file4"].map exampleFile) '/' "file3/" "file3".toList rfl (by decide) rfl
    (by decide)).1

end Catalog

namespace Catalog

/-- Every marker of the listing is the marker of a visible path that starts
with the prefix and goes on after it. -/
theorem listing_paths_below (k : CommitConsts) (pfx after delimiter : String)
    (branchID maxLines requestedCommit : Int) (lineage : List lineageCommit)
    (entries : List Entry) :
    ∃ qs : List String,
      sqListByPrefix k pfx after delimiter branchID maxLines requestedCommit lineage entries
        = qs.map (getNextMarkerV (pfx.utf8ByteSize + 1) delimiter)
      ∧ ∀ q ∈ qs, q ∈ sqTopEntryV k branchID requestedCommit lineage entries
          ∧ ∃ w, q.toList = pfx.toList ++ w ∧ w ≠ [] := by
  obtain ⟨qs, hout, hhead, hchain, -, -⟩ :=
    sqListByPrefix_paths k pfx after delimiter branchID maxLines requestedCommit lineage entries
  have hcarry := chain_carry
    (P := fun q => q ∈ sqTopEntryV k branchID requestedCommit lineage entries
      ∧ ∃ w, q.toList = pfx.toList ++ w ∧ w ≠ [])
    (S := fun _ _ => True)
    (fun q q' _ hR => by
      obtain ⟨hmem, hlo, hhi, -⟩ := range_min_some hR
      obtain ⟨w, hw, hne, -⟩ := below_prefix_of_range hlo hhi
      exact ⟨⟨hmem, w, hw, hne⟩, trivial⟩)
    qs
    (fun q hq => by
      rw [hhead] at hq
      obtain ⟨hmem, hlo, hhi, -⟩ := range_min_some hq
      obtain ⟨w, hw, hne, -⟩ := below_prefix_of_range hlo hhi
      exact ⟨hmem, w, hw, hne⟩)
    hchain
  exact ⟨qs, hout, hcarry.1⟩

/-- The result made of the marker of a visible path `q = pfx ++ w`, for the
delimiter `d`: a common level whose path ends with `d` when `w` contains
`d`, otherwise the entry itself, whose path `w` does not end with `d`. -/
theorem levelEntryResult_marker (k : CommitConsts) (pfx q : String) (branchID : Int)
    (requestedCommit : Int) (lineage : List lineageCommit) (entries : List Entry)
    (d : Char) (w : List Char) (m : String)
    (hq : q ∈ sqTopEntryV k branchID requestedCommit lineage entries)
    (hw : q.toList = pfx.toList ++ w)
    (hlt : ∀ c ∈ w, c < DirectoryTerminationChar)
    (hm : m.toList = markerOf d DirectoryTerminationChar w) :
    ((levelEntryResult k pfx branchID requestedCommit lineage entries m).Path.toList.getLast?
        = some d
      ↔ (levelEntryResult k pfx branchID requestedCommit lineage entries m).CommonLevel = true)
    ∧ ((levelEntryResult k pfx branchID requestedCommit lineage entries m).Entry = none
      ↔ (levelEntryResult k pfx branchID requestedCommit lineage entries m).CommonLevel
          = true) := by
  by_cases hd : d ∈ w
  · -- a directory
    rw [markerOf_of_mem hd] at hm
    have hm' : m.toList = (w.takeWhile (fun c => c ≠ d) ++ [d]) ++ [DirectoryTerminationChar] := by
      rw [hm, List.append_assoc]
      rfl
    have hlast : m.toList.getLast? = some DirectoryTerminationChar := by
      rw [hm', List.getLast?_concat]
    have hdrop : m.toList.dropLast = w.takeWhile (fun c => c ≠ d) ++ [d] := by
      rw [hm', List.dropLast_concat]
    unfold levelEntryResult
    rw [if_pos hlast]
    refine ⟨⟨fun _ => rfl, fun _ => ?_⟩, ⟨fun _ => rfl, fun _ => rfl⟩⟩
    show (String.mk m.toList.dropLast).toList.getLast? = some d
    show m.toList.dropLast.getLast? = some d
    rw [hdrop, List.getLast?_concat]
  · -- an entry
    rw [markerOf_of_not_mem hd] at hm
    have hlast : ¬ m.toList.getLast? = some DirectoryTerminationChar := by
      intro h
      have hmem : DirectoryTerminationChar ∈ w := by
        rw [← hm]
        exact List.mem_of_getLast?_eq_some h
      exact lt_irrefl _ (hlt _ hmem)
    have hpath : pfx ++ m = q := by
      apply path_eq_of_toList_eq
      rw [toList_append, hm, hw]
    obtain ⟨e, he, hep, hvis⟩ :=
      (mem_sqTopEntryV k branchID requestedCommit lineage entries q).mp hq
    have hfind : (entries.find? fun e =>
        decide (e.path = pfx ++ m) && rowVisible k branchID requestedCommit lineage e)
        ≠ none := by
      intro hnone
      have := List.find?_eq_none.mp hnone e he
      simp [hpath, hep, hvis] at this
    unfold levelEntryResult
    rw [if_neg hlast]
    refine ⟨⟨fun h => ?_, fun h => (nomatch h)⟩, ⟨fun h => absurd h hfind, fun h => (nomatch h)⟩⟩
    have hmem : d ∈ w := by
      rw [← hm]
      exact List.mem_of_getLast?_eq_some h
    exact absurd hmem hd

/-- C16 (amended): with the delimiter `/`, when the byte length of the prefix
is its length in characters and every character of every visible path is
below the directory termination character, every result of `ListEntriesByLevel`
has a path that ends with `/` if and only if it is a common level, and a
nil entry if and only if it is a common level.  At the query level the
marker of a path is the part `w` of the path below the prefix, cut right
after its first `/` and followed by the termination character, when `w`
contains `/`; otherwise it is `w` itself, with nothing appended. -/
theorem common_level_iff_delimiter_suffix (k : CommitConsts) (pfx after : String)
    (branchID limit requestedCommit : Int) (lineage : List lineageCommit)
    (entries : List Entry)
    (h1 : pfx.utf8ByteSize = pfx.length)
    (h3 : ∀ p ∈ sqTopEntryV k branchID requestedCommit lineage entries,
      ∀ c ∈ p.toList, c < DirectoryTerminationChar) :
    (∀ r ∈ (ListEntriesByLevel k pfx after "/" branchID limit requestedCommit lineage
        entries).1,
      (r.Path.toList.getLast? = some '/' ↔ r.CommonLevel = true)
      ∧ (r.Entry = none ↔ r.CommonLevel = true))
    ∧ ∀ path : String,
      ('/' ∈ path.toList.drop (pfx.utf8ByteSize + 1 - 1) →
        (getNextMarkerV (pfx.utf8ByteSize + 1) "/" path).toList
          = (path.toList.drop (pfx.utf8ByteSize + 1 - 1)).takeWhile (fun c => c ≠ '/')
              ++ ['/', DirectoryTerminationChar])
      ∧ ('/' ∉ path.toList.drop (pfx.utf8ByteSize + 1 - 1) →
        (getNextMarkerV (pfx.utf8ByteSize + 1) "/" path).toList
          = path.toList.drop (pfx.utf8ByteSize + 1 - 1)) := by
  have hd : "/".toList = ['/'] := rfl
  refine ⟨?_, fun path => ⟨fun h => ?_, fun h => ?_⟩⟩
  · intro r hr
    obtain ⟨qs, hout, hall⟩ := listing_paths_below k pfx after "/" branchID limit
      requestedCommit lineage entries
    unfold ListEntriesByLevel at hr
    dsimp only at hr
    obtain ⟨m, hm, rfl⟩ := List.mem_map.mp hr
    have hm' := List.mem_of_mem_take hm
    rw [hout] at hm'
    obtain ⟨q, hq, rfl⟩ := List.mem_map.mp hm'
    obtain ⟨hqV, w, hw', -⟩ := hall q hq
    exact levelEntryResult_marker k pfx q branchID requestedCommit lineage entries '/' w _
      hqV hw'
      (fun c hc => h3 q hqV c (by rw [hw']; exact List.mem_append_right _ hc))
      (marker_of_path_below hd h1 hw')
  · rw [getNextMarkerV_toList _ _ '/' hd, markerOf_of_mem h]
  · rw [getNextMarkerV_toList _ _ '/' hd, markerOf_of_not_mem h]

/-- Witness of C16 (amended): the entries of the repository's test, listed from the
start: the common levels are `/`, `file2/`, `file3/` and `file6/`. -/
theorem common_level_iff_delimiter_suffix_witness :
    (ListEntriesByLevel exampleConsts "" "" "/" 1 100 0 [] exampleListing).1.map
        (fun r => (r.Path, r.CommonLevel, r.Entry.isSome))
      = [("/", true, false), ("file1", false, true), ("file2", false, true),
         ("file2/", true, false), ("file3/", true, false), ("file4", false, true),
         ("file5", false, true), ("file6/", true, false), ("file7", false, true),
         ("file8", false, true), ("file9", false, true), ("filea", false, true)]
    ∧ ∀ r ∈ (ListEntriesByLevel exampleConsts "" "" "/" 1 100 0 [] exampleListing).1,
      (r.Path.toList.getLast? = some '/' ↔ r.CommonLevel = true)
      ∧ (r.Entry = none ↔ r.CommonLevel = true) :=
  ⟨by decide,
   (common_level_iff_delimiter_suffix exampleConsts "" "" 1 100 0 [] exampleListing rfl
      (by decide)).1⟩

/-- C16 (counterexample): one visible entry whose path is `x` followed by the
directory termination character, listed with the delimiter `/`.  The path
holds no `/`, so nothing is appended and the marker is the path itself; it
ends with the termination character, and the result is a common level with
a nil entry whose path `x` does not end with `/`. -/
theorem common_level_without_delimiter_suffix :
    sqListByPrefix exampleConsts "" "" "/" 1 100 0 []
        [exampleFile ("x" ++ DirectoryTermination)]
      = ["x" ++ DirectoryTermination]
    ∧ (ListEntriesByLevel exampleConsts "" "" "/" 1 100 0 []
        [exampleFile ("x" ++ DirectoryTermination)]).1
      = [{ Path := "x", CommonLevel := true, Entry := none }]
    ∧ ¬ ("x".toList.getLast? = some '/') := by
  decide

/-- The marker a result was made of: the path of the result, followed by the
termination character when the result is a common level. -/
theorem levelEntryResult_marker_eq (k : CommitConsts) (pfx : String) (branchID : Int)
    (requestedCommit : Int) (lineage : List lineageCommit) (entries : List Entry)
    (m : String) :
    (levelEntryResult k pfx branchID requestedCommit lineage entries m).Path
      ++ (if (levelEntryResult k pfx branchID requestedCommit lineage entries m).CommonLevel
          then DirectoryTermination else "") = m := by
  unfold levelEntryResult
  split
  · rename_i h
    apply path_eq_of_toList_eq
    simp only [if_true, toList_append, DirectoryTermination_toList]
    exact List.dropLast_append_getLast? _ h
  · apply path_eq_of_toList_eq
    simp [toList_append]

/-- A path that starts with the prefix and has all characters below the
termination character is below the end of the range of the prefix. -/
theorem lt_endOfPrefixRange {pfx p : String}
    (h3 : ∀ c ∈ p.toList, c < DirectoryTerminationChar) (hp : pfx.toList <+: p.toList) :
    pathLt p (pfx ++ DirectoryTermination) := by
  obtain ⟨w, hw⟩ := hp
  unfold pathLt
  rw [toList_append, ← hw, DirectoryTermination_toList]
  apply (lex_append_lt_append _).mpr
  cases w with
  | nil => exact lex_nil_lt (by simp)
  | cons c t =>
    exact lex_cons_lt_cons.mpr (Or.inl (h3 c (by rw [← hw]; simp)))

/-- C14 (amended): for every limit `n >= 1`, when the byte length of the
prefix is its length in characters and every character of every visible path
is below the directory termination character, the listing built by
`sqListByPrefix` with `maxLines = n` returns at most `n` items; `has_more` is
true exactly when a visible path that starts with the prefix lies after the
last returned item (its path, followed by the termination character when it
is a common level); and no item is returned only when no visible path that
starts with the prefix lies after `after` (followed by the termination
character when `after` ends with the delimiter). -/
theorem listing_limit_and_has_more (k : CommitConsts) (pfx after delimiter : String)
    (branchID n requestedCommit : Int) (lineage : List lineageCommit)
    (entries : List Entry) (hn : 1 ≤ n)
    (h1 : pfx.utf8ByteSize = pfx.length)
    (h3 : ∀ p ∈ sqTopEntryV k branchID requestedCommit lineage entries,
      ∀ c ∈ p.toList, c < DirectoryTerminationChar) :
    ((ListEntriesByLevel k pfx after delimiter branchID n requestedCommit lineage
        entries).1.length : Int) ≤ n
    ∧ ((ListEntriesByLevel k pfx after delimiter branchID n requestedCommit lineage
          entries).2 = true
        ↔ ∃ r ∈ (ListEntriesByLevel k pfx after delimiter branchID n requestedCommit lineage
              entries).1.getLast?,
            ∃ p ∈ sqTopEntryV k branchID requestedCommit lineage entries,
              pfx.toList <+: p.toList
              ∧ pathLt (pfx ++ (r.Path ++ (if r.CommonLevel then DirectoryTermination else "")))
                  p)
    ∧ ((ListEntriesByLevel k pfx after delimiter branchID n requestedCommit lineage
          entries).1 = []
        → ∀ p ∈ sqTopEntryV k branchID requestedCommit lineage entries,
            pfx.toList <+: p.toList →
            ¬ pathLt (pfx ++ (if delimiter.toList.isSuffixOf after.toList
                then after ++ DirectoryTermination else after)) p) := by
  obtain ⟨hlen, -, hnil, -, hiff⟩ :=
    listing_limit k pfx after delimiter branchID n requestedCommit lineage entries h1
  have hiff := hiff hn
  have hpos : 1 ≤ n.toNat := by omega
  unfold ListEntriesByLevel
  dsimp only
  refine ⟨?_, ?_, ?_⟩
  · rw [List.length_map, List.length_take]
    have : (min n.toNat (sqListByPrefix k pfx after delimiter branchID n requestedCommit lineage
        entries).length) ≤ n.toNat := Nat.min_le_left _ _
    omega
  · rw [decide_eq_true_eq, List.getLast?_map]
    constructor
    · intro hgt
      obtain ⟨last, hl, p, hp, hlo, hhi⟩ := hiff.mp (by omega)
      obtain ⟨w, hw, -, -⟩ := below_prefix_of_range hlo hhi
      refine ⟨_, Option.mem_map_of_mem _ hl, p, hp, hw ▸ List.prefix_append _ _, ?_⟩
      rw [levelEntryResult_marker_eq]
      exact hlo
    · rintro ⟨r, hr, p, hp, hpre, hlo⟩
      obtain ⟨last, hl, rfl⟩ := Option.mem_map.mp hr
      rw [levelEntryResult_marker_eq] at hlo
      have := hiff.mpr ⟨last, hl, p, hp, hlo, lt_endOfPrefixRange (h3 p hp) hpre⟩
      omega
  · intro hempty p hp hpre hlo
    have htake := List.map_eq_nil_iff.mp hempty
    have hM : sqListByPrefix k pfx after delimiter branchID n requestedCommit lineage entries
        = [] := by
      rcases List.take_eq_nil_iff.mp htake with h | h
      · omega
      · exact h
    exact hnil hM p hp ⟨hlo, lt_endOfPrefixRange (h3 p hp) hpre⟩

/-- C14 (counterexample): the visible paths `a` and the single character
1100000, listed from the start with limit 1.  The second path is not below
the termination character that ends the range of the prefix, so the query
never selects it: the listing returns the item `a` and `has_more` is false,
although a further visible path lies after `a`. -/
theorem has_more_false_with_further_visible_path :
    ((ListEntriesByLevel exampleConsts "" "" "/" 1 1 0 []
        (["a", String.singleton (Char.ofNat 1100000)].map exampleFile)).1.map
          (fun r => (r.Path, r.CommonLevel, r.Entry.isSome)),
      (ListEntriesByLevel exampleConsts "" "" "/" 1 1 0 []
        (["a", String.singleton (Char.ofNat 1100000)].map exampleFile)).2)
      = ([("a", false, true)], false)
    ∧ String.singleton (Char.ofNat 1100000)
        ∈ sqTopEntryV exampleConsts 1 0 []
            (["a", String.singleton (Char.ofNat 1100000)].map exampleFile)
    ∧ pathLt "a" (String.singleton (Char.ofNat 1100000)) := by
  decide

/-- Witness of C14 (amended): the entries of the repository's test, listed
from the start with limit 2: the items `/` and `file1` are returned and
`has_more` is true. -/
theorem listing_limit_and_has_more_witness :
    ((ListEntriesByLevel exampleConsts "" "" "/" 1 2 0 [] exampleListing).1.map
        (fun r => (r.Path, r.CommonLevel, r.Entry.isSome))
      = [("/", true, false), ("file1", false, true)]
      ∧ (ListEntriesByLevel exampleConsts "" "" "/" 1 2 0 [] exampleListing).2 = true)
    ∧ (((ListEntriesByLevel exampleConsts "" "" "/" 1 2 0 [] exampleListing).1.length : Int) ≤ 2
      ∧ ((ListEntriesByLevel exampleConsts "" "" "/" 1 2 0 [] exampleListing).2 = true
        ↔ ∃ r ∈ (ListEntriesByLevel exampleConsts "" "" "/" 1 2 0 [] exampleListing).1.getLast?,
            ∃ p ∈ sqTopEntryV exampleConsts 1 0 [] exampleListing,
              "".toList <+: p.toList
              ∧ pathLt ("" ++ (r.Path ++ (if r.CommonLevel then DirectoryTermination else "")))
                  p)) :=
  ⟨by decide,
   ⟨(listing_limit_and_has_more exampleConsts "" "" "/" 1 2 0 [] exampleListing (by decide) rfl
      (by decide)).1,
    (listing_limit_and_has_more exampleConsts "" "" "/" 1 2 0 [] exampleListing (by decide) rfl
      (by decide)).2.1⟩⟩

end Catalog
